import Mathlib

/-!
# cardQt: stack allocation and piece assignment

A shallow embedding of the stack preview (`CuttingWindow::updateStackPreview`), the textual
summary (`CuttingWindow::updateSummaryText`), the stack widget (`StackWidget::addPiece`), the
piece assignment and its output (`CuttingAnalyzer`), the reprojection of the detections and the
tile positions (`ImageStitcher`) and the capture sequence of the two capture dialogs
(`CaptureSettingsDialog`, `MotorizedCaptureSettingsDialog`) of the cardQt sources.

Conventions of the embedding.
* The C++ `int` values that are counts or indices are natural numbers; values that a subtraction
  can make negative are integers.  All quantities stay far below `2^31`.
* A `for` loop is a left fold over the list of values of its loop variable, the loop body being
  the folded function.
* Reading `cutting_analysis.json` of the surface with index `i` is a function
  `readAnalysis : Nat → Option (List String)`: `none` when the file cannot be opened, and
  otherwise the `toString()` of every value of the array `pieces_with_defects`.
* In the sections on the stack layout, the summary and the piece assignment a `double` is a
  rational number (exact arithmetic).  The sections on binary floating-point arithmetic model
  `float` and `double` as the rationals that IEEE 754 binary32 and binary64 represent, every
  operation rounding its exact result to the nearest one, ties to even; the functions named
  `...Double` and `...Float` follow the declared types of the source in this arithmetic.
* A function that can divide an `int` by zero returns an `Option`, `none` standing for the
  division by zero.
-/

namespace CardQt

/-! ## Stack widgets (`cuttingwindow.h`) -/

/-- One entry of a stack: the arguments of the `StackPieceWidget` constructor. -/
structure StackPieceWidget where
  surfaceNum : Nat
  pieceId : String
  hasDefect : Bool
deriving DecidableEq, Repr

/-- The data of `StackWidget`: its title, `maxCapacity` and the list `pieces`. -/
structure StackWidget where
  label : String
  maxCapacity : Nat
  pieces : List StackPieceWidget
deriving DecidableEq, Repr

/-- The constructor `StackWidget(label, capacity)`: an empty stack. -/
def StackWidget.create (label : String) (capacity : Nat) : StackWidget :=
  { label := label, maxCapacity := capacity, pieces := [] }

/-- `StackWidget::addPiece`: return without effect when the stack is full, append otherwise. -/
def StackWidget.addPiece (st : StackWidget) (surfaceNum : Nat) (pieceId : String)
    (hasDefect : Bool) : StackWidget :=
  if st.pieces.length ≥ st.maxCapacity then st
  else { st with pieces := st.pieces ++ [StackPieceWidget.mk surfaceNum pieceId hasDefect] }

/-! ## Stack preview (`CuttingWindow::updateStackPreview`) -/

/-- The constant `maxPiecesPerStack`. -/
def maxPiecesPerStack : Nat := 50

/-- The piece identifier `QString("x%1y%2").arg(x).arg(y)`. -/
def pieceId (x y : Nat) : String := "x" ++ toString x ++ "y" ++ toString y

/-- The stack title `QString("Stack %1").arg(stackNumber)`. -/
def stackLabel (stackNumber : Nat) : String := "Stack " ++ toString stackNumber

/-- The search loop over `defectPieces` that sets `hasDefect`. -/
def hasDefect (defectPieces : List String) (id : String) : Bool :=
  defectPieces.any (fun value => value == id)

/-- The innermost loop of the X-axis branch: the pieces `x = 1 .. piecesInX` of row `y` of one
surface are added to the stack. -/
def addSurfaceRow (piecesInX : Nat) (defectPieces : List String) (surfaceIndex y : Nat)
    (stack : StackWidget) : StackWidget :=
  (List.range' 1 piecesInX).foldl
    (fun st x => st.addPiece (surfaceIndex + 1) (pieceId x y) (hasDefect defectPieces (pieceId x y)))
    stack

/-- The loop over `surfaceIndex` from `startSurface` up to `endSurface` of the X-axis branch; a
surface whose analysis file cannot be opened is skipped (`continue`). -/
def fillStack (readAnalysis : Nat → Option (List String)) (piecesInX y : Nat)
    (startSurface endSurface : Nat) (stack : StackWidget) : StackWidget :=
  (List.range' startSurface (endSurface - startSurface)).foldl
    (fun st surfaceIndex =>
      match readAnalysis surfaceIndex with
      | none => st
      | some defectPieces => addSurfaceRow piecesInX defectPieces surfaceIndex y st)
    stack

/-- The value `stackGroupsNeeded` of the X-axis branch. -/
def stackGroupsNeeded (totalSurfaces piecesInX : Nat) : Nat :=
  let piecesPerSurface := piecesInX
  let totalPiecesPerY := totalSurfaces * piecesPerSurface
  (totalPiecesPerY + maxPiecesPerStack - 1) / maxPiecesPerStack

/-- The value `surfacesPerGroup` of the X-axis branch. -/
def surfacesPerGroup (piecesInX : Nat) : Nat := maxPiecesPerStack / piecesInX

/-- The body of the loop over `y` of the X-axis branch: the stack of group `groupIndex` and
row `y`. -/
def xAxisStack (readAnalysis : Nat → Option (List String)) (totalSurfaces piecesInX piecesInY : Nat)
    (groupIndex y : Nat) : StackWidget :=
  let stackNumber := y + groupIndex * piecesInY
  let stack := StackWidget.create (stackLabel stackNumber) maxPiecesPerStack
  let startSurface := groupIndex * surfacesPerGroup piecesInX
  let endSurface := min (startSurface + surfacesPerGroup piecesInX) totalSurfaces
  fillStack readAnalysis piecesInX y startSurface endSurface stack

/-- The X-axis branch of `updateStackPreview`: the list `allStacks`. -/
def xAxisStacks (readAnalysis : Nat → Option (List String))
    (totalSurfaces piecesInX piecesInY : Nat) : List StackWidget :=
  (List.range (stackGroupsNeeded totalSurfaces piecesInX)).foldl
    (fun allStacks groupIndex =>
      (List.range' 1 piecesInY).foldl
        (fun allStacks y =>
          allStacks ++ [xAxisStack readAnalysis totalSurfaces piecesInX piecesInY groupIndex y])
        allStacks)
    []

/-- The loop state of the single-stack branch.  The pointer `currentStack` is null while
`allStacks` is empty and points to the last element of `allStacks` afterwards. -/
structure SingleState where
  allStacks : List StackWidget
  currentPieceCount : Nat
  stackCount : Nat
deriving DecidableEq, Repr

/-- Apply `f` to the stack that `currentStack` points to, the last one of the list. -/
def updateCurrent (f : StackWidget → StackWidget) : List StackWidget → List StackWidget
  | [] => []
  | [s] => [f s]
  | s :: t => s :: updateCurrent f t

/-- The body of the loop over `x` of the single-stack branch. -/
def singleStep (defectPieces : List String) (surfaceIndex y : Nat) (st : SingleState) (x : Nat) :
    SingleState :=
  let st1 : SingleState :=
    if st.allStacks.isEmpty || st.currentPieceCount ≥ maxPiecesPerStack then
      { allStacks :=
          st.allStacks ++ [StackWidget.create (stackLabel (st.stackCount + 1)) maxPiecesPerStack],
        currentPieceCount := 0,
        stackCount := st.stackCount + 1 }
    else st
  { st1 with
    allStacks :=
      updateCurrent
        (fun s => s.addPiece (surfaceIndex + 1) (pieceId x y) (hasDefect defectPieces (pieceId x y)))
        st1.allStacks,
    currentPieceCount := st1.currentPieceCount + 1 }

/-- The body of the loop over `surfaceIndex` of the single-stack branch; a surface whose analysis
file cannot be opened is skipped. -/
def singleSurface (readAnalysis : Nat → Option (List String)) (piecesInX piecesInY : Nat)
    (st : SingleState) (surfaceIndex : Nat) : SingleState :=
  match readAnalysis surfaceIndex with
  | none => st
  | some defectPieces =>
    (List.range' 1 piecesInY).foldl
      (fun st y => (List.range' 1 piecesInX).foldl (singleStep defectPieces surfaceIndex y) st)
      st

/-- The single-stack branch of `updateStackPreview`: the list `allStacks`. -/
def singleStacks (readAnalysis : Nat → Option (List String))
    (totalSurfaces piecesInX piecesInY : Nat) : List StackWidget :=
  ((List.range totalSurfaces).foldl (singleSurface readAnalysis piecesInX piecesInY)
    { allStacks := [], currentPieceCount := 0, stackCount := 0 }).allStacks

/-- The stacks that `updateStackPreview` puts into the stack grid.  The safety check at the top
shows a text and no stack when there is no surface or a grid dimension is not positive. -/
def updateStackPreview (useXAxisStacking : Bool) (readAnalysis : Nat → Option (List String))
    (totalSurfaces piecesInX piecesInY : Nat) : List StackWidget :=
  if totalSurfaces = 0 ∨ piecesInX = 0 ∨ piecesInY = 0 then []
  else if useXAxisStacking then xAxisStacks readAnalysis totalSurfaces piecesInX piecesInY
  else singleStacks readAnalysis totalSurfaces piecesInX piecesInY

/-! ## Descriptions of the stack contents -/

/-- The entry that both branches add for piece `(x, y)` of the surface with index
`surfaceIndex`. -/
def entry (defectPieces : List String) (surfaceIndex x y : Nat) : StackPieceWidget :=
  { surfaceNum := surfaceIndex + 1, pieceId := pieceId x y,
    hasDefect := hasDefect defectPieces (pieceId x y) }

/-- The entries of row `y` of one surface, `x` ascending. -/
def rowEntries (piecesInX : Nat) (defectPieces : List String) (surfaceIndex y : Nat) :
    List StackPieceWidget :=
  (List.range' 1 piecesInX).map (fun x => entry defectPieces surfaceIndex x y)

/-- The entries of row `y` that one surface contributes: none when its file is unreadable. -/
def surfaceRow (readAnalysis : Nat → Option (List String)) (piecesInX y surfaceIndex : Nat) :
    List StackPieceWidget :=
  match readAnalysis surfaceIndex with
  | none => []
  | some defectPieces => rowEntries piecesInX defectPieces surfaceIndex y

/-- The surfaces that the stack of group `groupIndex` takes its pieces from. -/
def groupSurfaces (totalSurfaces piecesInX groupIndex : Nat) : List Nat :=
  List.range' (groupIndex * surfacesPerGroup piecesInX)
    (min ((groupIndex + 1) * surfacesPerGroup piecesInX) totalSurfaces
      - groupIndex * surfacesPerGroup piecesInX)

/-- The entries that one surface contributes to the single-stack layout: rows `y` ascending and
`x` ascending within a row, none when its file is unreadable. -/
def surfaceEntries (readAnalysis : Nat → Option (List String)) (piecesInX piecesInY : Nat)
    (surfaceIndex : Nat) : List StackPieceWidget :=
  match readAnalysis surfaceIndex with
  | none => []
  | some defectPieces =>
    (List.range' 1 piecesInY).flatMap (fun y => rowEntries piecesInX defectPieces surfaceIndex y)

/-- The sequence of `addPiece` calls of the single-stack branch, in call order. -/
def singleEntries (readAnalysis : Nat → Option (List String))
    (totalSurfaces piecesInX piecesInY : Nat) : List StackPieceWidget :=
  (List.range totalSurfaces).flatMap (surfaceEntries readAnalysis piecesInX piecesInY)

/-- Loop invariant of the single-stack branch after the entries `es` have been added. -/
def SingleInv (st : SingleState) (es : List StackPieceWidget) : Prop :=
  (st.allStacks.map StackWidget.pieces).flatten = es ∧
  st.stackCount = st.allStacks.length ∧
  (∀ k s, st.allStacks[k]? = some s →
    s.label = stackLabel (k + 1) ∧ s.maxCapacity = maxPiecesPerStack) ∧
  ((st.allStacks = [] ∧ st.currentPieceCount = 0) ∨
    ∃ init last, st.allStacks = init ++ [last] ∧
      (∀ s ∈ init, s.pieces.length = maxPiecesPerStack) ∧
      last.pieces.length = st.currentPieceCount ∧
      1 ≤ st.currentPieceCount ∧ st.currentPieceCount ≤ maxPiecesPerStack)

/-- All pieces of the session in lexicographic (surface, y, x) order, each with the entry the
layout gives it. -/
def allPieces (readAnalysis : Nat → Option (List String))
    (totalSurfaces piecesInX piecesInY : Nat) : List StackPieceWidget :=
  (List.range totalSurfaces).flatMap (fun surfaceIndex =>
    (List.range' 1 piecesInY).flatMap (fun y =>
      (List.range' 1 piecesInX).map (fun x =>
        entry ((readAnalysis surfaceIndex).getD []) surfaceIndex x y)))

/-! ## Textual summary (`CuttingWindow::updateSummaryText`) -/

/-- The value of a string of decimal digits. -/
def decValue (ds : List Char) : Nat :=
  ds.foldl (fun acc c => 10 * acc + (c.toNat - 48)) 0

/-- The Qt function `QString::indexOf(ch)`: the index of the first occurrence, `-1` when there
is none. -/
def qIndexOf (c : Char) (s : List Char) : Int :=
  if c ∈ s then (s.indexOf c : Nat) else -1

/-- The Qt function `QString::mid(position, n)`: the `n` characters from `position` on, all of
them from `position` on when `n` is negative or exceeds what is left, and the empty string when
`position` lies behind the end. -/
def qMid (s : List Char) (position n : Int) : List Char :=
  if position > s.length then []
  else if position < 0 then
    if n < 0 ∨ n + position ≥ s.length then s
    else if n + position ≤ 0 then []
    else s.take (n + position).toNat
  else if n < 0 ∨ n > s.length - position then s.drop position.toNat
  else (s.drop position.toNat).take n.toNat

/-- The Qt function `QString::toInt()`: the value of an optionally signed decimal number, white
space around it ignored, and `0` when the conversion fails or the value is no 32-bit `int`. -/
def qToInt (s : List Char) : Int :=
  let t := ((s.dropWhile Char.isWhitespace).reverse.dropWhile Char.isWhitespace).reverse
  let signed := t.head? = some '-' ∨ t.head? = some '+'
  let ds := if signed then t.tail else t
  if ds = [] ∨ ds.all Char.isDigit = false then 0
  else
    let v : Int := if t.head? = some '-' then -(decValue ds : Int) else (decValue ds : Int)
    if v < -2147483648 ∨ 2147483647 < v then 0 else v

/-- One line "Stack %1 z%2 (s%3%4)" of the list `defectiveByStack`. -/
structure DefectLine where
  stackNumber : Int
  positionInStack : Int
  surfaceNum : Nat
  pieceId : String
deriving DecidableEq, Repr

/-- The body of the loop over the defective pieces in the X-axis branch of
`updateSummaryText`; `none` stands for the integer division by `surfacesPerGroup = 0`. -/
def xAxisDefectLine (piecesInX piecesInY surfacesPerGroup i : Nat) (pieceId : String) :
    Option DefectLine :=
  let x := qToInt (qMid pieceId.data 1 (qIndexOf 'y' pieceId.data - 1))
  let y := qToInt (qMid pieceId.data (qIndexOf 'y' pieceId.data + 1) (-1))
  if surfacesPerGroup = 0 then none
  else
    let groupIndex := i / surfacesPerGroup
    let stackNumber : Int := y + (groupIndex : Int) * piecesInY
    let surfaceInGroup := i % surfacesPerGroup
    let positionInStack : Int := (surfaceInGroup : Int) * piecesInX + (piecesInX - x + 1)
    some { stackNumber := stackNumber, positionInStack := positionInStack,
           surfaceNum := i + 1, pieceId := pieceId }

/-- The X-axis branch of `updateSummaryText`: the list `defectiveByStack`; `none` stands for an
integer division by zero (`piecesInX = 0`, or a defective piece when `surfacesPerGroup = 0`). -/
def summaryXAxis (readAnalysis : Nat → Option (List String))
    (totalSurfaces piecesInX piecesInY : Nat) : Option (List DefectLine) :=
  if piecesInX = 0 then none
  else
    let piecesPerSurface := piecesInX
    let surfacesPerGroup := maxPiecesPerStack / piecesPerSurface
    (List.range totalSurfaces).foldlM
      (fun defectiveByStack i =>
        match readAnalysis i with
        | none => some defectiveByStack
        | some defectPieces =>
          defectPieces.foldlM
            (fun defectiveByStack pieceId =>
              (xAxisDefectLine piecesInX piecesInY surfacesPerGroup i pieceId).map
                (fun line => defectiveByStack ++ [line]))
            defectiveByStack)
      []

/-- The loop state of the single-stack branch of `updateSummaryText`. -/
structure SummaryState where
  currentStack : Nat
  pieceInStack : Nat
  defectiveByStack : List DefectLine
deriving DecidableEq, Repr

/-- The body of the loop over the defective pieces in the single-stack branch of
`updateSummaryText`. -/
def singleDefectLine (i : Nat) (st : SummaryState) (pieceId : String) : SummaryState :=
  let stackPosition := st.pieceInStack + 1
  let defectiveByStack := st.defectiveByStack ++
    [{ stackNumber := st.currentStack, positionInStack := stackPosition,
       surfaceNum := i + 1, pieceId := pieceId }]
  let pieceInStack := st.pieceInStack + 1
  if pieceInStack ≥ maxPiecesPerStack then
    { currentStack := st.currentStack + 1, pieceInStack := 0, defectiveByStack := defectiveByStack }
  else
    { currentStack := st.currentStack, pieceInStack := pieceInStack,
      defectiveByStack := defectiveByStack }

/-- The body of the loop over the surfaces in the single-stack branch of `updateSummaryText`:
the defective pieces of a readable surface, then the update of the piece counter. -/
def singleSummarySurface (readAnalysis : Nat → Option (List String)) (piecesPerSurface : Nat)
    (st : SummaryState) (i : Nat) : SummaryState :=
  let st1 :=
    match readAnalysis i with
    | none => st
    | some defectPieces => defectPieces.foldl (singleDefectLine i) st
  let pieceInStack := st1.pieceInStack + piecesPerSurface
  if pieceInStack ≥ maxPiecesPerStack then
    { st1 with currentStack := st1.currentStack + 1,
               pieceInStack := pieceInStack % maxPiecesPerStack }
  else { st1 with pieceInStack := pieceInStack }

/-- The single-stack branch of `updateSummaryText`: the list `defectiveByStack`. -/
def summarySingle (readAnalysis : Nat → Option (List String))
    (totalSurfaces piecesInX piecesInY : Nat) : List DefectLine :=
  let piecesPerSurface := piecesInX * piecesInY
  ((List.range totalSurfaces).foldl (singleSummarySurface readAnalysis piecesPerSurface)
    { currentStack := 1, pieceInStack := 0, defectiveByStack := [] }).defectiveByStack

/-- The places `(stack number, 1-based insertion index)` at which a list of stacks, numbered in
creation order, holds an entry with the given surface number and piece identifier. -/
def layoutPlaces (allStacks : List StackWidget) (surfaceNum : Nat) (pieceId : String) :
    List (Nat × Nat) :=
  allStacks.enum.flatMap (fun ks =>
    (ks.2.pieces.enum.filter (fun je => je.2.surfaceNum = surfaceNum ∧ je.2.pieceId = pieceId)).map
      (fun je => (ks.1 + 1, je.1 + 1)))

/-! ## Piece assignment (`CuttingAnalyzer`) -/

/-- A JSON object with the numbers `x`, `y`, `width` and `height`. -/
structure PositionRecord where
  x : ℚ
  y : ℚ
  width : ℚ
  height : ℚ
deriving DecidableEq

/-- The JSON object of one defect in `defect_coordinates.json`, with the key `surface_index`
that the analysis adds. -/
structure Defect where
  source_image : String
  sequence_number : Int
  defectType : String
  confidence : ℚ
  canvas_position : PositionRecord
  physical_position : PositionRecord
  surface_index : Option Int
deriving DecidableEq

/-- The struct `CutPiece`. -/
structure CutPiece where
  x : Int
  y : Int
  defects : List Defect
deriving DecidableEq

/-- The data members of `CuttingAnalyzer`; `pieces` is indexed `[x][y]`. -/
structure CuttingAnalyzer where
  piecesInX : Nat
  piecesInY : Nat
  surfaceWidth : ℚ
  surfaceHeight : ℚ
  pieceWidth : ℚ
  pieceHeight : ℚ
  pieces : List (List CutPiece)
  outsideDefects : List Defect
deriving DecidableEq

/-- The constructor of `CuttingAnalyzer`. -/
def CuttingAnalyzer.create (piecesInX piecesInY : Nat) (surfaceWidth surfaceHeight : ℚ) :
    CuttingAnalyzer :=
  { piecesInX := piecesInX, piecesInY := piecesInY,
    surfaceWidth := surfaceWidth, surfaceHeight := surfaceHeight,
    pieceWidth := surfaceWidth / piecesInX,
    pieceHeight := surfaceHeight / piecesInY,
    pieces := (List.range piecesInX).map (fun (x : Nat) =>
      (List.range piecesInY).map (fun (y : Nat) =>
        { x := (x : Int) + 1, y := (y : Int) + 1, defects := [] })),
    outsideDefects := [] }

/-- The conversion `static_cast<int>` of a `double`: truncation towards zero. -/
def truncToInt (q : ℚ) : Int := if 0 ≤ q then ⌊q⌋ else ⌈q⌉

/-- The five points that `analyzeDefectsInSurface` puts into `corners`. -/
def corners (x y width height : ℚ) : List (ℚ × ℚ) :=
  [(x, y), (x + width, y), (x, y + height), (x + width, y + height),
   (x + width / 2, y + height / 2)]

/-- The test that makes the loop over `corners` skip a point. -/
def CuttingAnalyzer.outsideBounds (a : CuttingAnalyzer) (corner : ℚ × ℚ) : Prop :=
  corner.1 < 0 ∨ corner.1 > a.surfaceWidth ∨ corner.2 < 0 ∨ corner.2 > a.surfaceHeight

instance (a : CuttingAnalyzer) (corner : ℚ × ℚ) : Decidable (a.outsideBounds corner) := by
  unfold CuttingAnalyzer.outsideBounds; infer_instance

/-- The piece `(pieceX, pieceY)` computed for a point, in exact arithmetic; `pieceOfDouble`
below follows the `double` arithmetic of the source. -/
def CuttingAnalyzer.pieceOf (a : CuttingAnalyzer) (corner : ℚ × ℚ) : Int × Int :=
  let pieceX := min (truncToInt (corner.1 / a.pieceWidth) + 1) (a.piecesInX : Int)
  let pieceY := min (truncToInt (corner.2 / a.pieceHeight) + 1) (a.piecesInY : Int)
  (pieceX, pieceY)

/-- The body of the loop over `corners`, on the pair `(affectedPieces, isOutside)`. -/
def CuttingAnalyzer.cornerStep (a : CuttingAnalyzer) (acc : List (Int × Int) × Bool)
    (corner : ℚ × ℚ) : List (Int × Int) × Bool :=
  if a.outsideBounds corner then acc
  else
    let piece := a.pieceOf corner
    if acc.1.contains piece then acc
    else (acc.1 ++ [piece], false)

/-- The pair `(affectedPieces, isOutside)` after the loop over `corners`. -/
def CuttingAnalyzer.affected (a : CuttingAnalyzer) (defect : Defect) : List (Int × Int) × Bool :=
  let x := defect.physical_position.x
  let y := defect.physical_position.y
  let width := defect.physical_position.width
  let height := defect.physical_position.height
  (corners x y width height).foldl a.cornerStep ([], true)

/-- The statement `pieces[x][y].defects.append(defect)`. -/
def appendDefect (pieces : List (List CutPiece)) (x y : Nat) (defect : Defect) :
    List (List CutPiece) :=
  pieces.modify (fun column => column.modify (fun piece =>
    { piece with defects := piece.defects ++ [defect] }) y) x

/-- The body of the loop of `addDefectToPieces`: the defect is appended to the piece when the
0-based indices lie in the grid. -/
def CuttingAnalyzer.addDefectToPiece (defect : Defect) (a : CuttingAnalyzer) (piece : Int × Int) :
    CuttingAnalyzer :=
  let x : Int := piece.1 - 1
  let y : Int := piece.2 - 1
  if x ≥ 0 ∧ x < a.piecesInX ∧ y ≥ 0 ∧ y < a.piecesInY then
    { a with pieces := appendDefect a.pieces x.toNat y.toNat defect }
  else a

/-- The function `CuttingAnalyzer::addDefectToPieces`. -/
def CuttingAnalyzer.addDefectToPieces (a : CuttingAnalyzer) (defect : Defect)
    (affectedPieces : List (Int × Int)) : CuttingAnalyzer :=
  affectedPieces.foldl (CuttingAnalyzer.addDefectToPiece defect) a

/-- The copy `enrichedDefect` of a defect, with the key `surface_index` set. -/
def enrich (defect : Defect) (surfaceIndex : Int) : Defect :=
  { defect with surface_index := some surfaceIndex }

/-- The body of the loop over the defects in `analyzeDefectsInSurface`. -/
def CuttingAnalyzer.processDefect (surfaceIndex : Int) (a : CuttingAnalyzer) (defect : Defect) :
    CuttingAnalyzer :=
  let enrichedDefect := enrich defect surfaceIndex
  let r := a.affected defect
  if r.2 then { a with outsideDefects := a.outsideDefects ++ [enrichedDefect] }
  else a.addDefectToPieces enrichedDefect r.1

/-- The function `CuttingAnalyzer::analyzeDefectsInSurface`.  The argument `coordFile` is `none`
when `defect_coordinates.json` cannot be opened or holds no JSON object, and the array `defects`
of the file otherwise. -/
def CuttingAnalyzer.analyzeDefectsInSurface (a : CuttingAnalyzer)
    (coordFile : Option (List Defect)) (surfaceIndex : Int) : Bool × CuttingAnalyzer :=
  match coordFile with
  | none => (false, a)
  | some defects => (true, defects.foldl (CuttingAnalyzer.processDefect surfaceIndex) a)

/-- The defect list `pieces[i][j].defects`, empty when there is no such piece. -/
def pieceDefects (pieces : List (List CutPiece)) (i j : Nat) : List Defect :=
  match pieces[i]? with
  | none => []
  | some column =>
    match column[j]? with
    | none => []
    | some piece => piece.defects

/-- The defect list of piece `(x, y)`, 1-based, of the analyzer. -/
def CuttingAnalyzer.defectsOf (a : CuttingAnalyzer) (x y : Nat) : List Defect :=
  pieceDefects a.pieces (x - 1) (y - 1)

/-- The grid `pieces` has `piecesInX` columns of `piecesInY` pieces, as the constructor makes
it. -/
def CuttingAnalyzer.WellFormed (a : CuttingAnalyzer) : Prop :=
  a.pieces.length = a.piecesInX ∧ ∀ column ∈ a.pieces, column.length = a.piecesInY

/-- Two closed rectangles `[l1, r1] x [t1, b1]` and `[l2, r2] x [t2, b2]` overlap. -/
def rectOverlap (l1 r1 t1 b1 l2 r2 t2 b2 : ℚ) : Prop :=
  l1 ≤ r2 ∧ l2 ≤ r1 ∧ t1 ≤ b2 ∧ t2 ≤ b1

instance (l1 r1 t1 b1 l2 r2 t2 b2 : ℚ) : Decidable (rectOverlap l1 r1 t1 b1 l2 r2 t2 b2) := by
  unfold rectOverlap; infer_instance

/-- The cell rectangle of piece `(x, y)` overlaps the rectangle with corner `(x, y)` and size
`(width, height)` of the defect's `physical_position`, the rectangle whose corners the analysis
samples. -/
def CuttingAnalyzer.cellOverlaps (a : CuttingAnalyzer) (x y : Nat) (d : Defect) : Prop :=
  rectOverlap (((x : ℚ) - 1) * a.pieceWidth) (x * a.pieceWidth)
    (((y : ℚ) - 1) * a.pieceHeight) (y * a.pieceHeight)
    d.physical_position.x (d.physical_position.x + d.physical_position.width)
    d.physical_position.y (d.physical_position.y + d.physical_position.height)

/-- The cell rectangle of piece `(x, y)` overlaps the rectangle with centre `(x, y)` and size
`(width, height)` of the defect's `physical_position`. -/
def CuttingAnalyzer.cellOverlapsCentred (a : CuttingAnalyzer) (x y : Nat) (d : Defect) : Prop :=
  rectOverlap (((x : ℚ) - 1) * a.pieceWidth) (x * a.pieceWidth)
    (((y : ℚ) - 1) * a.pieceHeight) (y * a.pieceHeight)
    (d.physical_position.x - d.physical_position.width / 2)
    (d.physical_position.x + d.physical_position.width / 2)
    (d.physical_position.y - d.physical_position.height / 2)
    (d.physical_position.y + d.physical_position.height / 2)

/-- The surface `[0, surfaceWidth] x [0, surfaceHeight]` overlaps the rectangle of the defect,
read with `(x, y)` as its corner and read with `(x, y)` as its centre. -/
def CuttingAnalyzer.overlapsSurface (a : CuttingAnalyzer) (d : Defect) : Prop :=
  rectOverlap 0 a.surfaceWidth 0 a.surfaceHeight
    d.physical_position.x (d.physical_position.x + d.physical_position.width)
    d.physical_position.y (d.physical_position.y + d.physical_position.height) ∧
  rectOverlap 0 a.surfaceWidth 0 a.surfaceHeight
    (d.physical_position.x - d.physical_position.width / 2)
    (d.physical_position.x + d.physical_position.width / 2)
    (d.physical_position.y - d.physical_position.height / 2)
    (d.physical_position.y + d.physical_position.height / 2)

instance (a : CuttingAnalyzer) (x y : Nat) (d : Defect) : Decidable (a.cellOverlaps x y d) := by
  unfold CuttingAnalyzer.cellOverlaps; infer_instance

instance (a : CuttingAnalyzer) (x y : Nat) (d : Defect) :
    Decidable (a.cellOverlapsCentred x y d) := by
  unfold CuttingAnalyzer.cellOverlapsCentred; infer_instance

instance (a : CuttingAnalyzer) (d : Defect) : Decidable (a.overlapsSurface d) := by
  unfold CuttingAnalyzer.overlapsSurface; infer_instance

/-- All five sample points of the defect lie outside the surface bounds. -/
def CuttingAnalyzer.allOutside (a : CuttingAnalyzer) (d : Defect) : Bool :=
  (corners d.physical_position.x d.physical_position.y d.physical_position.width
    d.physical_position.height).all (fun p => decide (a.outsideBounds p))

/-- A defect record with `physical_position` `(10, 10, 400, 10)`: a thin horizontal strip. -/
def stripDefect : Defect :=
  { source_image := "image_01.jpg", sequence_number := 1, defectType := "mark",
    confidence := 1 / 2,
    canvas_position := { x := 0, y := 0, width := 0, height := 0 },
    physical_position := { x := 10, y := 10, width := 400, height := 10 },
    surface_index := none }

/-! ## Reprojection (`ImageStitcher`) -/

/-- A `QRectF`: the top-left corner `(xp, yp)` and the size `(w, h)`. -/
structure QRectF where
  xp : ℚ
  yp : ℚ
  w : ℚ
  h : ℚ
deriving DecidableEq

/-- The Qt function `QRectF::center()`. -/
def QRectF.center (r : QRectF) : ℚ × ℚ := (r.xp + r.w / 2, r.yp + r.h / 2)

/-- One object of the array `detections` of a tile's detection file. -/
structure Detection where
  class_name : String
  confidence : ℚ
  center_x : ℚ
  center_y : ℚ
  width : ℚ
  height : ℚ
deriving DecidableEq

/-- The rectangle `defectRect` that `labelDefects` computes for a detection of the tile whose
grid origin is `(gridX, gridY)`, in exact arithmetic; the crop offsets are integer divisions.
`defectRectFloat` below follows the `float` locals of the source. -/
def defectRect (gridX gridY : Int) (detection : Detection) : QRectF :=
  let orig_x := detection.center_x
  let orig_y := detection.center_y
  let orig_w := detection.width
  let orig_h := detection.height
  let canvas_x : ℚ := (gridX : ℚ) + (orig_x - (((1920 - 970) / 2 : Int) : ℚ))
  let canvas_y : ℚ := (gridY : ℚ) + (orig_y - (((1080 - 686) / 2 : Int) : ℚ))
  { xp := canvas_x - orig_w / 2, yp := canvas_y - orig_h / 2, w := orig_w, h := orig_h }

/-- The function `ImageStitcher::saveDefectCoordinates` in exact arithmetic: the JSON object
appended to `defectCoordinates`; `stitchedWidth` and `stitchedHeight` are the size of the
stitched image. `saveDefectCoordinatesFloat` below follows the `float` locals of the source. -/
def saveDefectCoordinates (actualWidth actualHeight : ℚ) (imageName : String) (seqNum : Int)
    (defectType : String) (confidence : ℚ) (canvasRect : QRectF)
    (stitchedWidth stitchedHeight : Int) : Defect :=
  let physicalX := canvasRect.center.1 * actualWidth / (stitchedWidth : ℚ)
  let physicalY := canvasRect.center.2 * actualHeight / (stitchedHeight : ℚ)
  let physicalW := canvasRect.w * actualWidth / (stitchedWidth : ℚ)
  let physicalH := canvasRect.h * actualHeight / (stitchedHeight : ℚ)
  { source_image := imageName, sequence_number := seqNum, defectType := defectType,
    confidence := confidence,
    canvas_position :=
      { x := canvasRect.center.1, y := canvasRect.center.2,
        width := canvasRect.w, height := canvasRect.h },
    physical_position :=
      { x := physicalX, y := physicalY, width := physicalW, height := physicalH },
    surface_index := none }

/-- The Qt function `qRound`: the nearest integer, halves rounded away from zero. -/
def qRound (d : ℚ) : Int :=
  if d ≥ 0 then truncToInt (d + 1 / 2) else truncToInt (d - 1 / 2)

/-- The number in the label that `labelDefects` draws: `qRound(confidence * 100)`, the product
being exact. -/
def labelPercent (confidence : ℚ) : Int := qRound (confidence * 100)

/-- The number that `updateDefectPreview` and `showPieceDefects` print as percentage: the
confidence is divided by 100 when it exceeds 1, and then multiplied by 100. -/
def tablePercent (confidence : ℚ) : ℚ :=
  let confidence := if confidence > 1 then confidence / 100 else confidence
  confidence * 100

/-! ## Saving and running the analysis (`CuttingAnalyzer`, `CuttingWindow`) -/

/-- The JSON object of one piece in the array `pieces` of `cutting_analysis.json`. -/
structure PieceRecord where
  x : Int
  y : Int
  defects : List Defect
deriving DecidableEq

/-- The JSON object `metadata` of `cutting_analysis.json`. -/
structure AnalysisMetadata where
  surface_name : String
  pieces_in_x : Nat
  pieces_in_y : Nat
  surface_width : ℚ
  surface_height : ℚ
  piece_width : ℚ
  piece_height : ℚ
deriving DecidableEq

/-- The JSON object `root` that `saveAnalysis` writes to `cutting_analysis.json`. -/
structure CuttingAnalysis where
  metadata : AnalysisMetadata
  pieces : List PieceRecord
  pieces_with_defects : List String
  outside_defects : List Defect
deriving DecidableEq

/-- The identifier `QString("x%1y%2").arg(x).arg(y)` of `saveAnalysis`, with `int` arguments. -/
def pieceIdOf (x y : Int) : String := "x" ++ toString x ++ "y" ++ toString y

/-- The element `pieces[x][y]`; the constructor sizes the grid so that the loops of
`saveAnalysis` stay inside it. -/
def pieceAt (pieces : List (List CutPiece)) (x y : Nat) : CutPiece :=
  (pieces.getD x []).getD y { x := 0, y := 0, defects := [] }

/-- The body of the loops of `saveAnalysis`, on the pair `(piecesArray, piecesWithDefects)`. -/
def CuttingAnalyzer.saveStep (a : CuttingAnalyzer) (x : Nat)
    (acc : List PieceRecord × List String) (y : Nat) : List PieceRecord × List String :=
  let piece := pieceAt a.pieces x y
  let pieceObj : PieceRecord := { x := piece.x, y := piece.y, defects := piece.defects }
  let piecesWithDefects :=
    if !piece.defects.isEmpty then acc.2 ++ [pieceIdOf piece.x piece.y] else acc.2
  (acc.1 ++ [pieceObj], piecesWithDefects)

/-- The JSON object `root` built by `saveAnalysis`. -/
def CuttingAnalyzer.buildAnalysis (a : CuttingAnalyzer) (surfaceName : String) :
    CuttingAnalysis :=
  let r := (List.range a.piecesInX).foldl
    (fun acc x => (List.range a.piecesInY).foldl (a.saveStep x) acc) ([], [])
  { metadata :=
      { surface_name := surfaceName, pieces_in_x := a.piecesInX, pieces_in_y := a.piecesInY,
        surface_width := a.surfaceWidth, surface_height := a.surfaceHeight,
        piece_width := a.pieceWidth, piece_height := a.pieceHeight },
    pieces := r.1, pieces_with_defects := r.2, outside_defects := a.outsideDefects }

/-- The function `CuttingAnalyzer::saveAnalysis`: the result and the content written;
`writable` says whether the output file can be opened and written. -/
def CuttingAnalyzer.saveAnalysis (a : CuttingAnalyzer) (surfaceName : String) (writable : Bool) :
    Bool × Option CuttingAnalysis :=
  if writable then (true, some (a.buildAnalysis surfaceName)) else (false, none)

/-- The loop at the top of `analyzeSurfaces` and the reset of `outsideDefects`. -/
def CuttingAnalyzer.clear (a : CuttingAnalyzer) : CuttingAnalyzer :=
  { a with
    pieces := a.pieces.map (fun column => column.map (fun piece => { piece with defects := [] })),
    outsideDefects := [] }

/-- The function `CuttingAnalyzer::analyzeSurfaces`: the result, the analyzer afterwards and the
content written to `cutting_analysis.json`, if any. -/
def CuttingAnalyzer.analyzeSurfaces (a : CuttingAnalyzer) (coordFile : Option (List Defect))
    (surfaceName : String) (writable : Bool) :
    Bool × CuttingAnalyzer × Option CuttingAnalysis :=
  let r := a.clear.analyzeDefectsInSurface coordFile 1
  if !r.1 then (false, r.2, none)
  else
    let s := r.2.saveAnalysis surfaceName writable
    if !s.1 then (false, r.2, none)
    else (true, r.2, s.2)

/-- The JSON object of `defect_coordinates.json`, as `saveAllDefectCoordinates` writes it. -/
structure DefectCoordinates where
  surface_width : ℚ
  surface_height : ℚ
  grid_x : Int
  grid_y : Int
  sequence : List Int
  defects : List Defect
deriving DecidableEq

/-- One surface directory of the session: its name, the content of its
`defect_coordinates.json` (`none` when the file cannot be opened or holds no JSON object) and
whether `cutting_analysis.json` can be written there. -/
structure SurfaceDir where
  name : String
  coordFile : Option DefectCoordinates
  writable : Bool
deriving DecidableEq

/-- The body of the loop over the surfaces in `performCuttingAnalysis`: a new analyzer for the A3
size replaces the member `analyzer`, its `analyzeSurfaces` runs, and the outcome is recorded
whatever it is. -/
def performSurface (piecesInX piecesInY : Nat)
    (st : Option CuttingAnalyzer × List (Bool × CuttingAnalyzer × Option CuttingAnalysis))
    (surface : SurfaceDir) :
    Option CuttingAnalyzer × List (Bool × CuttingAnalyzer × Option CuttingAnalysis) :=
  let analyzer := CuttingAnalyzer.create piecesInX piecesInY 420 297
  let r := analyzer.analyzeSurfaces (surface.coordFile.map (fun f => f.defects)) surface.name
    surface.writable
  (some r.2.1, st.2 ++ [r])

/-- The analysis loop of `CuttingWindow::performCuttingAnalysis`: for every surface, in order,
the result of `analyzeSurfaces`, the analyzer afterwards and the file content written. -/
def performCuttingAnalysis (piecesInX piecesInY : Nat) (surfaces : List SurfaceDir) :
    List (Bool × CuttingAnalyzer × Option CuttingAnalysis) :=
  (surfaces.foldl (performSurface piecesInX piecesInY) (none, [])).2

/-- The four corners and the centre of the rectangle with centre `(cx, cy)` and size `(w, h)`. -/
def centredCorners (cx cy w h : ℚ) : List (ℚ × ℚ) :=
  [(cx - w / 2, cy - h / 2), (cx + w / 2, cy - h / 2), (cx - w / 2, cy + h / 2),
   (cx + w / 2, cy + h / 2), (cx, cy)]

/-- A defect record with the given `physical_position`. -/
def defectAt (x y width height : ℚ) : Defect :=
  { source_image := "image_01.jpg", sequence_number := 1, defectType := "mark",
    confidence := 1 / 2,
    canvas_position := { x := 0, y := 0, width := 0, height := 0 },
    physical_position := { x := x, y := y, width := width, height := height },
    surface_index := none }

/-- The grid `pieces` is as the constructor makes it: `piecesInX` columns of `piecesInY` pieces,
the piece `pieces[i][j]` carrying the coordinates `(i + 1, j + 1)`. -/
def CuttingAnalyzer.GridOk (a : CuttingAnalyzer) : Prop :=
  a.WellFormed ∧
  ∀ (i j : Nat) (column : List CutPiece) (piece : CutPiece),
    a.pieces[i]? = some column → column[j]? = some piece →
    piece.x = (i : Int) + 1 ∧ piece.y = (j : Int) + 1

/-- The grid cells `(x, y)`, 1-based, in the order in which the loops of `saveAnalysis` visit
them. -/
def gridCells (piecesInX piecesInY : Nat) : List (Nat × Nat) :=
  (List.range piecesInX).flatMap (fun x => (List.range piecesInY).map (fun y => (x + 1, y + 1)))

/-! ## Tile positions (`ImageStitcher`) -/

/-- The canvas size `(canvasWidth, canvasHeight)` of `stitchImages`: the width is `baseWidth`
and the height `static_cast<int>(baseWidth / aspectRatio)`, the two divisions being exact. -/
def canvasSize (actualWidth actualHeight : ℚ) : Int × Int :=
  let baseWidth : Int := 2910
  let aspectRatio := actualWidth / actualHeight
  let canvasWidth := baseWidth
  let canvasHeight := truncToInt ((baseWidth : ℚ) / aspectRatio)
  (canvasWidth, canvasHeight)

/-- The function `ImageStitcher::getImagePosition`; `none` stands for the integer division by
`imagesInX = 0` or `imagesInY = 0`. -/
def getImagePosition (imagesInX imagesInY sequencePosition canvasWidth canvasHeight : Nat) :
    Option (Nat × Nat) :=
  if imagesInX = 0 ∨ imagesInY = 0 then none
  else
    let cellWidth := canvasWidth / imagesInX
    let cellHeight := canvasHeight / imagesInY
    let row := sequencePosition / imagesInX
    let col := sequencePosition % imagesInX
    let x := col * cellWidth
    let y := row * cellHeight
    some (x, y)

/-- The position at which `stitchImages` draws the tile of sequence position `position`. -/
def stitchOrigin (imagesInX imagesInY : Nat) (actualWidth actualHeight : ℚ) (position : Nat) :
    Option (Nat × Nat) :=
  getImagePosition imagesInX imagesInY position
    (canvasSize actualWidth actualHeight).1.toNat (canvasSize actualWidth actualHeight).2.toNat

/-- The function `ImageStitcher::createSequencePositionMap` for a sequence of `sequenceSize`
numbers: the entries `(i + 1, (col, row))` of the map; `none` stands for the integer division by
`imagesInX = 0`. -/
def createSequencePositionMap (imagesInX sequenceSize : Nat) :
    Option (List (Nat × (Nat × Nat))) :=
  if imagesInX = 0 ∧ sequenceSize ≠ 0 then none
  else
    some ((List.range sequenceSize).foldl
      (fun seqToPos i =>
        let row := i / imagesInX
        let col := i % imagesInX
        seqToPos ++ [(i + 1, (col, row))])
      [])

/-- The value `QMap::operator[]` returns for a key: the value stored last under it, and the
default `(0, 0)` when there is none. -/
def qMapValue (m : List (Nat × (Nat × Nat))) (key : Nat) : Nat × Nat :=
  ((m.reverse.find? (fun kv => kv.1 == key)).map (fun kv => kv.2)).getD (0, 0)

/-- The grid origin `(gridX, gridY)` that `labelDefects` uses for the tile of sequence position
`i`. -/
def labelOrigin (imagesInX sequenceSize i : Nat) : Option (Nat × Nat) :=
  (createSequencePositionMap imagesInX sequenceSize).map (fun seqToPos =>
    let pos := qMapValue seqToPos (i + 1)
    let gridX := pos.1 * 970
    let gridY := pos.2 * 686
    (gridX, gridY))

/-! ## The figures of the summary (`CuttingWindow::updateSummaryText`) -/

/-- The value `totalStacks` that `updateSummaryText` prints as "Number of stacks". -/
def totalStacks (useXAxisStacking : Bool) (totalSurfaces piecesInX piecesInY : Nat) : Nat :=
  let piecesPerSurface := piecesInX * piecesInY
  let totalPieces := totalSurfaces * piecesPerSurface
  if useXAxisStacking then
    let piecesPerY := totalSurfaces * piecesInX
    let stackGroupsNeeded := (piecesPerY + maxPiecesPerStack - 1) / maxPiecesPerStack
    piecesInY * stackGroupsNeeded
  else
    (totalPieces + maxPiecesPerStack - 1) / maxPiecesPerStack

/-! ## The calls of `addPiece` -/

/-- The stack after the calls of `addPiece` with the entries of a list, in order. -/
def addAll (calls : List StackPieceWidget) (stack : StackWidget) : StackWidget :=
  calls.foldl (fun st e => st.addPiece e.surfaceNum e.pieceId e.hasDefect) stack

/-- The first statement of the loop body of the single-stack branch ("create new stack if
needed"): the state in which `currentStack` is the stack that the call of `addPiece` targets. -/
def openStack (st : SingleState) : SingleState :=
  if st.allStacks.isEmpty || st.currentPieceCount ≥ maxPiecesPerStack then
    { allStacks :=
        st.allStacks ++ [StackWidget.create (stackLabel (st.stackCount + 1)) maxPiecesPerStack],
      currentPieceCount := 0,
      stackCount := st.stackCount + 1 }
  else st

/-- The executions of the loop body of the single-stack branch, in order: the list
`defectPieces` of the surface, `surfaceIndex`, `y` and `x` of each. -/
def singleCalls (readAnalysis : Nat → Option (List String))
    (totalSurfaces piecesInX piecesInY : Nat) : List (List String × Nat × Nat × Nat) :=
  (List.range totalSurfaces).flatMap (fun surfaceIndex =>
    match readAnalysis surfaceIndex with
    | none => []
    | some defectPieces =>
      (List.range' 1 piecesInY).flatMap (fun y =>
        (List.range' 1 piecesInX).map (fun x => (defectPieces, surfaceIndex, y, x))))

/-- The state of the single-stack branch after a list of executions of the loop body. -/
def singleRun (calls : List (List String × Nat × Nat × Nat)) (st : SingleState) : SingleState :=
  calls.foldl (fun st c => singleStep c.1 c.2.1 c.2.2.1 st c.2.2.2) st

/-! ## Capture sequence (`CaptureSettingsDialog`, `MotorizedCaptureSettingsDialog`) -/

/-- The Qt function `QString::toInt(&ok)`: the value of an optionally signed decimal number,
white space around it ignored; `none` stands for `ok = false`, when the text is no such number
or its value is no 32-bit `int`. -/
def qToIntOk (s : List Char) : Option Int :=
  let t := ((s.dropWhile Char.isWhitespace).reverse.dropWhile Char.isWhitespace).reverse
  let signed := t.head? = some '-' ∨ t.head? = some '+'
  let ds := if signed then t.tail else t
  if ds = [] ∨ ds.all Char.isDigit = false then none
  else
    let v : Int := if t.head? = some '-' then -(decValue ds : Int) else (decValue ds : Int)
    if v < -2147483648 ∨ 2147483647 < v then none else some v

/-- The body of the loop of `CaptureSettingsDialog::isSequenceValid` on the set `numbers`;
`none` stands for `return false`. -/
def CaptureSettingsDialog.sequenceStep (total : Nat) (numbers : List Int) (text : String) :
    Option (List Int) :=
  match qToIntOk text.data with
  | none => none
  | some num =>
    if num < 1 ∨ num > total ∨ numbers.contains num then none
    else some (numbers.insert num)

/-- The function `CaptureSettingsDialog::isSequenceValid` on the texts of `sequenceInputs`. -/
def CaptureSettingsDialog.isSequenceValid (imagesInX imagesInY : Nat)
    (sequenceInputs : List String) : Bool :=
  let total := imagesInX * imagesInY
  match sequenceInputs.foldlM (CaptureSettingsDialog.sequenceStep total) [] with
  | none => false
  | some numbers => numbers.length == total

/-- The body of the first loop of `MotorizedCaptureSettingsDialog::validateSequence`; `none`
stands for `valid = false; break`. -/
def MotorizedCaptureSettingsDialog.collectStep (numbers : List Int) (text : String) :
    Option (List Int) :=
  match qToIntOk text.data with
  | none => none
  | some num => if num < 1 ∨ num > 16 then none else some (numbers ++ [num])

/-- The flag `valid` of `MotorizedCaptureSettingsDialog::validateSequence` on the texts of
`sequenceInputs`; the size of the set `uniqueNumbers` is the number of distinct values. -/
def MotorizedCaptureSettingsDialog.validateSequence (sequenceInputs : List String) : Bool :=
  match sequenceInputs.foldlM MotorizedCaptureSettingsDialog.collectStep [] with
  | none => false
  | some numbers =>
    let uniqueNumbers := numbers.dedup
    if uniqueNumbers.length ≠ 16 then false else true

/-- The assignment `grid[y][x] = v`. -/
def setCell (grid : List (List Nat)) (y x v : Nat) : List (List Nat) :=
  List.modify (fun row => row.set x v) y grid

/-- The value `grid[y][x]`. -/
def cellValue (grid : List (List Nat)) (y x : Nat) : Nat := (grid.getD y []).getD x 0

/-- The statement `grid[y][x] = num++` on the pair `(grid, num)`. -/
def CaptureSettingsDialog.columnStep (x : Nat) (st : List (List Nat) × Nat) (y : Nat) :
    List (List Nat) × Nat :=
  (setCell st.1 y x st.2, st.2 + 1)

/-- The body of the loop over the columns `x`: an even column is numbered from the last row up
("bottom to top"), an odd one from the first row down. -/
def CaptureSettingsDialog.fillColumn (yCount : Nat) (st : List (List Nat) × Nat) (x : Nat) :
    List (List Nat) × Nat :=
  if x % 2 = 0 then (List.range yCount).reverse.foldl (CaptureSettingsDialog.columnStep x) st
  else (List.range yCount).foldl (CaptureSettingsDialog.columnStep x) st

/-- The array `grid` that `CaptureSettingsDialog::generateDefaultSequence` fills column by
column, starting from `yCount` rows of `xCount` zeros and `num = 1`. -/
def CaptureSettingsDialog.defaultGrid (xCount yCount : Nat) : List (List Nat) :=
  ((List.range xCount).foldl (CaptureSettingsDialog.fillColumn yCount)
    (List.replicate yCount (List.replicate xCount 0), 1)).1

/-- The function `CaptureSettingsDialog::generateDefaultSequence`: the texts of `sequenceInputs`
after the loop "update input fields". -/
def CaptureSettingsDialog.generateDefaultSequence (xCount yCount : Nat)
    (sequenceInputs : List String) : List String :=
  let grid := CaptureSettingsDialog.defaultGrid xCount yCount
  (List.range yCount).foldl
    (fun inputs y =>
      (List.range xCount).foldl
        (fun inputs x =>
          let index := y * xCount + x
          inputs.set index (toString (cellValue grid y x)))
        inputs)
    sequenceInputs

/-- The vector `defaultSequence` of `MotorizedCaptureSettingsDialog::generateDefaultSequence`. -/
def MotorizedCaptureSettingsDialog.defaultSequence : List Nat :=
  [4, 5, 12, 13,
   3, 6, 11, 14,
   2, 7, 10, 15,
   1, 8, 9, 16]

/-- The function `MotorizedCaptureSettingsDialog::generateDefaultSequence`: the texts of
`sequenceInputs` after the loop "update input fields"; `none` stands for an index beyond the
end of `defaultSequence`. -/
def MotorizedCaptureSettingsDialog.generateDefaultSequence (sequenceInputs : List String) :
    Option (List String) :=
  (List.range sequenceInputs.length).foldlM
    (fun inputs i =>
      MotorizedCaptureSettingsDialog.defaultSequence[i]?.map
        (fun n => inputs.set i (toString n)))
    sequenceInputs

/-- The grid value of row `y` and column `x` of the column-wise serpentine over `yCount`
rows. -/
def serpentine (yCount y x : Nat) : Nat :=
  x * yCount + (if x % 2 = 0 then yCount - y else y + 1)

/-- A grid of `yCount` rows of `xCount` values. -/
def GridShape (xCount yCount : Nat) (grid : List (List Nat)) : Prop :=
  grid.length = yCount ∧ ∀ (i : Nat) (row : List Nat), grid[i]? = some row → row.length = xCount

/-! ## Binary floating-point arithmetic (`float`, `double`) -/

/-- Rounding of a rational number to the nearest integer, a tie going to the even one. -/
def roundHalfEven (t : ℚ) : Int :=
  let f := ⌊t⌋
  if t - f < 1 / 2 then f
  else if 1 / 2 < t - f then f + 1
  else if f % 2 = 0 then f else f + 1

/-- The unit in the last place of the binary floating-point numbers with `prec` significant
bits and least exponent `emin` around a number `q ≥ 0`; below `2 ^ emin` (subnormal numbers)
it is constant. -/
def ulpAt (prec : Nat) (emin : Int) (q : ℚ) : ℚ :=
  (2 : ℚ) ^ (max (Int.log 2 q) emin - ((prec : Int) - 1))

/-- Rounding of `q ≥ 0` to the nearest binary floating-point number with `prec` significant
bits and least exponent `emin`, a tie going to the even significand. -/
def roundMagnitude (prec : Nat) (emin : Int) (q : ℚ) : ℚ :=
  (roundHalfEven (q / ulpAt prec emin q) : ℚ) * ulpAt prec emin q

/-- Rounding to nearest, ties to even, of a rational number of either sign; the exponent is not
bounded above. -/
def roundBinary (prec : Nat) (emin : Int) (q : ℚ) : ℚ :=
  if 0 ≤ q then roundMagnitude prec emin q else -roundMagnitude prec emin (-q)

/-- The finite floating-point number that an operation with the exact result `q` delivers in
the format with `prec` significant bits and exponents `emin .. emax`; `none` stands for an
overflow, whose result is an infinity. -/
def roundFloat (prec : Nat) (emin emax : Int) (q : ℚ) : Option ℚ :=
  if |roundBinary prec emin q| < (2 : ℚ) ^ (emax + 1) then some (roundBinary prec emin q)
  else none

/-- Rounding to a `double` (IEEE 754 binary64). -/
def toDouble (q : ℚ) : Option ℚ := roundFloat 53 (-1022) 1023 q

/-- Rounding to a `float` (IEEE 754 binary32). -/
def toFloat (q : ℚ) : Option ℚ := roundFloat 24 (-126) 127 q

/-- The quotient of two finite `double` values; `none` stands for a result that is no finite
number (division by zero, overflow). -/
def doubleDiv (a b : ℚ) : Option ℚ := if b = 0 then none else toDouble (a / b)

/-- The conversion `static_cast<int>` of a finite `double`: truncation towards zero; `none`
stands for a value outside the range of `int`, for which the conversion is undefined. -/
def castToInt (d : ℚ) : Option Int :=
  if -2147483649 < d ∧ d < 2147483648 then some (truncToInt d) else none

/-! ## Piece assignment in `double` arithmetic (`CuttingAnalyzer`) -/

/-- The piece dimension `surfaceWidth / piecesInX` (or `surfaceHeight / piecesInY`) as the
constructor computes it, a division of `double` values. -/
def pieceSizeDouble (surfaceSize : ℚ) (pieces : Nat) : Option ℚ :=
  doubleDiv surfaceSize pieces

/-- The expression `qMin(static_cast<int>(coord / pieceSize) + 1, pieces)` with the division of
`double` values and the conversion to `int`; `none` stands for an undefined result (a quotient
that is no finite number, or one outside the range of `int`). -/
def pieceIndexDouble (coord pieceSize : ℚ) (pieces : Nat) : Option Int :=
  match doubleDiv coord pieceSize with
  | none => none
  | some quotient =>
    match castToInt quotient with
    | none => none
    | some t => if t + 1 ≤ 2147483647 then some (min (t + 1) (pieces : Int)) else none

/-- The piece `(pieceX, pieceY)` that the code computes for a point, the arguments being the
values of the `double` variables. -/
def pieceOfDouble (piecesInX piecesInY : Nat) (surfaceWidth surfaceHeight : ℚ)
    (corner : ℚ × ℚ) : Option (Int × Int) :=
  match pieceSizeDouble surfaceWidth piecesInX, pieceSizeDouble surfaceHeight piecesInY with
  | some pieceWidth, some pieceHeight =>
    match pieceIndexDouble corner.1 pieceWidth piecesInX,
        pieceIndexDouble corner.2 pieceHeight piecesInY with
    | some pieceX, some pieceY => some (pieceX, pieceY)
    | _, _ => none
  | _, _ => none

/-! ## Reprojection in machine arithmetic (`ImageStitcher`)

`defectRect` and `saveDefectCoordinates` above compute with exact rationals. The definitions
of this section follow the types of the source: the locals of `labelDefects` and the four
`physical...` locals of `saveDefectCoordinates` are `float`, a `QRectF` holds `double`s. A
result is `none` when an operation yields a number that is not finite. -/

/-- The sum of two `double`s. -/
def doubleAdd (a b : ℚ) : Option ℚ := toDouble (a + b)

/-- The product of two `double`s. -/
def doubleMul (a b : ℚ) : Option ℚ := toDouble (a * b)

/-- The sum of two `float`s. -/
def floatAdd (a b : ℚ) : Option ℚ := toFloat (a + b)

/-- The difference of two `float`s. -/
def floatSub (a b : ℚ) : Option ℚ := toFloat (a - b)

/-- The quotient of two `float`s; `none` for a division by zero. -/
def floatDiv (a b : ℚ) : Option ℚ := if b = 0 then none else toFloat (a / b)

/-- The conversion of an `int` to `float`. -/
def intToFloat (n : Int) : Option ℚ := toFloat n

/-- The Qt function `QRectF::center()`, `QPointF(xp + w/2, yp + h/2)`, in `double`. -/
def QRectF.centerDouble (r : QRectF) : Option (ℚ × ℚ) := do
  let halfW ← doubleDiv r.w 2
  let cx ← doubleAdd r.xp halfW
  let halfH ← doubleDiv r.h 2
  let cy ← doubleAdd r.yp halfH
  some (cx, cy)

/-- The expression `grid + (orig - crop)` of `labelDefects`, with `orig` a `float` and `grid`
and `crop` of type `int`: the value of `canvas_x` and of `canvas_y`. -/
def canvasCoordFloat (grid : Int) (orig : ℚ) (crop : Int) : Option ℚ := do
  let cropF ← intToFloat crop
  let offset ← floatSub orig cropF
  let gridF ← intToFloat grid
  floatAdd gridF offset

/-- The expression `canvas - size/2` of `labelDefects`, with `canvas` and `size` of type
`float`: the first two arguments of the constructor of `defectRect`. -/
def cornerFloat (canvas size : ℚ) : Option ℚ := do
  let two ← intToFloat 2
  let half ← floatDiv size two
  floatSub canvas half

/-- The rectangle `defectRect` that `labelDefects` computes in `float` for a detection of the
tile whose grid origin is `(gridX, gridY)`; the fields of the detection are the `double`s
read from the detection file, the crop offsets are integer divisions. -/
def defectRectFloat (gridX gridY : Int) (detection : Detection) : Option QRectF := do
  let orig_x ← toFloat detection.center_x
  let orig_y ← toFloat detection.center_y
  let orig_w ← toFloat detection.width
  let orig_h ← toFloat detection.height
  let canvas_x ← canvasCoordFloat gridX orig_x ((1920 - 970) / 2)
  let canvas_y ← canvasCoordFloat gridY orig_y ((1080 - 686) / 2)
  let xp ← cornerFloat canvas_x orig_w
  let yp ← cornerFloat canvas_y orig_h
  some { xp := xp, yp := yp, w := orig_w, h := orig_h }

/-- The expression `value * actual / stitched` of `saveDefectCoordinates`, computed in
`double` and stored in a `float`; `stitched` is the `int` size of the stitched image. -/
def physicalFloat (value actual : ℚ) (stitched : Int) : Option ℚ := do
  let product ← doubleMul value actual
  let quotient ← doubleDiv product (stitched : ℚ)
  toFloat quotient

/-- The function `ImageStitcher::saveDefectCoordinates` in machine arithmetic: the JSON object
appended to `defectCoordinates`; `confidence` is the `float` parameter. -/
def saveDefectCoordinatesFloat (actualWidth actualHeight : ℚ) (imageName : String)
    (seqNum : Int) (defectType : String) (confidence : ℚ) (canvasRect : QRectF)
    (stitchedWidth stitchedHeight : Int) : Option Defect := do
  let centre ← canvasRect.centerDouble
  let physicalX ← physicalFloat centre.1 actualWidth stitchedWidth
  let physicalY ← physicalFloat centre.2 actualHeight stitchedHeight
  let physicalW ← physicalFloat canvasRect.w actualWidth stitchedWidth
  let physicalH ← physicalFloat canvasRect.h actualHeight stitchedHeight
  some { source_image := imageName, sequence_number := seqNum, defectType := defectType,
         confidence := confidence,
         canvas_position :=
           { x := centre.1, y := centre.2, width := canvasRect.w, height := canvasRect.h },
         physical_position :=
           { x := physicalX, y := physicalY, width := physicalW, height := physicalH },
         surface_index := none }

/-! ## Lemmas on the stack preview -/

theorem addPiece_of_lt (st : StackWidget) (n : Nat) (id : String) (b : Bool)
    (h : st.pieces.length < st.maxCapacity) :
    st.addPiece n id b = { st with pieces := st.pieces ++ [StackPieceWidget.mk n id b] } := by
  unfold StackWidget.addPiece
  rw [if_neg (by omega)]

theorem addPiece_of_ge (st : StackWidget) (n : Nat) (id : String) (b : Bool)
    (h : st.maxCapacity ≤ st.pieces.length) : st.addPiece n id b = st := by
  unfold StackWidget.addPiece
  rw [if_pos h]

/-- Adding a list of entries to a stack with enough room appends them all. -/
theorem foldl_addPiece_room {α : Type} (f : α → StackPieceWidget) (l : List α) (st : StackWidget)
    (h : st.pieces.length + l.length ≤ st.maxCapacity) :
    l.foldl (fun s a => s.addPiece (f a).surfaceNum (f a).pieceId (f a).hasDefect) st
      = { st with pieces := st.pieces ++ l.map f } := by
  induction l generalizing st with
  | nil => simp
  | cons a t ih =>
    simp only [List.length_cons] at h
    rw [List.foldl_cons, addPiece_of_lt _ _ _ _ (by omega), ih]
    · simp
    · simp only [List.length_append, List.length_singleton]; omega

theorem rowEntries_length (piecesInX : Nat) (d : List String) (s y : Nat) :
    (rowEntries piecesInX d s y).length = piecesInX := by
  simp [rowEntries]

theorem surfaceRow_length_le (readAnalysis : Nat → Option (List String)) (piecesInX y s : Nat) :
    (surfaceRow readAnalysis piecesInX y s).length ≤ piecesInX := by
  unfold surfaceRow
  cases readAnalysis s <;> simp [rowEntries_length]

theorem addSurfaceRow_room (piecesInX : Nat) (d : List String) (s y : Nat) (st : StackWidget)
    (h : st.pieces.length + piecesInX ≤ st.maxCapacity) :
    addSurfaceRow piecesInX d s y st
      = { st with pieces := st.pieces ++ rowEntries piecesInX d s y } := by
  have := foldl_addPiece_room (fun x => entry d s x y) (List.range' 1 piecesInX) st
    (by simpa using h)
  simpa [addSurfaceRow, rowEntries, entry] using this

theorem flatMap_surfaceRow_length_le (readAnalysis : Nat → Option (List String))
    (piecesInX y : Nat) (l : List Nat) :
    (l.flatMap (surfaceRow readAnalysis piecesInX y)).length ≤ l.length * piecesInX := by
  induction l with
  | nil => simp
  | cons a t ih =>
    have := surfaceRow_length_le readAnalysis piecesInX y a
    simp only [List.flatMap_cons, List.length_append, List.length_cons]
    nlinarith

theorem foldl_surfaces_room (readAnalysis : Nat → Option (List String)) (piecesInX y : Nat)
    (l : List Nat) (st : StackWidget)
    (h : st.pieces.length + l.length * piecesInX ≤ st.maxCapacity) :
    l.foldl (fun st surfaceIndex =>
        match readAnalysis surfaceIndex with
        | none => st
        | some defectPieces => addSurfaceRow piecesInX defectPieces surfaceIndex y st) st
      = { st with pieces := st.pieces ++ l.flatMap (surfaceRow readAnalysis piecesInX y) } := by
  induction l generalizing st with
  | nil => simp
  | cons a t ih =>
    simp only [List.length_cons, Nat.add_mul, Nat.one_mul] at h
    rw [List.foldl_cons, List.flatMap_cons]
    cases hr : readAnalysis a with
    | none =>
      simp only [surfaceRow, hr, List.nil_append]
      exact ih st (by omega)
    | some d =>
      simp only [surfaceRow, hr]
      rw [addSurfaceRow_room _ _ _ _ _ (by omega), ih]
      · simp
      · simp only [List.length_append, rowEntries_length]; omega

theorem surfacesPerGroup_mul_le (piecesInX : Nat) :
    surfacesPerGroup piecesInX * piecesInX ≤ maxPiecesPerStack :=
  Nat.div_mul_le_self _ _

theorem groupSurfaces_length_le (totalSurfaces piecesInX groupIndex : Nat) :
    (groupSurfaces totalSurfaces piecesInX groupIndex).length ≤ surfacesPerGroup piecesInX := by
  simp only [groupSurfaces, List.length_range', Nat.add_mul, Nat.one_mul]
  omega

theorem xAxisStack_eq (readAnalysis : Nat → Option (List String))
    (totalSurfaces piecesInX piecesInY groupIndex y : Nat) :
    xAxisStack readAnalysis totalSurfaces piecesInX piecesInY groupIndex y
      = { label := stackLabel (y + groupIndex * piecesInY),
          maxCapacity := maxPiecesPerStack,
          pieces := (groupSurfaces totalSurfaces piecesInX groupIndex).flatMap
            (surfaceRow readAnalysis piecesInX y) } := by
  have hlen := groupSurfaces_length_le totalSurfaces piecesInX groupIndex
  have hcap := surfacesPerGroup_mul_le piecesInX
  have hroom : (groupSurfaces totalSurfaces piecesInX groupIndex).length * piecesInX
      ≤ maxPiecesPerStack := le_trans (Nat.mul_le_mul_right _ hlen) hcap
  have := foldl_surfaces_room readAnalysis piecesInX y
    (groupSurfaces totalSurfaces piecesInX groupIndex)
    (StackWidget.create (stackLabel (y + groupIndex * piecesInY)) maxPiecesPerStack)
    (by simpa [StackWidget.create] using hroom)
  simp only [xAxisStack, fillStack]
  have e : min (groupIndex * surfacesPerGroup piecesInX + surfacesPerGroup piecesInX) totalSurfaces
      = min ((groupIndex + 1) * surfacesPerGroup piecesInX) totalSurfaces := by
    rw [Nat.add_mul, Nat.one_mul]
  rw [e]
  simpa [groupSurfaces, StackWidget.create] using this

theorem foldl_snoc_eq_map {α β : Type} (f : α → β) (l : List α) (init : List β) :
    l.foldl (fun acc a => acc ++ [f a]) init = init ++ l.map f := by
  induction l generalizing init with
  | nil => simp
  | cons a t ih => simp [ih]

theorem foldl_append_eq_flatMap {α β : Type} (f : α → List β) (l : List α) (init : List β) :
    l.foldl (fun acc a => acc ++ f a) init = init ++ l.flatMap f := by
  induction l generalizing init with
  | nil => simp
  | cons a t ih => simp [ih]

theorem xAxisStacks_eq (readAnalysis : Nat → Option (List String))
    (totalSurfaces piecesInX piecesInY : Nat) :
    xAxisStacks readAnalysis totalSurfaces piecesInX piecesInY
      = (List.range (stackGroupsNeeded totalSurfaces piecesInX)).flatMap (fun groupIndex =>
          (List.range' 1 piecesInY).map
            (xAxisStack readAnalysis totalSurfaces piecesInX piecesInY groupIndex)) := by
  unfold xAxisStacks
  simp only [foldl_snoc_eq_map]
  rw [foldl_append_eq_flatMap]
  simp

theorem updateCurrent_append_singleton (f : StackWidget → StackWidget) (l : List StackWidget)
    (s : StackWidget) : updateCurrent f (l ++ [s]) = l ++ [f s] := by
  induction l with
  | nil => rfl
  | cons a t ih =>
    cases t with
    | nil => rfl
    | cons b u => simp only [List.cons_append] at ih ⊢; simp only [updateCurrent]; rw [ih]

theorem getElem?_snoc_cases {α : Type} (l : List α) (a b : α) (k : Nat)
    (h : (l ++ [a])[k]? = some b) : l[k]? = some b ∨ (k = l.length ∧ b = a) := by
  rcases Nat.lt_or_ge k l.length with hk | hk
  · left; rwa [List.getElem?_append_left hk] at h
  · right
    rw [List.getElem?_append_right hk] at h
    rcases Nat.eq_zero_or_pos (k - l.length) with h0 | h0
    · rw [h0] at h; simp at h; exact ⟨by omega, h.symm⟩
    · have : ([a] : List α)[k - l.length]? = none := by
        apply List.getElem?_eq_none; simp; omega
      rw [this] at h; cases h

theorem singleInv_init :
    SingleInv { allStacks := [], currentPieceCount := 0, stackCount := 0 } [] := by
  refine ⟨by simp, by simp, ?_, Or.inl ⟨rfl, rfl⟩⟩
  intro k s h
  simp at h

theorem singleInv_step (d : List String) (surfaceIndex y x : Nat) (st : SingleState)
    (es : List StackPieceWidget) (h : SingleInv st es) :
    SingleInv (singleStep d surfaceIndex y st x) (es ++ [entry d surfaceIndex x y]) := by
  obtain ⟨hflat, hcount, hlab, hshape⟩ := h
  rcases hshape with ⟨hnil, hzero⟩ | ⟨init, last, hall, hfull, hlast, hpos, hle⟩
  · -- no stack yet: the first stack is created
    have hst : singleStep d surfaceIndex y st x
        = { allStacks := [{ label := stackLabel (st.stackCount + 1),
                            maxCapacity := maxPiecesPerStack,
                            pieces := [entry d surfaceIndex x y] }],
            currentPieceCount := 1, stackCount := st.stackCount + 1 } := by
      simp [singleStep, hnil, updateCurrent, StackWidget.create, StackWidget.addPiece,
        maxPiecesPerStack, entry]
    rw [hst]
    rw [hnil] at hflat hcount
    simp only [List.map_nil, List.flatten_nil] at hflat
    simp only [List.length_nil] at hcount
    subst hflat
    refine ⟨by simp, by simp [hcount], ?_, Or.inr ⟨[], _, rfl, by simp, rfl, le_refl _, by simp [maxPiecesPerStack]⟩⟩
    intro k s hk
    cases k with
    | zero => simp at hk; subst hk; simp [hcount]
    | succ k => simp at hk
  · rcases Nat.lt_or_ge st.currentPieceCount maxPiecesPerStack with hlt | hge
    · -- room in the current stack
      have hne : st.allStacks.isEmpty = false := by rw [hall]; simp
      have hcap : last.maxCapacity = maxPiecesPerStack := by
        have := hlab init.length last (by rw [hall]; simp)
        exact this.2
      have hst : singleStep d surfaceIndex y st x
          = { allStacks := init ++ [{ last with pieces := last.pieces ++ [entry d surfaceIndex x y] }],
              currentPieceCount := st.currentPieceCount + 1, stackCount := st.stackCount } := by
        unfold singleStep
        simp only [hne, Bool.false_or, ge_iff_le, decide_eq_true_eq]
        rw [if_neg (by omega)]
        simp only [hall, updateCurrent_append_singleton]
        rw [addPiece_of_lt _ _ _ _ (by rw [hcap, hlast]; exact hlt)]
        rfl
      rw [hst]
      refine ⟨?_, ?_, ?_, Or.inr ⟨init, _, rfl, hfull, ?_, ?_, ?_⟩⟩
      · rw [← hflat, hall]; simp
      · rw [hcount, hall]; simp
      · intro k s hk
        rcases getElem?_snoc_cases _ _ _ _ hk with h1 | ⟨h1, h2⟩
        · exact hlab k s (by rw [hall, List.getElem?_append_left]; exact h1
                             exact (List.getElem?_eq_some.mp h1).1)
        · have := hlab init.length last (by rw [hall]; simp)
          subst h1; subst h2
          exact this
      · simp [hlast]
      · exact Nat.le_add_left 1 _
      · exact hlt
    · -- the current stack is full: a new stack is created
      have hst : singleStep d surfaceIndex y st x
          = { allStacks := (init ++ [last]) ++ [{ label := stackLabel (st.stackCount + 1),
                                                  maxCapacity := maxPiecesPerStack,
                                                  pieces := [entry d surfaceIndex x y] }],
              currentPieceCount := 1, stackCount := st.stackCount + 1 } := by
        unfold singleStep
        rw [if_pos (by simp; right; exact hge)]
        simp only [hall, updateCurrent_append_singleton]
        simp [StackWidget.create, StackWidget.addPiece, maxPiecesPerStack, entry]
      rw [hst]
      refine ⟨?_, ?_, ?_, Or.inr ⟨init ++ [last], _, rfl, ?_, rfl, le_refl _, by simp [maxPiecesPerStack]⟩⟩
      · rw [← hflat, hall]; simp
      · rw [hcount, hall]; simp
      · intro k s hk
        rcases getElem?_snoc_cases _ _ _ _ hk with h1 | ⟨h1, h2⟩
        · exact hlab k s (by rw [hall]; exact h1)
        · subst h2
          refine ⟨?_, rfl⟩
          simp only
          rw [h1, hcount, hall]
      · intro s hs
        rcases List.mem_append.mp hs with h1 | h1
        · exact hfull s h1
        · simp at h1; subst h1; omega

theorem singleInv_foldl_x (d : List String) (surfaceIndex y : Nat) (l : List Nat)
    (st : SingleState) (es : List StackPieceWidget) (h : SingleInv st es) :
    SingleInv (l.foldl (singleStep d surfaceIndex y) st)
      (es ++ l.map (fun x => entry d surfaceIndex x y)) := by
  induction l generalizing st es with
  | nil => simpa using h
  | cons a t ih =>
    have := ih _ _ (singleInv_step d surfaceIndex y a st es h)
    simpa using this

theorem singleInv_foldl_y (d : List String) (surfaceIndex piecesInX : Nat) (l : List Nat)
    (st : SingleState) (es : List StackPieceWidget) (h : SingleInv st es) :
    SingleInv
      (l.foldl (fun st y => (List.range' 1 piecesInX).foldl (singleStep d surfaceIndex y) st) st)
      (es ++ l.flatMap (fun y => rowEntries piecesInX d surfaceIndex y)) := by
  induction l generalizing st es with
  | nil => simpa using h
  | cons a t ih =>
    have := ih _ _ (singleInv_foldl_x d surfaceIndex a (List.range' 1 piecesInX) st es h)
    simpa [rowEntries] using this

theorem singleInv_surface (readAnalysis : Nat → Option (List String)) (piecesInX piecesInY : Nat)
    (surfaceIndex : Nat) (st : SingleState) (es : List StackPieceWidget) (h : SingleInv st es) :
    SingleInv (singleSurface readAnalysis piecesInX piecesInY st surfaceIndex)
      (es ++ surfaceEntries readAnalysis piecesInX piecesInY surfaceIndex) := by
  unfold singleSurface surfaceEntries
  cases readAnalysis surfaceIndex with
  | none => simpa using h
  | some d => exact singleInv_foldl_y d surfaceIndex piecesInX _ st es h

theorem singleInv_foldl_surfaces (readAnalysis : Nat → Option (List String))
    (piecesInX piecesInY : Nat) (l : List Nat) (st : SingleState) (es : List StackPieceWidget)
    (h : SingleInv st es) :
    SingleInv (l.foldl (singleSurface readAnalysis piecesInX piecesInY) st)
      (es ++ l.flatMap (surfaceEntries readAnalysis piecesInX piecesInY)) := by
  induction l generalizing st es with
  | nil => simpa using h
  | cons a t ih =>
    have := ih _ _ (singleInv_surface readAnalysis piecesInX piecesInY a st es h)
    simpa using this

theorem singleInv_final (readAnalysis : Nat → Option (List String))
    (totalSurfaces piecesInX piecesInY : Nat) :
    SingleInv
      ((List.range totalSurfaces).foldl (singleSurface readAnalysis piecesInX piecesInY)
        { allStacks := [], currentPieceCount := 0, stackCount := 0 })
      (singleEntries readAnalysis totalSurfaces piecesInX piecesInY) := by
  have := singleInv_foldl_surfaces readAnalysis piecesInX piecesInY (List.range totalSurfaces)
    _ _ singleInv_init
  simpa [singleEntries] using this

/-- In a list of chunks whose members all have length 50, followed by one chunk of length at
most 50, the chunk with index `k` is the slice `[50 k, 50 k + 50)` of the concatenation. -/
theorem chunk_getElem? {α : Type} (init : List (List α)) (last : List α)
    (hinit : ∀ l ∈ init, l.length = 50) (hlast : last.length ≤ 50) (k : Nat)
    (hk : k < init.length + 1) :
    (init ++ [last])[k]? = some (((init ++ [last]).flatten.drop (50 * k)).take 50) := by
  induction init generalizing k with
  | nil =>
    have : k = 0 := by simpa using hk
    subst this
    simp [List.take_of_length_le hlast]
  | cons a t ih =>
    have ha : a.length = 50 := hinit a (List.mem_cons_self _ _)
    cases k with
    | zero =>
      simp only [List.cons_append, List.flatten_cons, Nat.mul_zero, List.drop_zero,
        List.getElem?_cons_zero]
      rw [List.take_append_of_le_length (by omega), List.take_of_length_le (by omega)]
    | succ k =>
      simp only [List.cons_append, List.flatten_cons, List.getElem?_cons_succ]
      rw [ih (fun l hl => hinit l (List.mem_cons_of_mem _ hl)) k (by simpa using hk)]
      have : 50 * (k + 1) = a.length + 50 * k := by omega
      rw [this, ← List.drop_drop, List.drop_left]

theorem chunk_length {α : Type} (init : List (List α)) (last : List α)
    (hinit : ∀ l ∈ init, l.length = 50) :
    (init ++ [last]).flatten.length = 50 * init.length + last.length := by
  induction init with
  | nil => simp
  | cons a t ih =>
    have ha : a.length = 50 := hinit a (List.mem_cons_self _ _)
    have := ih (fun l hl => hinit l (List.mem_cons_of_mem _ hl))
    simp only [List.cons_append, List.flatten_cons, List.length_append, List.length_cons] at this ⊢
    omega

/-- What the invariant says about the final list of stacks. -/
theorem singleInv_stacks (st : SingleState) (es : List StackPieceWidget) (h : SingleInv st es) :
    st.allStacks.length = (es.length + 49) / 50 ∧
    ∀ k, k < st.allStacks.length →
      st.allStacks[k]? = some { label := stackLabel (k + 1), maxCapacity := maxPiecesPerStack,
                                pieces := (es.drop (50 * k)).take 50 } := by
  obtain ⟨hflat, _, hlab, hshape⟩ := h
  rcases hshape with ⟨hnil, _⟩ | ⟨init, last, hall, hfull, hlast, hpos, hle⟩
  · rw [hnil] at hflat ⊢
    simp only [List.map_nil, List.flatten_nil] at hflat
    subst hflat
    simp
  · have hinit : ∀ l ∈ init.map StackWidget.pieces, l.length = 50 := by
      intro l hl
      obtain ⟨s, hs, rfl⟩ := List.mem_map.mp hl
      exact hfull s hs
    have hmap : st.allStacks.map StackWidget.pieces
        = init.map StackWidget.pieces ++ [last.pieces] := by rw [hall]; simp
    have hlen := chunk_length (init.map StackWidget.pieces) last.pieces hinit
    rw [← hmap, hflat] at hlen
    have hle50 : last.pieces.length ≤ 50 := by rw [hlast]; exact hle
    have hpos1 : 1 ≤ last.pieces.length := by rw [hlast]; exact hpos
    constructor
    · rw [hall, hlen]
      simp only [List.length_append, List.length_map, List.length_singleton]
      omega
    · intro k hk
      have hk1 : k < (init.map StackWidget.pieces).length + 1 := by
        rw [hall] at hk; simpa using hk
      have hc := chunk_getElem? (init.map StackWidget.pieces) last.pieces hinit hle50 k hk1
      rw [← hmap, hflat, List.getElem?_map] at hc
      obtain ⟨s, hs⟩ : ∃ s, st.allStacks[k]? = some s :=
        ⟨st.allStacks[k], List.getElem?_eq_getElem hk⟩
      rw [hs] at hc ⊢
      have hl := hlab k s hs
      simp only [Option.map_some', Option.some.injEq] at hc
      cases s with
      | mk lab cap ps =>
        simp only at hl hc
        rw [hl.1, hl.2, hc]

theorem flatMap_congr_mem {α β : Type} (l : List α) (f g : α → List β)
    (h : ∀ a ∈ l, f a = g a) : l.flatMap f = l.flatMap g := by
  induction l with
  | nil => rfl
  | cons a t ih =>
    simp only [List.flatMap_cons]
    rw [h a (List.mem_cons_self _ _), ih (fun b hb => h b (List.mem_cons_of_mem _ hb))]

theorem singleEntries_eq_allPieces (readAnalysis : Nat → Option (List String))
    (totalSurfaces piecesInX piecesInY : Nat)
    (hread : ∀ s, s < totalSurfaces → (readAnalysis s).isSome = true) :
    singleEntries readAnalysis totalSurfaces piecesInX piecesInY
      = allPieces readAnalysis totalSurfaces piecesInX piecesInY := by
  unfold singleEntries allPieces
  apply flatMap_congr_mem
  intro s hs
  have := hread s (List.mem_range.mp hs)
  unfold surfaceEntries
  cases hr : readAnalysis s with
  | none => rw [hr] at this; cases this
  | some d => simp [rowEntries]

theorem allPieces_length (readAnalysis : Nat → Option (List String))
    (totalSurfaces piecesInX piecesInY : Nat) :
    (allPieces readAnalysis totalSurfaces piecesInX piecesInY).length
      = totalSurfaces * piecesInX * piecesInY := by
  simp [allPieces, List.length_flatMap, Function.comp_def, Nat.mul_assoc, Nat.mul_comm piecesInY]

theorem updateStackPreview_single (readAnalysis : Nat → Option (List String))
    (totalSurfaces piecesInX piecesInY : Nat) :
    SingleInv
      { allStacks := updateStackPreview false readAnalysis totalSurfaces piecesInX piecesInY,
        currentPieceCount :=
          ((List.range totalSurfaces).foldl (singleSurface readAnalysis piecesInX piecesInY)
            { allStacks := [], currentPieceCount := 0, stackCount := 0 }).currentPieceCount,
        stackCount :=
          ((List.range totalSurfaces).foldl (singleSurface readAnalysis piecesInX piecesInY)
            { allStacks := [], currentPieceCount := 0, stackCount := 0 }).stackCount }
      (singleEntries readAnalysis totalSurfaces piecesInX piecesInY) ∨
    (updateStackPreview false readAnalysis totalSurfaces piecesInX piecesInY = [] ∧
      singleEntries readAnalysis totalSurfaces piecesInX piecesInY = []) := by
  unfold updateStackPreview
  by_cases h : totalSurfaces = 0 ∨ piecesInX = 0 ∨ piecesInY = 0
  · right
    rw [if_pos h]
    refine ⟨rfl, ?_⟩
    rcases h with h | h | h
    · subst h; simp [singleEntries]
    · subst h
      unfold singleEntries
      rw [List.flatMap_eq_nil_iff]
      intro s _
      unfold surfaceEntries
      cases readAnalysis s <;> simp [rowEntries]
    · subst h
      unfold singleEntries
      rw [List.flatMap_eq_nil_iff]
      intro s _
      unfold surfaceEntries
      cases readAnalysis s <;> simp
  · left
    rw [if_neg h]
    simp only [Bool.false_eq_true, if_false]
    exact singleInv_final readAnalysis totalSurfaces piecesInX piecesInY

/-- The stacks of the single-stack layout are the slices of 50 of the sequence of calls. -/
theorem single_stacks (readAnalysis : Nat → Option (List String))
    (totalSurfaces piecesInX piecesInY : Nat) :
    ((updateStackPreview false readAnalysis totalSurfaces piecesInX piecesInY).map
        StackWidget.pieces).flatten
      = singleEntries readAnalysis totalSurfaces piecesInX piecesInY ∧
    (updateStackPreview false readAnalysis totalSurfaces piecesInX piecesInY).length
      = ((singleEntries readAnalysis totalSurfaces piecesInX piecesInY).length + 49) / 50 ∧
    ∀ k, k < (updateStackPreview false readAnalysis totalSurfaces piecesInX piecesInY).length →
      (updateStackPreview false readAnalysis totalSurfaces piecesInX piecesInY)[k]?
        = some { label := stackLabel (k + 1), maxCapacity := maxPiecesPerStack,
                 pieces := ((singleEntries readAnalysis totalSurfaces piecesInX piecesInY).drop
                   (50 * k)).take 50 } := by
  rcases updateStackPreview_single readAnalysis totalSurfaces piecesInX piecesInY with h | ⟨h1, h2⟩
  · have := singleInv_stacks _ _ h
    exact ⟨h.1, this.1, this.2⟩
  · rw [h1, h2]; simp

theorem flatMap_range_map_range {β : Type} (G n : Nat) (H : Nat → Nat → β) :
    (List.range G).flatMap (fun g => (List.range n).map (H g))
      = (List.range (G * n)).map (fun k => H (k / n) (k % n)) := by
  induction G with
  | zero => simp
  | succ G ih =>
    rw [List.range_succ, List.flatMap_append, ih]
    have hsplit : List.range ((G + 1) * n) = List.range (G * n) ++ List.range' (G * n) n := by
      rw [List.range_eq_range', List.range_eq_range']
      have := List.range'_append 0 (G * n) n 1
      simp only [Nat.zero_add, Nat.one_mul] at this
      rw [this]; congr 1; ring
    rw [hsplit, List.map_append]
    congr 1
    simp only [List.flatMap_cons, List.flatMap_nil, List.append_nil]
    rw [List.range'_eq_map_range, List.map_map]
    apply List.map_congr_left
    intro j hj
    have hj : j < n := List.mem_range.mp hj
    have hn : 0 < n := by omega
    simp only [Function.comp]
    have h1 : (G * n + j) / n = G := by
      rw [Nat.mul_comm, Nat.mul_add_div hn, Nat.div_eq_of_lt hj, Nat.add_zero]
    have h2 : (G * n + j) % n = j := by
      rw [Nat.mul_comm, Nat.mul_add_mod, Nat.mod_eq_of_lt hj]
    rw [h1, h2]

/-- The stacks of the X-axis layout, by creation index. -/
theorem xAxisStacks_eq_map (readAnalysis : Nat → Option (List String))
    (totalSurfaces piecesInX piecesInY : Nat) :
    xAxisStacks readAnalysis totalSurfaces piecesInX piecesInY
      = (List.range (stackGroupsNeeded totalSurfaces piecesInX * piecesInY)).map (fun k =>
          xAxisStack readAnalysis totalSurfaces piecesInX piecesInY
            (k / piecesInY) (1 + k % piecesInY)) := by
  rw [xAxisStacks_eq]
  have := flatMap_range_map_range (stackGroupsNeeded totalSurfaces piecesInX) piecesInY
    (fun g j => xAxisStack readAnalysis totalSurfaces piecesInX piecesInY g (1 + j))
  simp only [List.range'_eq_map_range, List.map_map, Function.comp_def]
  exact this

theorem stackGroupsNeeded_zero_surfaces (piecesInX : Nat) : stackGroupsNeeded 0 piecesInX = 0 := by
  simp [stackGroupsNeeded, maxPiecesPerStack]

theorem stackGroupsNeeded_zero_pieces (totalSurfaces : Nat) :
    stackGroupsNeeded totalSurfaces 0 = 0 := by
  simp [stackGroupsNeeded, maxPiecesPerStack]

/-- The stacks of `updateStackPreview` under the X-axis strategy, by creation index; the safety
check makes no difference to this description. -/
theorem updateStackPreview_xAxis (readAnalysis : Nat → Option (List String))
    (totalSurfaces piecesInX piecesInY : Nat) :
    updateStackPreview true readAnalysis totalSurfaces piecesInX piecesInY
      = (List.range (stackGroupsNeeded totalSurfaces piecesInX * piecesInY)).map (fun k =>
          xAxisStack readAnalysis totalSurfaces piecesInX piecesInY
            (k / piecesInY) (1 + k % piecesInY)) := by
  unfold updateStackPreview
  by_cases h : totalSurfaces = 0 ∨ piecesInX = 0 ∨ piecesInY = 0
  · rw [if_pos h]
    rcases h with h | h | h
    · subst h; simp [stackGroupsNeeded_zero_surfaces]
    · subst h; simp [stackGroupsNeeded_zero_pieces]
    · subst h; simp
  · rw [if_neg h]
    simp only [if_true]
    exact xAxisStacks_eq_map readAnalysis totalSurfaces piecesInX piecesInY

/-- The stack of group `g` and row `y` is the stack with creation index `g * piecesInY + (y - 1)`. -/
theorem updateStackPreview_xAxis_getElem? (readAnalysis : Nat → Option (List String))
    (totalSurfaces piecesInX piecesInY g y : Nat)
    (hg : g < stackGroupsNeeded totalSurfaces piecesInX) (hy1 : 1 ≤ y) (hy : y ≤ piecesInY) :
    (updateStackPreview true readAnalysis totalSurfaces piecesInX piecesInY)[g * piecesInY + (y - 1)]?
      = some (xAxisStack readAnalysis totalSurfaces piecesInX piecesInY g y) := by
  rw [updateStackPreview_xAxis, List.getElem?_map]
  have hlt : g * piecesInY + (y - 1) < stackGroupsNeeded totalSurfaces piecesInX * piecesInY := by
    have : (g + 1) * piecesInY ≤ stackGroupsNeeded totalSurfaces piecesInX * piecesInY :=
      Nat.mul_le_mul_right _ hg
    rw [Nat.add_mul] at this
    omega
  rw [List.getElem?_range hlt]
  have hpos : 0 < piecesInY := by omega
  have hy' : y - 1 < piecesInY := by omega
  have h1 : (g * piecesInY + (y - 1)) / piecesInY = g := by
    rw [Nat.mul_comm, Nat.mul_add_div hpos, Nat.div_eq_of_lt hy', Nat.add_zero]
  have h2 : (g * piecesInY + (y - 1)) % piecesInY = y - 1 := by
    rw [Nat.mul_comm, Nat.mul_add_mod, Nat.mod_eq_of_lt hy']
  simp only [Option.map_some', h1, h2]
  congr 2
  omega

/-! ## The claims on the stack layout -/

set_option maxRecDepth 100000 in
/-- C1 (fails on the code): with 11 readable surfaces and a 9 x 1 grid the X-axis layout creates
two stacks of 45 entries, 90 entries in all, and no entry of the eleventh surface, although the
session has 11 * 9 * 1 = 99 pieces. -/
theorem C1_xaxis_total_at_11_9_1 :
    ((updateStackPreview true (fun _ => some []) 11 9 1).map
        (fun s => s.pieces.length)).sum = 90 ∧
    (updateStackPreview true (fun _ => some []) 11 9 1).map (fun s => s.pieces.length) = [45, 45] ∧
    (∀ s ∈ updateStackPreview true (fun _ => some []) 11 9 1, ∀ e ∈ s.pieces, e.surfaceNum ≠ 11) ∧
    stackGroupsNeeded 11 9 = 2 ∧ surfacesPerGroup 9 = 5 ∧
    11 * 9 * 1 = 99 := by
  decide

/-- C2: under the single strategy with every analysis file readable, the stacks concatenated in
creation order are all pieces in lexicographic (surface, y, x) order, there are
`ceil (total / 50)` stacks, the stack with 0-based index `k` is labelled `k + 1` and holds the
entries `50 k + 1 .. min (50 k + 50) total` of that list, and every stack but the last holds
exactly 50 entries. -/
theorem C2_single_layout (readAnalysis : Nat → Option (List String))
    (totalSurfaces piecesInX piecesInY : Nat)
    (hread : ∀ s, s < totalSurfaces → (readAnalysis s).isSome = true) :
    ((updateStackPreview false readAnalysis totalSurfaces piecesInX piecesInY).map
        StackWidget.pieces).flatten
      = allPieces readAnalysis totalSurfaces piecesInX piecesInY ∧
    (allPieces readAnalysis totalSurfaces piecesInX piecesInY).length
      = totalSurfaces * piecesInX * piecesInY ∧
    (updateStackPreview false readAnalysis totalSurfaces piecesInX piecesInY).length
      = (totalSurfaces * piecesInX * piecesInY + 49) / 50 ∧
    (∀ k, k < (updateStackPreview false readAnalysis totalSurfaces piecesInX piecesInY).length →
      (updateStackPreview false readAnalysis totalSurfaces piecesInX piecesInY)[k]?
        = some { label := stackLabel (k + 1), maxCapacity := 50,
                 pieces := ((allPieces readAnalysis totalSurfaces piecesInX piecesInY).drop
                   (50 * k)).take 50 }) ∧
    (∀ k s, (updateStackPreview false readAnalysis totalSurfaces piecesInX piecesInY)[k]? = some s →
      s.pieces.length = min (50 * (k + 1)) (totalSurfaces * piecesInX * piecesInY) - 50 * k ∧
      (k + 1 < (updateStackPreview false readAnalysis totalSurfaces piecesInX piecesInY).length →
        s.pieces.length = 50)) := by
  have h := single_stacks readAnalysis totalSurfaces piecesInX piecesInY
  rw [singleEntries_eq_allPieces readAnalysis totalSurfaces piecesInX piecesInY hread] at h
  have hlen := allPieces_length readAnalysis totalSurfaces piecesInX piecesInY
  obtain ⟨h1, h2, h3⟩ := h
  rw [hlen] at h2
  refine ⟨h1, hlen, h2, h3, ?_⟩
  intro k s hks
  have hk : k < (updateStackPreview false readAnalysis totalSurfaces piecesInX piecesInY).length :=
    (List.getElem?_eq_some.mp hks).1
  have := h3 k hk
  rw [hks] at this
  simp only [Option.some.injEq] at this
  subst this
  simp only [List.length_take, List.length_drop, hlen]
  rw [h2] at hk ⊢
  constructor
  · omega
  · intro hk1; omega

theorem surfaceRow_of_readable (readAnalysis : Nat → Option (List String))
    (piecesInX y s : Nat) (h : (readAnalysis s).isSome = true) :
    surfaceRow readAnalysis piecesInX y s
      = (List.range' 1 piecesInX).map (fun x => entry ((readAnalysis s).getD []) s x y) := by
  unfold surfaceRow
  cases hr : readAnalysis s with
  | none => rw [hr] at h; cases h
  | some d => simp [rowEntries]

theorem mem_groupSurfaces_lt (totalSurfaces piecesInX g s : Nat)
    (h : s ∈ groupSurfaces totalSurfaces piecesInX g) : s < totalSurfaces := by
  unfold groupSurfaces at h
  rw [List.mem_range'_1] at h
  omega

/-- The contents of the stack of group `g` and row `y` when every analysis file is readable. -/
theorem xAxisStack_of_readable (readAnalysis : Nat → Option (List String))
    (totalSurfaces piecesInX piecesInY g y : Nat)
    (hread : ∀ s, s < totalSurfaces → (readAnalysis s).isSome = true) :
    xAxisStack readAnalysis totalSurfaces piecesInX piecesInY g y
      = { label := stackLabel (y + g * piecesInY), maxCapacity := 50,
          pieces :=
            (List.range' (g * surfacesPerGroup piecesInX)
                (min ((g + 1) * surfacesPerGroup piecesInX) totalSurfaces
                  - g * surfacesPerGroup piecesInX)).flatMap
              (fun s => (List.range' 1 piecesInX).map
                (fun x => entry ((readAnalysis s).getD []) s x y)) } := by
  rw [xAxisStack_eq]
  congr 1
  apply flatMap_congr_mem
  intro s hs
  exact surfaceRow_of_readable readAnalysis piecesInX y s
    (hread s (mem_groupSurfaces_lt totalSurfaces piecesInX g s hs))

/-- C3 (fails as stated): with one surface whose analysis file cannot be opened and a 4 x 2
grid, the stack of group 0 and row 1 is created empty, while the claim gives it the four pieces
of row 1 of surface 0. -/
theorem C3_unreadable_surface_skipped :
    (updateStackPreview true (fun _ => none) 1 4 2)[0 * 2 + (1 - 1)]?
      = some { label := "Stack 1", maxCapacity := 50, pieces := [] } ∧
    ((List.range' (0 * (50 / 4)) (min ((0 + 1) * (50 / 4)) 1 - 0 * (50 / 4))).flatMap
      (fun s => (List.range' 1 4).map (fun x => (s, x, 1)))) = [(0, 1, 1), (0, 2, 1), (0, 3, 1), (0, 4, 1)] := by
  decide

set_option maxRecDepth 100000 in
/-- C3 (amended): under the X-axis strategy the stack of group `g` and row `y` (the stack with
creation index `g * piecesInY + (y - 1)`, labelled `y + g * piecesInY`) holds exactly, for each
surface index `s` ascending from `g * surfacesPerGroup` up to
`min ((g + 1) * surfacesPerGroup) totalSurfaces` whose analysis file can be opened, the pieces
`(x, y)` for `x = 1 .. piecesInX` ascending, with `surfacesPerGroup = 50 / piecesInX`; a surface
whose file cannot be opened contributes nothing.  For a 4 x 2 grid and 20 surfaces with readable
files there are four stacks; stacks 1 and 2 hold 48 entries, four for each of the surfaces 0..11
(surface numbers 1..12), and stacks 3 and 4 hold 32 entries, four for each of the surfaces
12..19. -/
theorem C3_xaxis_stack_contents (readAnalysis : Nat → Option (List String))
    (totalSurfaces piecesInX piecesInY : Nat) :
    (∀ g y, g < stackGroupsNeeded totalSurfaces piecesInX → 1 ≤ y → y ≤ piecesInY →
      (updateStackPreview true readAnalysis totalSurfaces piecesInX piecesInY)[g * piecesInY + (y - 1)]?
        = some
          { label := stackLabel (y + g * piecesInY), maxCapacity := 50,
            pieces :=
              (List.range' (g * (50 / piecesInX))
                  (min ((g + 1) * (50 / piecesInX)) totalSurfaces - g * (50 / piecesInX))).flatMap
                (fun s =>
                  match readAnalysis s with
                  | none => []
                  | some defectPieces =>
                    (List.range' 1 piecesInX).map
                      (fun x =>
                        { surfaceNum := s + 1, pieceId := pieceId x y,
                          hasDefect := hasDefect defectPieces (pieceId x y) })) }) ∧
    ((∀ s, s < totalSurfaces → (readAnalysis s).isSome = true) →
      totalSurfaces = 20 → piecesInX = 4 → piecesInY = 2 →
      (updateStackPreview true readAnalysis totalSurfaces piecesInX piecesInY).map
          (fun st => (st.label, st.pieces.length, st.pieces.map (fun e => e.surfaceNum - 1)))
        = [("Stack 1", 48, (List.range' 0 12).flatMap (fun s => List.replicate 4 s)),
           ("Stack 2", 48, (List.range' 0 12).flatMap (fun s => List.replicate 4 s)),
           ("Stack 3", 32, (List.range' 12 8).flatMap (fun s => List.replicate 4 s)),
           ("Stack 4", 32, (List.range' 12 8).flatMap (fun s => List.replicate 4 s))]) := by
  constructor
  · intro g y hg hy1 hy
    rw [updateStackPreview_xAxis_getElem? readAnalysis totalSurfaces piecesInX piecesInY g y hg hy1 hy,
      xAxisStack_eq]
    rfl
  · intro hread hS hX hY
    subst hS hX hY
    rw [updateStackPreview_xAxis]
    have hG : stackGroupsNeeded 20 4 * 2 = 4 := by decide
    rw [hG]
    simp only [List.map_map, Function.comp_def,
      xAxisStack_of_readable readAnalysis 20 4 2 _ _ hread, List.length_flatMap, List.map_flatMap,
      List.length_map, List.length_range', entry]
    decide

theorem xAxisStack_label (readAnalysis : Nat → Option (List String))
    (totalSurfaces piecesInX piecesInY g y : Nat) :
    (xAxisStack readAnalysis totalSurfaces piecesInX piecesInY g y).label
      = stackLabel (y + g * piecesInY) := by
  rw [xAxisStack_eq]

/-- C4: under the X-axis strategy `stackGroupsNeeded` is `ceil (totalSurfaces * piecesInX / 50)`,
the stack of group `g` and row `y` is labelled with the number `y + g * piecesInY`, which lies in
`1 .. stackGroupsNeeded * piecesInY`; every number of that range is the number of exactly one
pair `(g, y)` with `g < stackGroupsNeeded` and `1 ≤ y ≤ piecesInY`; and the stacks are emitted in
increasing number order, the `n`-th stack created being labelled `n`. -/
theorem C4_xaxis_stack_numbering (readAnalysis : Nat → Option (List String))
    (totalSurfaces piecesInX piecesInY : Nat) :
    (totalSurfaces * piecesInX ≤ 50 * stackGroupsNeeded totalSurfaces piecesInX ∧
      50 * stackGroupsNeeded totalSurfaces piecesInX < totalSurfaces * piecesInX + 50) ∧
    (∀ g y, g < stackGroupsNeeded totalSurfaces piecesInX → 1 ≤ y → y ≤ piecesInY →
      (∃ st, (updateStackPreview true readAnalysis totalSurfaces piecesInX piecesInY)[
            g * piecesInY + (y - 1)]? = some st ∧
          st = xAxisStack readAnalysis totalSurfaces piecesInX piecesInY g y ∧
          st.label = stackLabel (y + g * piecesInY)) ∧
      1 ≤ y + g * piecesInY ∧
      y + g * piecesInY ≤ stackGroupsNeeded totalSurfaces piecesInX * piecesInY) ∧
    (∀ n, 1 ≤ n → n ≤ stackGroupsNeeded totalSurfaces piecesInX * piecesInY →
      ∃! p : Nat × Nat, p.1 < stackGroupsNeeded totalSurfaces piecesInX ∧ 1 ≤ p.2 ∧
        p.2 ≤ piecesInY ∧ p.2 + p.1 * piecesInY = n) ∧
    (updateStackPreview true readAnalysis totalSurfaces piecesInX piecesInY).map StackWidget.label
      = (List.range (stackGroupsNeeded totalSurfaces piecesInX * piecesInY)).map
          (fun n => stackLabel (n + 1)) := by
  refine ⟨?_, ?_, ?_, ?_⟩
  · simp only [stackGroupsNeeded, maxPiecesPerStack]
    constructor <;> omega
  · intro g y hg hy1 hy
    refine ⟨⟨_, updateStackPreview_xAxis_getElem? readAnalysis totalSurfaces piecesInX piecesInY
      g y hg hy1 hy, rfl, xAxisStack_label _ _ _ _ _ _⟩, by omega, ?_⟩
    have : (g + 1) * piecesInY ≤ stackGroupsNeeded totalSurfaces piecesInX * piecesInY :=
      Nat.mul_le_mul_right _ hg
    rw [Nat.add_mul] at this
    omega
  · intro n hn1 hn
    have hpos : 0 < piecesInY := by
      rcases Nat.eq_zero_or_pos piecesInY with h | h
      · subst h; simp at hn; omega
      · exact h
    refine ⟨((n - 1) / piecesInY, (n - 1) % piecesInY + 1), ⟨?_, by simp, ?_, ?_⟩, ?_⟩
    · show (n - 1) / piecesInY < stackGroupsNeeded totalSurfaces piecesInX
      rw [Nat.div_lt_iff_lt_mul hpos]; omega
    · show (n - 1) % piecesInY + 1 ≤ piecesInY
      have := Nat.mod_lt (n - 1) hpos; omega
    · show (n - 1) % piecesInY + 1 + (n - 1) / piecesInY * piecesInY = n
      have := Nat.mod_add_div (n - 1) piecesInY
      rw [Nat.mul_comm] at this; omega
    · rintro ⟨g, y⟩ ⟨_, hy1, hy, hgy⟩
      simp only at hy1 hy hgy
      have hy' : y - 1 < piecesInY := by omega
      have hn' : n - 1 = piecesInY * g + (y - 1) := by rw [Nat.mul_comm]; omega
      have h1 : (n - 1) / piecesInY = g := by
        rw [hn', Nat.mul_add_div hpos, Nat.div_eq_of_lt hy', Nat.add_zero]
      have h2 : (n - 1) % piecesInY = y - 1 := by
        rw [hn', Nat.mul_add_mod, Nat.mod_eq_of_lt hy']
      rw [h1, h2]
      congr 1
      omega
  · rw [updateStackPreview_xAxis, List.map_map]
    apply List.map_congr_left
    intro k _
    simp only [Function.comp, xAxisStack_label]
    congr 1
    have := Nat.mod_add_div k piecesInY
    rw [Nat.mul_comm] at this
    omega

/-- C5: a stack created with capacity 50 never holds more than 50 entries, whatever sequence of
`addPiece` calls it receives; a call on a stack of capacity 50 holding fewer than 50 entries
appends exactly the new entry, and a call on one holding 50 entries leaves it unchanged. -/
theorem C5_addPiece_capacity (label : String) (calls : List (Nat × String × Bool)) :
    (calls.foldl (fun st c => st.addPiece c.1 c.2.1 c.2.2)
        (StackWidget.create label 50)).pieces.length ≤ 50 ∧
    (calls.foldl (fun st c => st.addPiece c.1 c.2.1 c.2.2)
        (StackWidget.create label 50)).maxCapacity = 50 ∧
    (∀ (st : StackWidget) (n : Nat) (id : String) (b : Bool), st.maxCapacity = 50 →
      (st.pieces.length < 50 →
        st.addPiece n id b
          = { st with pieces := st.pieces ++ [{ surfaceNum := n, pieceId := id, hasDefect := b }] } ∧
        (st.addPiece n id b).pieces.length = st.pieces.length + 1) ∧
      (st.pieces.length = 50 → st.addPiece n id b = st)) := by
  have key : ∀ (l : List (Nat × String × Bool)) (st : StackWidget),
      st.maxCapacity = 50 → st.pieces.length ≤ 50 →
      (l.foldl (fun st c => st.addPiece c.1 c.2.1 c.2.2) st).pieces.length ≤ 50 ∧
      (l.foldl (fun st c => st.addPiece c.1 c.2.1 c.2.2) st).maxCapacity = 50 := by
    intro l
    induction l with
    | nil => intro st hc hl; exact ⟨hl, hc⟩
    | cons c t ih =>
      intro st hc hl
      rw [List.foldl_cons]
      rcases Nat.lt_or_ge st.pieces.length 50 with h | h
      · apply ih
        · rw [addPiece_of_lt _ _ _ _ (by omega)]; exact hc
        · rw [addPiece_of_lt _ _ _ _ (by omega)]
          simp only [List.length_append, List.length_singleton]; omega
      · rw [addPiece_of_ge _ _ _ _ (by omega)]
        exact ih st hc hl
  have h0 := key calls (StackWidget.create label 50) rfl (by simp [StackWidget.create])
  refine ⟨h0.1, h0.2, ?_⟩
  intro st n id b hc
  constructor
  · intro hlt
    have := addPiece_of_lt st n id b (by omega)
    refine ⟨this, ?_⟩
    rw [this]; simp
  · intro heq
    exact addPiece_of_ge st n id b (by omega)

theorem hasDefect_iff (defectPieces : List String) (id : String) :
    hasDefect defectPieces id = true ↔ id ∈ defectPieces := by
  unfold hasDefect
  rw [List.any_eq_true]
  constructor
  · rintro ⟨v, hv, he⟩
    have : v = id := by simpa using he
    rw [← this]; exact hv
  · intro h
    exact ⟨id, h, by simp⟩

/-- What every entry of a row of a readable surface looks like. -/
theorem mem_surfaceRow (readAnalysis : Nat → Option (List String)) (piecesInX y s : Nat)
    (e : StackPieceWidget) (h : e ∈ surfaceRow readAnalysis piecesInX y s) :
    ∃ d x, readAnalysis s = some d ∧ 1 ≤ x ∧ x ≤ piecesInX ∧ e = entry d s x y := by
  unfold surfaceRow at h
  cases hr : readAnalysis s with
  | none => rw [hr] at h; simp at h
  | some d =>
    rw [hr] at h
    simp only [rowEntries, List.mem_map, List.mem_range'_1] at h
    obtain ⟨x, ⟨hx1, hx2⟩, rfl⟩ := h
    exact ⟨d, x, rfl, hx1, by omega, rfl⟩

theorem mem_surfaceEntries (readAnalysis : Nat → Option (List String)) (piecesInX piecesInY s : Nat)
    (e : StackPieceWidget) (h : e ∈ surfaceEntries readAnalysis piecesInX piecesInY s) :
    ∃ d x y, readAnalysis s = some d ∧ 1 ≤ x ∧ x ≤ piecesInX ∧ 1 ≤ y ∧ y ≤ piecesInY ∧
      e = entry d s x y := by
  unfold surfaceEntries at h
  cases hr : readAnalysis s with
  | none => rw [hr] at h; simp at h
  | some d =>
    rw [hr] at h
    simp only [rowEntries, List.mem_flatMap, List.mem_map, List.mem_range'_1] at h
    obtain ⟨y, ⟨hy1, hy2⟩, x, ⟨hx1, hx2⟩, rfl⟩ := h
    exact ⟨d, x, y, rfl, hx1, by omega, hy1, by omega, rfl⟩

/-- C6: under both strategies every entry of every stack built by `updateStackPreview` is the
entry of a piece `(x, y)` of the grid of a surface `s` whose analysis file was read, carries the
surface number `s + 1` and the identifier "x{x}y{y}", and has `hasDefect = true` if and only if
that identifier occurs in the `pieces_with_defects` list of surface `s`. -/
theorem C6_hasDefect_iff_listed (useXAxisStacking : Bool)
    (readAnalysis : Nat → Option (List String)) (totalSurfaces piecesInX piecesInY : Nat) :
    ∀ st ∈ updateStackPreview useXAxisStacking readAnalysis totalSurfaces piecesInX piecesInY,
      ∀ e ∈ st.pieces,
        ∃ s x y defectPieces, s < totalSurfaces ∧ 1 ≤ x ∧ x ≤ piecesInX ∧ 1 ≤ y ∧ y ≤ piecesInY ∧
          readAnalysis s = some defectPieces ∧
          e.surfaceNum = s + 1 ∧ e.pieceId = pieceId x y ∧
          (e.hasDefect = true ↔ pieceId x y ∈ defectPieces) := by
  intro st hst e he
  cases useXAxisStacking with
  | true =>
    rw [updateStackPreview_xAxis] at hst
    simp only [List.mem_map, List.mem_range] at hst
    obtain ⟨k, hk, rfl⟩ := hst
    rw [xAxisStack_eq] at he
    simp only [List.mem_flatMap] at he
    obtain ⟨s, hs, hes⟩ := he
    obtain ⟨d, x, hr, hx1, hx2, rfl⟩ := mem_surfaceRow _ _ _ _ _ hes
    have hpos : 0 < piecesInY := by
      rcases Nat.eq_zero_or_pos piecesInY with h | h
      · subst h; simp at hk
      · exact h
    have := Nat.mod_lt k hpos
    exact ⟨s, x, 1 + k % piecesInY, d, mem_groupSurfaces_lt _ _ _ _ hs, hx1, hx2, by omega,
      by omega, hr, rfl, rfl, hasDefect_iff _ _⟩
  | false =>
    have hmem : e ∈ ((updateStackPreview false readAnalysis totalSurfaces piecesInX piecesInY).map
        StackWidget.pieces).flatten := by
      rw [List.mem_flatten]
      exact ⟨st.pieces, List.mem_map_of_mem _ hst, he⟩
    rw [(single_stacks readAnalysis totalSurfaces piecesInX piecesInY).1] at hmem
    simp only [singleEntries, List.mem_flatMap, List.mem_range] at hmem
    obtain ⟨s, hs, hes⟩ := hmem
    obtain ⟨d, x, y, hr, hx1, hx2, hy1, hy2, rfl⟩ := mem_surfaceEntries _ _ _ _ _ hes
    exact ⟨s, x, y, d, hs, hx1, hx2, hy1, hy2, hr, rfl, rfl, hasDefect_iff _ _⟩

/-! ## Lemmas on the textual summary -/

theorem digitChar_facts (d : Nat) (h : d < 10) :
    (Nat.digitChar d).isDigit = true ∧ (Nat.digitChar d).toNat - 48 = d := by
  interval_cases d <;> exact ⟨by decide, by decide⟩

/-- The decimal digits that `toString` prints for a natural number: a non-empty string of digits
with the number as its value. -/
theorem toDigitsCore_spec (fuel n : Nat) (ds : List Char) (h : n < fuel) :
    ∃ l, Nat.toDigitsCore 10 fuel n ds = l ++ ds ∧ l ≠ [] ∧
      (∀ c ∈ l, c.isDigit = true) ∧ decValue l = n := by
  induction fuel generalizing n ds with
  | zero => omega
  | succ fuel ih =>
    have hd := digitChar_facts (n % 10) (Nat.mod_lt _ (by decide))
    by_cases h0 : n / 10 = 0
    · refine ⟨[Nat.digitChar (n % 10)], ?_, by simp, ?_, ?_⟩
      · simp [Nat.toDigitsCore, h0]
      · intro c hc
        simp only [List.mem_singleton] at hc
        rw [hc]; exact hd.1
      · simp only [decValue, List.foldl_cons, List.foldl_nil, hd.2]
        omega
    · obtain ⟨l, hl, _, hdig, hval⟩ := ih (n / 10) (Nat.digitChar (n % 10) :: ds) (by omega)
      refine ⟨l ++ [Nat.digitChar (n % 10)], ?_, by simp, ?_, ?_⟩
      · simp [Nat.toDigitsCore, h0, hl]
      · intro c hc
        rcases List.mem_append.mp hc with hc | hc
        · exact hdig c hc
        · simp only [List.mem_singleton] at hc
          rw [hc]; exact hd.1
      · unfold decValue at hval ⊢
        rw [List.foldl_append, hval]
        simp only [List.foldl_cons, List.foldl_nil, hd.2]
        omega

theorem toString_nat_spec (n : Nat) :
    (toString n).data ≠ [] ∧ (∀ c ∈ (toString n).data, c.isDigit = true) ∧
      decValue (toString n).data = n := by
  obtain ⟨l, hl, hne, hdig, hval⟩ := toDigitsCore_spec (n + 1) n [] (Nat.lt_succ_self n)
  have : (toString n).data = l := by
    show Nat.toDigits 10 n = l
    unfold Nat.toDigits
    rw [hl, List.append_nil]
  rw [this]
  exact ⟨hne, hdig, hval⟩

theorem isDigit_not_special (c : Char) (h : c.isDigit = true) :
    c.isWhitespace = false ∧ c ≠ '-' ∧ c ≠ '+' ∧ c ≠ 'y' := by
  refine ⟨?_, ?_, ?_, ?_⟩
  · rcases hw : c.isWhitespace with _ | _
    · rfl
    · simp only [Char.isWhitespace, Bool.or_eq_true, decide_eq_true_eq] at hw
      rcases hw with ((rfl | rfl) | rfl) | rfl <;> exact absurd h (by decide)
  · rintro rfl; exact absurd h (by decide)
  · rintro rfl; exact absurd h (by decide)
  · rintro rfl; exact absurd h (by decide)

theorem dropWhile_isWhitespace_digits (l : List Char) (h : ∀ c ∈ l, c.isDigit = true) :
    l.dropWhile Char.isWhitespace = l := by
  cases l with
  | nil => rfl
  | cons a t =>
    rw [List.dropWhile_cons, (isDigit_not_special a (h a (List.mem_cons_self _ _))).1]
    simp

/-- On a non-empty string of digits `toInt` returns the value, provided it is a 32-bit `int`. -/
theorem qToInt_digits (l : List Char) (hne : l ≠ []) (h : ∀ c ∈ l, c.isDigit = true)
    (hv : decValue l < 2147483648) : qToInt l = decValue l := by
  unfold qToInt
  have hrev : ∀ c ∈ l.reverse, c.isDigit = true := fun c hc => h c (List.mem_reverse.mp hc)
  rw [dropWhile_isWhitespace_digits l h, dropWhile_isWhitespace_digits l.reverse hrev,
    List.reverse_reverse]
  cases l with
  | nil => exact absurd rfl hne
  | cons a t =>
    have ha := isDigit_not_special a (h a (List.mem_cons_self _ _))
    have hall : (a :: t).all Char.isDigit = true := by
      rw [List.all_eq_true]; exact h
    simp only [List.head?_cons, Option.some.injEq, ha.2.1, ha.2.2.1, or_self, if_false, hall]
    simp only [reduceCtorEq, Bool.true_eq_false, or_self, if_false]
    rw [if_neg]
    omega

theorem pieceId_data (x y : Nat) :
    (pieceId x y).data = 'x' :: ((toString x).data ++ 'y' :: (toString y).data) := by
  simp [pieceId, String.data_append]

theorem qIndexOf_pieceId (x y : Nat) :
    qIndexOf 'y' (pieceId x y).data = ((toString x).data.length : Int) + 1 := by
  have hx := (toString_nat_spec x).2.1
  have hnot : 'y' ∉ (toString x).data := fun hm => (isDigit_not_special _ (hx _ hm)).2.2.2 rfl
  rw [pieceId_data]
  unfold qIndexOf
  rw [if_pos (by simp)]
  rw [List.indexOf_cons_ne _ (by decide), List.indexOf_append_of_not_mem hnot,
    List.indexOf_cons_self]
  push_cast
  ring

theorem qMid_pieceId_x (x y : Nat) :
    qMid (pieceId x y).data 1 (qIndexOf 'y' (pieceId x y).data - 1) = (toString x).data := by
  rw [qIndexOf_pieceId, pieceId_data]
  unfold qMid
  simp only [List.length_cons, List.length_append]
  rw [if_neg (by push_cast; omega), if_neg (by omega), if_neg (by push_cast; omega)]
  have h1 : (1 : Int).toNat = 1 := rfl
  have h2 : ((((toString x).data.length : Int) + 1 - 1)).toNat = (toString x).data.length := by
    omega
  rw [h1, h2]
  simp

theorem qMid_pieceId_y (x y : Nat) :
    qMid (pieceId x y).data (qIndexOf 'y' (pieceId x y).data + 1) (-1) = (toString y).data := by
  rw [qIndexOf_pieceId, pieceId_data]
  unfold qMid
  simp only [List.length_cons, List.length_append]
  rw [if_neg (by push_cast; omega), if_neg (by omega), if_pos (by left; decide)]
  have h2 : ((((toString x).data.length : Int) + 1 + 1)).toNat = (toString x).data.length + 2 := by
    omega
  rw [h2]
  have : 'x' :: ((toString x).data ++ 'y' :: (toString y).data)
      = ('x' :: ((toString x).data ++ ['y'])) ++ (toString y).data := by simp
  rw [this, List.drop_left' (by simp)]

theorem qToInt_toString (n : Nat) (h : n < 2147483648) : qToInt (toString n).data = n := by
  obtain ⟨hne, hdig, hval⟩ := toString_nat_spec n
  rw [qToInt_digits _ hne hdig (by rw [hval]; exact h), hval]

/-- The line that the X-axis summary writes for the identifier of piece `(x, y)`. -/
theorem xAxisDefectLine_pieceId (piecesInX piecesInY spg i x y : Nat) (hspg : spg ≠ 0)
    (hx : x < 2147483648) (hy : y < 2147483648) :
    xAxisDefectLine piecesInX piecesInY spg i (pieceId x y)
      = some { stackNumber := (y : Int) + ((i / spg : Nat) : Int) * piecesInY,
               positionInStack := ((i % spg : Nat) : Int) * piecesInX + (piecesInX - x + 1),
               surfaceNum := i + 1, pieceId := pieceId x y } := by
  unfold xAxisDefectLine
  rw [qMid_pieceId_x, qMid_pieceId_y, qToInt_toString x hx, qToInt_toString y hy]
  simp [hspg]

theorem foldlM_defectLines (piecesInX piecesInY spg i : Nat) (hspg : spg ≠ 0)
    (d : List String) (init : List DefectLine) :
    ∃ added, d.foldlM (fun defectiveByStack pieceId =>
          (xAxisDefectLine piecesInX piecesInY spg i pieceId).map
            (fun line => defectiveByStack ++ [line])) init = some (init ++ added) ∧
      d.map (xAxisDefectLine piecesInX piecesInY spg i) = added.map some := by
  induction d generalizing init with
  | nil => exact ⟨[], by simp, rfl⟩
  | cons a t ih =>
    obtain ⟨line, hline⟩ : ∃ line, xAxisDefectLine piecesInX piecesInY spg i a = some line := by
      unfold xAxisDefectLine
      simp [hspg]
    obtain ⟨added, h1, h2⟩ := ih (init ++ [line])
    refine ⟨line :: added, ?_, ?_⟩
    · rw [List.foldlM_cons, hline]
      simp only [Option.map_some', Option.bind_eq_bind, Option.some_bind]
      rw [h1]; simp
    · simp [hline, h2]

/-- With `1 ≤ piecesInX ≤ 50` the X-axis summary divides by no zero, and its lines are, surface
by surface, the lines of the identifiers listed for the readable surfaces. -/
theorem summaryXAxis_spec (readAnalysis : Nat → Option (List String))
    (totalSurfaces piecesInX piecesInY : Nat) (h1 : 1 ≤ piecesInX) (h50 : piecesInX ≤ 50) :
    ∃ lines, summaryXAxis readAnalysis totalSurfaces piecesInX piecesInY = some lines ∧
      (List.range totalSurfaces).flatMap (fun i =>
          ((readAnalysis i).getD []).map (xAxisDefectLine piecesInX piecesInY (50 / piecesInX) i))
        = lines.map some := by
  have hspg : 50 / piecesInX ≠ 0 := by
    have := Nat.div_pos h50 (by omega : 0 < piecesInX)
    omega
  unfold summaryXAxis
  rw [if_neg (by omega)]
  simp only [maxPiecesPerStack]
  suffices H : ∀ (l : List Nat) (init : List DefectLine),
      ∃ added, l.foldlM (fun defectiveByStack i =>
          match readAnalysis i with
          | none => some defectiveByStack
          | some defectPieces =>
            defectPieces.foldlM
              (fun defectiveByStack pieceId =>
                (xAxisDefectLine piecesInX piecesInY (50 / piecesInX) i pieceId).map
                  (fun line => defectiveByStack ++ [line]))
              defectiveByStack) init = some (init ++ added) ∧
        l.flatMap (fun i => ((readAnalysis i).getD []).map
          (xAxisDefectLine piecesInX piecesInY (50 / piecesInX) i)) = added.map some by
    obtain ⟨added, ha, hb⟩ := H (List.range totalSurfaces) []
    exact ⟨added, by simpa using ha, hb⟩
  intro l
  induction l with
  | nil => intro init; exact ⟨[], by simp, rfl⟩
  | cons a t ih =>
    intro init
    rw [List.foldlM_cons]
    cases hr : readAnalysis a with
    | none =>
      obtain ⟨added, ha, hb⟩ := ih init
      refine ⟨added, ?_, ?_⟩
      · simpa using ha
      · simp [hr, hb]
    | some d =>
      obtain ⟨add1, hc, hd⟩ := foldlM_defectLines piecesInX piecesInY (50 / piecesInX) a hspg d init
      obtain ⟨added, ha, hb⟩ := ih (init ++ add1)
      refine ⟨add1 ++ added, ?_, ?_⟩
      · simp only [hc, Option.bind_eq_bind, Option.some_bind]
        rw [ha]; simp
      · simp [hr, hd, hb]

/-- The position that the X-axis summary reports for the identifier of piece `(x, y)`. -/
theorem xAxisDefectLine_position (piecesInX piecesInY spg i x y : Nat) (hspg : spg ≠ 0)
    (hx : x < 2147483648) :
    ∃ line, xAxisDefectLine piecesInX piecesInY spg i (pieceId x y) = some line ∧
      line.positionInStack = ((i % spg : Nat) : Int) * piecesInX + (piecesInX - x + 1) ∧
      line.surfaceNum = i + 1 ∧ line.pieceId = pieceId x y := by
  unfold xAxisDefectLine
  rw [qMid_pieceId_x, qToInt_toString x hx]
  simp [hspg]

set_option maxRecDepth 100000 in
/-- C7 (fails on the code): for one surface with a 4 x 2 grid whose only defective piece is
"x3y1" the single-stack summary reports stack 1, position 1, while the single-stack layout holds
that piece as third entry of stack 1; for eight surfaces of which the seventh has the defective
piece "x4y2" the summary reports stack 1, position 49, while the layout holds the piece as sixth
entry of stack 2. -/
theorem C7_single_summary_vs_layout :
    summarySingle (fun _ => some ["x3y1"]) 1 4 2
      = [{ stackNumber := 1, positionInStack := 1, surfaceNum := 1, pieceId := "x3y1" }] ∧
    layoutPlaces (updateStackPreview false (fun _ => some ["x3y1"]) 1 4 2) 1 "x3y1" = [(1, 3)] ∧
    summarySingle (fun i => if i = 6 then some ["x4y2"] else some []) 8 4 2
      = [{ stackNumber := 1, positionInStack := 49, surfaceNum := 7, pieceId := "x4y2" }] ∧
    layoutPlaces (updateStackPreview false (fun i => if i = 6 then some ["x4y2"] else some [])
      8 4 2) 7 "x4y2" = [(2, 6)] := by
  decide

/-- C8: under the X-axis strategy with `1 ≤ piecesInX ≤ 50`, `updateSummaryText` builds its list
of lines without dividing by zero, and for every identifier "x{x}y{y}" with `1 ≤ x ≤ piecesInX`
listed as defective for the readable surface with 0-based index `i` the list has a line for
surface `i + 1` and that identifier whose position is
`(i mod surfacesPerGroup) * piecesInX + (piecesInX - x + 1)` with
`surfacesPerGroup = 50 / piecesInX` (and whose stack number is `y + (i / surfacesPerGroup) *
piecesInY` when `y` is a 32-bit `int`); every line of the list is the line of such a listed
identifier.  For a fixed surface the position is highest, `(i mod surfacesPerGroup) * piecesInX +
piecesInX`, for `x = 1`, lowest, `(i mod surfacesPerGroup) * piecesInX + 1`, for
`x = piecesInX`, and strictly decreasing in `x`. -/
theorem C8_xaxis_reported_position (readAnalysis : Nat → Option (List String))
    (totalSurfaces piecesInX piecesInY : Nat) (h1 : 1 ≤ piecesInX) (h50 : piecesInX ≤ 50) :
    ∃ lines, summaryXAxis readAnalysis totalSurfaces piecesInX piecesInY = some lines ∧
      (∀ i defectPieces x y, i < totalSurfaces → readAnalysis i = some defectPieces →
        pieceId x y ∈ defectPieces → 1 ≤ x → x ≤ piecesInX →
        ∃ line ∈ lines, line.surfaceNum = i + 1 ∧ line.pieceId = pieceId x y ∧
          line.positionInStack
            = ((i % (50 / piecesInX) : Nat) : Int) * piecesInX + ((piecesInX : Int) - x + 1) ∧
          (y < 2147483648 →
            line.stackNumber = (y : Int) + ((i / (50 / piecesInX) : Nat) : Int) * piecesInY)) ∧
      (∀ line ∈ lines, ∃ i defectPieces id, i < totalSurfaces ∧
        readAnalysis i = some defectPieces ∧ id ∈ defectPieces ∧
        xAxisDefectLine piecesInX piecesInY (50 / piecesInX) i id = some line) ∧
      (∀ (i x : Nat), 1 ≤ x → x ≤ piecesInX →
        ((i % (50 / piecesInX) : Nat) : Int) * piecesInX + ((piecesInX : Int) - piecesInX + 1)
            ≤ ((i % (50 / piecesInX) : Nat) : Int) * piecesInX + ((piecesInX : Int) - x + 1) ∧
        ((i % (50 / piecesInX) : Nat) : Int) * piecesInX + ((piecesInX : Int) - x + 1)
            ≤ ((i % (50 / piecesInX) : Nat) : Int) * piecesInX + ((piecesInX : Int) - (1 : Nat) + 1) ∧
        (∀ x2 : Nat, x < x2 →
          ((i % (50 / piecesInX) : Nat) : Int) * piecesInX + ((piecesInX : Int) - x2 + 1)
            < ((i % (50 / piecesInX) : Nat) : Int) * piecesInX + ((piecesInX : Int) - x + 1))) := by
  have hspg : 50 / piecesInX ≠ 0 := by
    have := Nat.div_pos h50 (by omega : 0 < piecesInX)
    omega
  obtain ⟨lines, hl, hflat⟩ := summaryXAxis_spec readAnalysis totalSurfaces piecesInX piecesInY h1 h50
  refine ⟨lines, hl, ?_, ?_, ?_⟩
  · intro i d x y hi hr hmem hx1 hx
    obtain ⟨line, hline, hpos, hsn, hid⟩ :=
      xAxisDefectLine_position piecesInX piecesInY (50 / piecesInX) i x y hspg (by omega)
    have hin : some line ∈ lines.map some := by
      rw [← hflat, List.mem_flatMap]
      refine ⟨i, List.mem_range.mpr hi, ?_⟩
      rw [hr, Option.getD_some, List.mem_map]
      exact ⟨pieceId x y, hmem, hline⟩
    rw [List.mem_map] at hin
    obtain ⟨line2, hmem2, heq⟩ := hin
    have : line2 = line := Option.some.inj heq
    subst this
    refine ⟨line2, hmem2, hsn, hid, hpos, ?_⟩
    intro hy
    rw [xAxisDefectLine_pieceId piecesInX piecesInY (50 / piecesInX) i x y hspg (by omega) hy]
      at hline
    rw [← Option.some.inj hline]
  · intro line hline
    have hin : some line ∈ lines.map some := List.mem_map_of_mem _ hline
    rw [← hflat, List.mem_flatMap] at hin
    obtain ⟨i, hi, hmem⟩ := hin
    rw [List.mem_map] at hmem
    obtain ⟨id, hid, hline2⟩ := hmem
    cases hr : readAnalysis i with
    | none => rw [hr] at hid; simp at hid
    | some d =>
      rw [hr, Option.getD_some] at hid
      exact ⟨i, d, id, List.mem_range.mp hi, hr, hid, hline2⟩
  · intro i x hx1 hx
    refine ⟨by omega, by push_cast; omega, ?_⟩
    intro x2 hx2
    omega

/-! ## Lemmas on the piece assignment -/

theorem cornerStep_outside (a : CuttingAnalyzer) (acc : List (Int × Int) × Bool) (c : ℚ × ℚ)
    (h : a.outsideBounds c) : a.cornerStep acc c = acc := by
  unfold CuttingAnalyzer.cornerStep
  rw [if_pos h]

theorem cornerStep_known (a : CuttingAnalyzer) (acc : List (Int × Int) × Bool) (c : ℚ × ℚ)
    (h : ¬ a.outsideBounds c) (hm : a.pieceOf c ∈ acc.1) : a.cornerStep acc c = acc := by
  unfold CuttingAnalyzer.cornerStep
  rw [if_neg h]
  have : acc.1.contains (a.pieceOf c) = true := by simpa using hm
  simp only [this, if_true]

theorem cornerStep_new (a : CuttingAnalyzer) (acc : List (Int × Int) × Bool) (c : ℚ × ℚ)
    (h : ¬ a.outsideBounds c) (hm : a.pieceOf c ∉ acc.1) :
    a.cornerStep acc c = (acc.1 ++ [a.pieceOf c], false) := by
  unfold CuttingAnalyzer.cornerStep
  rw [if_neg h]
  have : acc.1.contains (a.pieceOf c) = false := by simpa using hm
  simp only [this, Bool.false_eq_true, if_false]

theorem cornerStep_fst_nil_iff (a : CuttingAnalyzer) (l : List (ℚ × ℚ))
    (acc : List (Int × Int) × Bool) :
    (l.foldl a.cornerStep acc).1 = [] ↔ acc.1 = [] ∧ ∀ p ∈ l, a.outsideBounds p := by
  induction l generalizing acc with
  | nil => simp
  | cons c t ih =>
    rw [List.foldl_cons, ih]
    by_cases hc : a.outsideBounds c
    · rw [cornerStep_outside a acc c hc]; simp [hc]
    · by_cases hm : a.pieceOf c ∈ acc.1
      · rw [cornerStep_known a acc c hc hm]
        have hne : acc.1 ≠ [] := List.ne_nil_of_mem hm
        simp [hne]
      · rw [cornerStep_new a acc c hc hm]
        simp [hc]

theorem cornerStep_flag (a : CuttingAnalyzer) (l : List (ℚ × ℚ))
    (acc : List (Int × Int) × Bool) (h : acc.2 = true ↔ acc.1 = []) :
    (l.foldl a.cornerStep acc).2 = true ↔ (l.foldl a.cornerStep acc).1 = [] := by
  induction l generalizing acc with
  | nil => simpa using h
  | cons c t ih =>
    rw [List.foldl_cons]
    apply ih
    by_cases hc : a.outsideBounds c
    · rw [cornerStep_outside a acc c hc]; exact h
    · by_cases hm : a.pieceOf c ∈ acc.1
      · rw [cornerStep_known a acc c hc hm]; exact h
      · rw [cornerStep_new a acc c hc hm]; simp

theorem cornerStep_mono (a : CuttingAnalyzer) (l : List (ℚ × ℚ))
    (acc : List (Int × Int) × Bool) (q : Int × Int) (h : q ∈ acc.1) :
    q ∈ (l.foldl a.cornerStep acc).1 := by
  induction l generalizing acc with
  | nil => simpa using h
  | cons c t ih =>
    rw [List.foldl_cons]
    apply ih
    by_cases hc : a.outsideBounds c
    · rw [cornerStep_outside a acc c hc]; exact h
    · by_cases hm : a.pieceOf c ∈ acc.1
      · rw [cornerStep_known a acc c hc hm]; exact h
      · rw [cornerStep_new a acc c hc hm]
        exact List.mem_append_left _ h

theorem cornerStep_mem (a : CuttingAnalyzer) (l : List (ℚ × ℚ))
    (acc : List (Int × Int) × Bool) (p : ℚ × ℚ) (hp : p ∈ l) (hin : ¬ a.outsideBounds p) :
    a.pieceOf p ∈ (l.foldl a.cornerStep acc).1 := by
  induction l generalizing acc with
  | nil => cases hp
  | cons c t ih =>
    rw [List.foldl_cons]
    rcases List.mem_cons.mp hp with rfl | hp
    · apply cornerStep_mono
      by_cases hm : a.pieceOf p ∈ acc.1
      · rw [cornerStep_known a acc p hin hm]; exact hm
      · rw [cornerStep_new a acc p hin hm]; simp
    · exact ih _ hp

/-- The flag `isOutside` is set after the loop exactly when every sample point lies outside the
surface bounds, and exactly when `affectedPieces` is empty. -/
theorem affected_spec (a : CuttingAnalyzer) (d : Defect) :
    ((a.affected d).2 = true ↔
      ∀ p ∈ corners d.physical_position.x d.physical_position.y d.physical_position.width
        d.physical_position.height, a.outsideBounds p) ∧
    ((a.affected d).2 = true ↔ (a.affected d).1 = []) := by
  have h2 := cornerStep_flag a (corners d.physical_position.x d.physical_position.y
    d.physical_position.width d.physical_position.height) ([], true) (by simp)
  have h1 := cornerStep_fst_nil_iff a (corners d.physical_position.x d.physical_position.y
    d.physical_position.width d.physical_position.height) ([], true)
  unfold CuttingAnalyzer.affected
  refine ⟨?_, h2⟩
  rw [h2, h1]
  simp

theorem addDefectToPiece_frame (d : Defect) (a : CuttingAnalyzer) (q : Int × Int) :
    (a.addDefectToPiece d q).outsideDefects = a.outsideDefects ∧
    (a.addDefectToPiece d q).piecesInX = a.piecesInX ∧
    (a.addDefectToPiece d q).piecesInY = a.piecesInY ∧
    (a.addDefectToPiece d q).surfaceWidth = a.surfaceWidth ∧
    (a.addDefectToPiece d q).surfaceHeight = a.surfaceHeight ∧
    (a.addDefectToPiece d q).pieceWidth = a.pieceWidth ∧
    (a.addDefectToPiece d q).pieceHeight = a.pieceHeight := by
  unfold CuttingAnalyzer.addDefectToPiece
  by_cases h : q.1 - 1 ≥ 0 ∧ q.1 - 1 < (a.piecesInX : Int) ∧ q.2 - 1 ≥ 0 ∧
      q.2 - 1 < (a.piecesInY : Int)
  · simp only [h, and_self, if_true]
  · simp only [h, if_false, and_self]

theorem addDefectToPieces_frame (a : CuttingAnalyzer) (d : Defect) (aff : List (Int × Int)) :
    (a.addDefectToPieces d aff).outsideDefects = a.outsideDefects ∧
    (a.addDefectToPieces d aff).piecesInX = a.piecesInX ∧
    (a.addDefectToPieces d aff).piecesInY = a.piecesInY ∧
    (a.addDefectToPieces d aff).surfaceWidth = a.surfaceWidth ∧
    (a.addDefectToPieces d aff).surfaceHeight = a.surfaceHeight ∧
    (a.addDefectToPieces d aff).pieceWidth = a.pieceWidth ∧
    (a.addDefectToPieces d aff).pieceHeight = a.pieceHeight := by
  unfold CuttingAnalyzer.addDefectToPieces
  induction aff generalizing a with
  | nil => simp
  | cons q t ih =>
    rw [List.foldl_cons]
    have h1 := ih (a.addDefectToPiece d q)
    have h2 := addDefectToPiece_frame d a q
    refine ⟨h1.1.trans h2.1, h1.2.1.trans h2.2.1, h1.2.2.1.trans h2.2.2.1,
      h1.2.2.2.1.trans h2.2.2.2.1, h1.2.2.2.2.1.trans h2.2.2.2.2.1,
      h1.2.2.2.2.2.1.trans h2.2.2.2.2.2.1, h1.2.2.2.2.2.2.trans h2.2.2.2.2.2.2⟩

theorem processDefect_frame (idx : Int) (a : CuttingAnalyzer) (d : Defect) :
    (a.processDefect idx d).piecesInX = a.piecesInX ∧
    (a.processDefect idx d).piecesInY = a.piecesInY ∧
    (a.processDefect idx d).surfaceWidth = a.surfaceWidth ∧
    (a.processDefect idx d).surfaceHeight = a.surfaceHeight ∧
    (a.processDefect idx d).pieceWidth = a.pieceWidth ∧
    (a.processDefect idx d).pieceHeight = a.pieceHeight := by
  unfold CuttingAnalyzer.processDefect
  by_cases h : (a.affected d).2 = true
  · simp [h]
  · simp only [h]
    exact (addDefectToPieces_frame a (enrich d idx) (a.affected d).1).2

/-- What one iteration of the loop over the defects does to the outside list and, for a defect
that goes there, to the pieces. -/
theorem processDefect_outside (idx : Int) (a : CuttingAnalyzer) (d : Defect) :
    ((a.affected d).2 = true →
      (a.processDefect idx d).outsideDefects = a.outsideDefects ++ [enrich d idx] ∧
      (a.processDefect idx d).pieces = a.pieces) ∧
    ((a.affected d).2 = false →
      (a.processDefect idx d).outsideDefects = a.outsideDefects) := by
  unfold CuttingAnalyzer.processDefect
  constructor
  · intro h; simp [h]
  · intro h
    simp only [h]
    exact (addDefectToPieces_frame a (enrich d idx) (a.affected d).1).1

theorem pieceDefects_appendDefect (pieces : List (List CutPiece)) (i j i2 j2 : Nat) (d : Defect) :
    pieceDefects (appendDefect pieces i j d) i2 j2
      = if i = i2 ∧ j = j2 ∧ (∃ column, pieces[i2]? = some column ∧ j2 < column.length) then
          pieceDefects pieces i2 j2 ++ [d]
        else pieceDefects pieces i2 j2 := by
  unfold pieceDefects appendDefect
  rw [List.getElem?_modify]
  cases hcol : pieces[i2]? with
  | none => simp
  | some column =>
    simp only [Option.map_eq_map, Option.map_some']
    by_cases hi : i = i2
    · simp only [hi, if_true, true_and, List.getElem?_modify]
      cases hp : column[j2]? with
      | none =>
        have : ¬ j2 < column.length := by
          intro h; rw [List.getElem?_eq_getElem h] at hp; cases hp
        simp [this]
      | some piece =>
        have hlt : j2 < column.length := (List.getElem?_eq_some.mp hp).1
        by_cases hj : j = j2
        · simp [hj, hlt]
        · simp [hj]
    · simp [hi]

theorem appendDefect_wellFormed (pieces : List (List CutPiece)) (i j : Nat) (d : Defect)
    (n m : Nat) (h : pieces.length = n ∧ ∀ column ∈ pieces, column.length = m) :
    (appendDefect pieces i j d).length = n ∧
      ∀ column ∈ appendDefect pieces i j d, column.length = m := by
  unfold appendDefect
  refine ⟨by rw [List.length_modify]; exact h.1, ?_⟩
  intro column hc
  obtain ⟨k, hk, rfl⟩ := List.getElem_of_mem hc
  rw [List.getElem_modify]
  rw [List.length_modify] at hk
  split
  · rw [List.length_modify]; exact h.2 _ (List.getElem_mem hk)
  · exact h.2 _ (List.getElem_mem hk)

theorem addDefectToPiece_wellFormed (d : Defect) (a : CuttingAnalyzer) (q : Int × Int)
    (h : a.WellFormed) : (a.addDefectToPiece d q).WellFormed := by
  unfold CuttingAnalyzer.addDefectToPiece
  by_cases hc : q.1 - 1 ≥ 0 ∧ q.1 - 1 < (a.piecesInX : Int) ∧ q.2 - 1 ≥ 0 ∧
      q.2 - 1 < (a.piecesInY : Int)
  · simp only [hc, and_self, if_true]
    exact appendDefect_wellFormed a.pieces _ _ d _ _ h
  · simp only [hc, if_false, and_self]
    exact h

/-- The defect list of a piece after one step of `addDefectToPieces`: the defect is appended
when the step names this piece and the piece lies in the grid, and nothing changes otherwise. -/
theorem addDefectToPiece_defectsOf (d : Defect) (a : CuttingAnalyzer) (q : Int × Int)
    (h : a.WellFormed) (x y : Nat) (hx1 : 1 ≤ x) (hy1 : 1 ≤ y) :
    (a.addDefectToPiece d q).defectsOf x y
      = if q = ((x : Int), (y : Int)) ∧ x ≤ a.piecesInX ∧ y ≤ a.piecesInY then
          a.defectsOf x y ++ [d]
        else a.defectsOf x y := by
  unfold CuttingAnalyzer.addDefectToPiece CuttingAnalyzer.defectsOf
  obtain ⟨q1, q2⟩ := q
  by_cases hc : q1 - 1 ≥ 0 ∧ q1 - 1 < (a.piecesInX : Int) ∧ q2 - 1 ≥ 0 ∧
      q2 - 1 < (a.piecesInY : Int)
  · simp only [hc, and_self, if_true]
    rw [pieceDefects_appendDefect]
    by_cases hq : (q1, q2) = ((x : Int), (y : Int))
    · simp only [Prod.mk.injEq] at hq
      obtain ⟨h1, h2⟩ := hq
      subst h1 h2
      have hx : x ≤ a.piecesInX := by omega
      have hy : y ≤ a.piecesInY := by omega
      have hlen : x - 1 < a.pieces.length := by rw [h.1]; omega
      have hex : ∃ column, a.pieces[x - 1]? = some column ∧ y - 1 < column.length := by
        refine ⟨a.pieces[x - 1], List.getElem?_eq_getElem hlen, ?_⟩
        rw [h.2 _ (List.getElem_mem hlen)]; omega
      have e1 : ((x : Int) - 1).toNat = x - 1 := by omega
      have e2 : ((y : Int) - 1).toNat = y - 1 := by omega
      rw [e1, e2]
      simp [hex, hx, hy]
    · have hne : ¬ ((q1 - 1).toNat = x - 1 ∧ (q2 - 1).toNat = y - 1 ∧
          ∃ column, a.pieces[x - 1]? = some column ∧ y - 1 < column.length) := by
        rintro ⟨h1, h2, _⟩
        apply hq
        simp only [Prod.mk.injEq]
        constructor <;> omega
      rw [if_neg hne, if_neg (by intro hh; exact hq hh.1)]
  · simp only [hc, if_false, and_self]
    rw [if_neg]
    rintro ⟨hq, hx, hy⟩
    simp only [Prod.mk.injEq] at hq
    apply hc
    omega

theorem addDefectToPieces_wellFormed (a : CuttingAnalyzer) (d : Defect) (aff : List (Int × Int))
    (h : a.WellFormed) : (a.addDefectToPieces d aff).WellFormed := by
  unfold CuttingAnalyzer.addDefectToPieces
  induction aff generalizing a with
  | nil => exact h
  | cons q t ih =>
    rw [List.foldl_cons]
    exact ih _ (addDefectToPiece_wellFormed d a q h)

/-- The defect list of a piece after `addDefectToPieces`: one copy of the defect is appended
for every occurrence of the piece in `affectedPieces`, when the piece lies in the grid. -/
theorem addDefectToPieces_defectsOf (a : CuttingAnalyzer) (d : Defect) (aff : List (Int × Int))
    (h : a.WellFormed) (x y : Nat) (hx1 : 1 ≤ x) (hy1 : 1 ≤ y) :
    (a.addDefectToPieces d aff).defectsOf x y
      = a.defectsOf x y ++ List.replicate
          (if x ≤ a.piecesInX ∧ y ≤ a.piecesInY then aff.count ((x : Int), (y : Int)) else 0) d := by
  unfold CuttingAnalyzer.addDefectToPieces
  induction aff generalizing a with
  | nil => simp
  | cons q t ih =>
    rw [List.foldl_cons, ih _ (addDefectToPiece_wellFormed d a q h),
      addDefectToPiece_defectsOf d a q h x y hx1 hy1]
    have hf := addDefectToPiece_frame d a q
    rw [hf.2.1, hf.2.2.1]
    by_cases hg : x ≤ a.piecesInX ∧ y ≤ a.piecesInY
    · by_cases hq : q = ((x : Int), (y : Int))
      · subst hq
        simp only [hg, and_self, if_true, List.count_cons_self, List.append_assoc]
        rw [List.replicate_succ]
        simp
      · have hq2 : (q == ((x : Int), (y : Int))) = false := by simpa using hq
        simp only [hg, and_self, if_true, hq, false_and, if_false, List.count_cons, hq2,
          Bool.false_eq_true, Nat.add_zero]
    · simp [hg]

theorem processDefect_wellFormed (idx : Int) (a : CuttingAnalyzer) (d : Defect)
    (h : a.WellFormed) : (a.processDefect idx d).WellFormed := by
  unfold CuttingAnalyzer.processDefect
  by_cases hf : (a.affected d).2 = true
  · simp only [hf, if_true]; exact h
  · simp only [hf]
    exact addDefectToPieces_wellFormed a _ _ h

/-- The defect list of a piece after one iteration of the loop over the defects. -/
theorem processDefect_defectsOf (idx : Int) (a : CuttingAnalyzer) (d : Defect)
    (h : a.WellFormed) (x y : Nat) (hx1 : 1 ≤ x) (hy1 : 1 ≤ y) :
    (a.processDefect idx d).defectsOf x y
      = a.defectsOf x y ++ List.replicate
          (if x ≤ a.piecesInX ∧ y ≤ a.piecesInY then
            (a.affected d).1.count ((x : Int), (y : Int)) else 0) (enrich d idx) := by
  unfold CuttingAnalyzer.processDefect
  by_cases hf : (a.affected d).2 = true
  · have hnil := ((affected_spec a d).2.mp hf)
    simp only [hf, if_true]
    rw [hnil]
    simp [CuttingAnalyzer.defectsOf]
  · simp only [hf]
    exact addDefectToPieces_defectsOf a _ _ h x y hx1 hy1

theorem affected_congr (a b : CuttingAnalyzer) (d : Defect)
    (h : b.piecesInX = a.piecesInX ∧ b.piecesInY = a.piecesInY ∧
      b.surfaceWidth = a.surfaceWidth ∧ b.surfaceHeight = a.surfaceHeight ∧
      b.pieceWidth = a.pieceWidth ∧ b.pieceHeight = a.pieceHeight) :
    b.affected d = a.affected d := by
  obtain ⟨h1, h2, h3, h4, h5, h6⟩ := h
  have hstep : b.cornerStep = a.cornerStep := by
    funext acc c
    unfold CuttingAnalyzer.cornerStep CuttingAnalyzer.outsideBounds CuttingAnalyzer.pieceOf
    simp only [h1, h2, h3, h4, h5, h6]
  unfold CuttingAnalyzer.affected
  rw [hstep]

theorem truncToInt_nonneg (q : ℚ) (h : 0 ≤ q) : 0 ≤ truncToInt q := by
  unfold truncToInt
  rw [if_pos h]
  exact Int.floor_nonneg.mpr h

/-- The piece computed for a point inside the surface bounds lies in the grid. -/
theorem pieceOf_in_grid (a : CuttingAnalyzer) (p : ℚ × ℚ) (hx : 1 ≤ a.piecesInX)
    (hy : 1 ≤ a.piecesInY) (hw : 0 < a.pieceWidth) (hh : 0 < a.pieceHeight)
    (hin : ¬ a.outsideBounds p) :
    1 ≤ (a.pieceOf p).1 ∧ (a.pieceOf p).1 ≤ a.piecesInX ∧
    1 ≤ (a.pieceOf p).2 ∧ (a.pieceOf p).2 ≤ a.piecesInY := by
  unfold CuttingAnalyzer.outsideBounds at hin
  simp only [not_or, not_lt] at hin
  obtain ⟨h1, _, h3, _⟩ := hin
  have t1 := truncToInt_nonneg (p.1 / a.pieceWidth) (div_nonneg h1 hw.le)
  have t2 := truncToInt_nonneg (p.2 / a.pieceHeight) (div_nonneg h3 hh.le)
  unfold CuttingAnalyzer.pieceOf
  simp only
  have hx' : (1 : Int) ≤ a.piecesInX := by exact_mod_cast hx
  have hy' : (1 : Int) ≤ a.piecesInY := by exact_mod_cast hy
  refine ⟨le_min (by omega) hx', min_le_right _ _, le_min (by omega) hy', min_le_right _ _⟩

theorem create_wellFormed (piecesInX piecesInY : Nat) (w h : ℚ) :
    (CuttingAnalyzer.create piecesInX piecesInY w h).WellFormed := by
  unfold CuttingAnalyzer.WellFormed CuttingAnalyzer.create
  simp only [List.length_map, List.length_range, List.mem_map, List.mem_range, true_and]
  rintro column ⟨x, _, rfl⟩
  simp

theorem outsideBounds_congr (a b : CuttingAnalyzer) (p : ℚ × ℚ)
    (h3 : b.surfaceWidth = a.surfaceWidth) (h4 : b.surfaceHeight = a.surfaceHeight) :
    b.outsideBounds p ↔ a.outsideBounds p := by
  unfold CuttingAnalyzer.outsideBounds
  rw [h3, h4]

/-- The outside list after the loop over the defects: the enriched copies of the defects whose
flag `isOutside` stays set are appended in order. -/
theorem foldl_processDefect_outside (idx : Int) (ds : List Defect) (a : CuttingAnalyzer) :
    (ds.foldl (CuttingAnalyzer.processDefect idx) a).outsideDefects
      = a.outsideDefects ++ (ds.filter (fun d => (a.affected d).2)).map (fun d => enrich d idx) := by
  induction ds generalizing a with
  | nil => simp
  | cons d t ih =>
    rw [List.foldl_cons, ih]
    have hfr := processDefect_frame idx a d
    have hcongr : ∀ e, (a.processDefect idx d).affected e = a.affected e :=
      fun e => affected_congr a _ e hfr
    simp only [hcongr]
    rw [List.filter_cons]
    rcases hf : (a.affected d).2 with _ | _
    · rw [((processDefect_outside idx a d).2 hf)]
      simp
    · rw [((processDefect_outside idx a d).1 hf).1]
      simp

theorem allOutside_eq (a : CuttingAnalyzer) (d : Defect) : a.allOutside d = (a.affected d).2 := by
  have h := (affected_spec a d).1
  unfold CuttingAnalyzer.allOutside
  rcases hf : (a.affected d).2 with _ | _
  · rw [Bool.eq_false_iff]
    intro hall
    rw [List.all_eq_true] at hall
    have : (a.affected d).2 = true := h.mpr (fun p hp => of_decide_eq_true (hall p hp))
    rw [hf] at this; cases this
  · rw [List.all_eq_true]
    intro p hp
    exact decide_eq_true (h.mp hf p hp)

theorem corner_first_mem (x y w h : ℚ) : (x, y) ∈ corners x y w h := by
  simp [corners]

theorem foldl_processDefect_wellFormed (idx : Int) (ds : List Defect) (a : CuttingAnalyzer)
    (h : a.WellFormed) : (ds.foldl (CuttingAnalyzer.processDefect idx) a).WellFormed := by
  induction ds generalizing a with
  | nil => exact h
  | cons d t ih => exact ih _ (processDefect_wellFormed idx a d h)

/-- The defect lists only grow during the loop over the defects. -/
theorem foldl_processDefect_mono (idx : Int) (ds : List Defect) (a : CuttingAnalyzer)
    (h : a.WellFormed) (x y : Nat) (hx1 : 1 ≤ x) (hy1 : 1 ≤ y) (e : Defect)
    (he : e ∈ a.defectsOf x y) :
    e ∈ (ds.foldl (CuttingAnalyzer.processDefect idx) a).defectsOf x y := by
  induction ds generalizing a with
  | nil => exact he
  | cons d t ih =>
    rw [List.foldl_cons]
    apply ih _ (processDefect_wellFormed idx a d h)
    rw [processDefect_defectsOf idx a d h x y hx1 hy1]
    exact List.mem_append_left _ he

/-- After the loop over the defects, every defect of the list is in the defect list of the piece
computed for each of its sample points inside the surface bounds. -/
theorem foldl_processDefect_sampled (idx : Int) (ds : List Defect) (a : CuttingAnalyzer)
    (h : a.WellFormed) (hx : 1 ≤ a.piecesInX) (hy : 1 ≤ a.piecesInY)
    (hw : 0 < a.pieceWidth) (hh : 0 < a.pieceHeight)
    (d : Defect) (hd : d ∈ ds) (p : ℚ × ℚ)
    (hp : p ∈ corners d.physical_position.x d.physical_position.y d.physical_position.width
      d.physical_position.height)
    (hin : ¬ a.outsideBounds p) :
    enrich d idx ∈ (ds.foldl (CuttingAnalyzer.processDefect idx) a).defectsOf
      (a.pieceOf p).1.toNat (a.pieceOf p).2.toNat := by
  induction ds generalizing a with
  | nil => cases hd
  | cons d0 t ih =>
    have hgrid := pieceOf_in_grid a p hx hy hw hh hin
    have hX1 : 1 ≤ (a.pieceOf p).1.toNat := by omega
    have hY1 : 1 ≤ (a.pieceOf p).2.toNat := by omega
    rw [List.foldl_cons]
    have hfr := processDefect_frame idx a d0
    have hwf := processDefect_wellFormed idx a d0 h
    rcases List.mem_cons.mp hd with rfl | hd
    · apply foldl_processDefect_mono idx t _ hwf _ _ hX1 hY1
      rw [processDefect_defectsOf idx a d h _ _ hX1 hY1]
      apply List.mem_append_right
      have hmem : a.pieceOf p ∈ (a.affected d).1 := by
        unfold CuttingAnalyzer.affected
        exact cornerStep_mem a _ _ p hp hin
      have hcast : (((a.pieceOf p).1.toNat : Int), ((a.pieceOf p).2.toNat : Int)) = a.pieceOf p := by
        apply Prod.ext <;> simp only <;> omega
      rw [hcast]
      have hc : 0 < (a.affected d).1.count (a.pieceOf p) := List.count_pos_iff.mpr hmem
      have hle : (a.pieceOf p).1.toNat ≤ a.piecesInX ∧ (a.pieceOf p).2.toNat ≤ a.piecesInY := by
        constructor <;> omega
      rw [if_pos hle]
      obtain ⟨n, hn⟩ : ∃ n, (a.affected d).1.count (a.pieceOf p) = n + 1 := ⟨_, (Nat.succ_pred_eq_of_pos hc).symm⟩
      rw [hn, List.replicate_succ]
      exact List.mem_cons_self _ _
    · have hpiece : (a.processDefect idx d0).pieceOf p = a.pieceOf p := by
        unfold CuttingAnalyzer.pieceOf
        rw [hfr.1, hfr.2.1, hfr.2.2.2.2.1, hfr.2.2.2.2.2]
      have := ih (a.processDefect idx d0) hwf (by rw [hfr.1]; exact hx) (by rw [hfr.2.1]; exact hy)
        (by rw [hfr.2.2.2.2.1]; exact hw) (by rw [hfr.2.2.2.2.2]; exact hh) hd
        (by rw [outsideBounds_congr a _ p hfr.2.2.1 hfr.2.2.2.1]; exact hin)
      rw [hpiece] at this
      exact this

/-! ## Instances of the theorems at concrete inputs -/

/-- Witness of C2: three readable surfaces with a 4 x 5 grid, 60 pieces in two stacks. -/
theorem C2_single_layout_witness :
    (∀ s, s < 3 → ((fun _ => some ["x3y1"] : Nat → Option (List String)) s).isSome = true) ∧
    ((updateStackPreview false (fun _ => some ["x3y1"]) 3 4 5).map StackWidget.pieces).flatten
      = allPieces (fun _ => some ["x3y1"]) 3 4 5 ∧
    (updateStackPreview false (fun _ => some ["x3y1"]) 3 4 5).length = (3 * 4 * 5 + 49) / 50 ∧
    (∀ k, k < (updateStackPreview false (fun _ => some ["x3y1"]) 3 4 5).length →
      (updateStackPreview false (fun _ => some ["x3y1"]) 3 4 5)[k]?
        = some { label := stackLabel (k + 1), maxCapacity := 50,
                 pieces := ((allPieces (fun _ => some ["x3y1"]) 3 4 5).drop (50 * k)).take 50 }) :=
  ⟨fun _ _ => rfl,
    (C2_single_layout (fun _ => some ["x3y1"]) 3 4 5 (fun _ _ => rfl)).1,
    (C2_single_layout (fun _ => some ["x3y1"]) 3 4 5 (fun _ _ => rfl)).2.2.1,
    (C2_single_layout (fun _ => some ["x3y1"]) 3 4 5 (fun _ _ => rfl)).2.2.2.1⟩

/-- Witness of C3 (amended): twenty surfaces with a 4 x 2 grid, the stack of group 1 and row 2. -/
theorem C3_xaxis_stack_contents_witness :
    (1 < stackGroupsNeeded 20 4 ∧ 1 ≤ 2 ∧ 2 ≤ 2) ∧
    (updateStackPreview true (fun _ => some ["x1y2"]) 20 4 2)[1 * 2 + (2 - 1)]?
      = some
        { label := stackLabel (2 + 1 * 2), maxCapacity := 50,
          pieces :=
            (List.range' (1 * (50 / 4)) (min ((1 + 1) * (50 / 4)) 20 - 1 * (50 / 4))).flatMap
              (fun s =>
                match (fun _ => some ["x1y2"] : Nat → Option (List String)) s with
                | none => []
                | some defectPieces =>
                  (List.range' 1 4).map
                    (fun x =>
                      { surfaceNum := s + 1, pieceId := pieceId x 2,
                        hasDefect := hasDefect defectPieces (pieceId x 2) })) } :=
  ⟨⟨by decide, by decide, by decide⟩,
    (C3_xaxis_stack_contents (fun _ => some ["x1y2"]) 20 4 2).1 1 2
      (by decide) (by decide) (by decide)⟩

/-- Witness of C8: one surface with a 4 x 2 grid whose piece "x3y1" is defective; the summary
has a line for it with position `0 * 4 + (4 - 3 + 1)`. -/
theorem C8_xaxis_reported_position_witness :
    (1 ≤ 4 ∧ 4 ≤ 50) ∧
    ∃ lines, summaryXAxis (fun _ => some ["x3y1"]) 1 4 2 = some lines ∧
      ∃ line ∈ lines, line.surfaceNum = 0 + 1 ∧ line.pieceId = pieceId 3 1 ∧
        line.positionInStack
          = ((0 % (50 / 4) : Nat) : Int) * (4 : Nat) + (((4 : Nat) : Int) - (3 : Nat) + 1) := by
  refine ⟨⟨by decide, by decide⟩, ?_⟩
  obtain ⟨lines, h1, h2, _⟩ :=
    C8_xaxis_reported_position (fun _ => some ["x3y1"]) 1 4 2 (by decide) (by decide)
  obtain ⟨line, hl, ha, hb, hc, _⟩ := h2 0 ["x3y1"] 3 1 (by decide) rfl (by decide) (by decide)
    (by decide)
  exact ⟨lines, h1, line, hl, ha, hb, hc⟩

set_option maxRecDepth 100000 in
/-- Witness of C6: one surface with a 4 x 2 grid whose piece "x3y1" is defective, X-axis
strategy; the third entry of the first stack. -/
theorem C6_hasDefect_iff_listed_witness :
    (⟨"Stack 1", 50,
        [⟨1, "x1y1", false⟩, ⟨1, "x2y1", false⟩, ⟨1, "x3y1", true⟩, ⟨1, "x4y1", false⟩]⟩ :
        StackWidget) ∈ updateStackPreview true (fun _ => some ["x3y1"]) 1 4 2 ∧
    (⟨1, "x3y1", true⟩ : StackPieceWidget) ∈
      ([⟨1, "x1y1", false⟩, ⟨1, "x2y1", false⟩, ⟨1, "x3y1", true⟩, ⟨1, "x4y1", false⟩] :
        List StackPieceWidget) ∧
    ∃ s x y defectPieces, s < 1 ∧ 1 ≤ x ∧ x ≤ 4 ∧ 1 ≤ y ∧ y ≤ 2 ∧
      (fun _ => some ["x3y1"] : Nat → Option (List String)) s = some defectPieces ∧
      (⟨1, "x3y1", true⟩ : StackPieceWidget).surfaceNum = s + 1 ∧
      (⟨1, "x3y1", true⟩ : StackPieceWidget).pieceId = pieceId x y ∧
      ((⟨1, "x3y1", true⟩ : StackPieceWidget).hasDefect = true ↔ pieceId x y ∈ defectPieces) :=
  ⟨by decide, by decide,
    C6_hasDefect_iff_listed true (fun _ => some ["x3y1"]) 1 4 2
      ⟨"Stack 1", 50,
        [⟨1, "x1y1", false⟩, ⟨1, "x2y1", false⟩, ⟨1, "x3y1", true⟩, ⟨1, "x4y1", false⟩]⟩
      (by decide) ⟨1, "x3y1", true⟩ (by decide)⟩

/-! ## The claims on reprojection and display -/

/-- C11 (fails on the code): a record written by `saveDefectCoordinates` holds in
`physical_position` the centre `(cx, cy)` and the size `(w, h)` of the rectangle, and the five
points that the analysis samples from it are `(cx, cy)`, `(cx + w, cy)`, `(cx, cy + h)`,
`(cx + w, cy + h)` and `(cx + w / 2, cy + h / 2)`: the corners and the centre of the rectangle
displaced by `(w / 2, h / 2)`, not those of the rectangle itself.  For the detection with raw
centre `(960, 540)` and size `100 x 80` on the tile at the origin of a `2910 x 2057` image of the
A3 surface the first sampled point is the centre `(70, 9261 / 187)` of the defect, while its
top-left corner is `(70 - 700 / 97, 9261 / 187 - 1080 / 187)`. -/
theorem C11_sampled_points_displaced :
    (∀ (actualWidth actualHeight : ℚ) (imageName : String) (seqNum : Int) (defectType : String)
        (confidence : ℚ) (canvasRect : QRectF) (stitchedWidth stitchedHeight : Int),
      (saveDefectCoordinates actualWidth actualHeight imageName seqNum defectType confidence
          canvasRect stitchedWidth stitchedHeight).physical_position
        = { x := canvasRect.center.1 * actualWidth / stitchedWidth,
            y := canvasRect.center.2 * actualHeight / stitchedHeight,
            width := canvasRect.w * actualWidth / stitchedWidth,
            height := canvasRect.h * actualHeight / stitchedHeight }) ∧
    (∀ cx cy w h : ℚ,
      corners cx cy w h = centredCorners (cx + w / 2) (cy + h / 2) w h ∧
      (corners cx cy w h = centredCorners cx cy w h ↔ w = 0 ∧ h = 0)) ∧
    (saveDefectCoordinates 420 297 "image_01.jpg" 1 "mark" (1 / 2)
        (defectRect 0 0 ⟨"mark", 1 / 2, 960, 540, 100, 80⟩) 2910 2057).physical_position
      = { x := 70, y := 9261 / 187, width := 1400 / 97, height := 2160 / 187 } ∧
    corners 70 (9261 / 187) (1400 / 97) (2160 / 187)
      = [(70, 9261 / 187), (70 + 1400 / 97, 9261 / 187), (70, 9261 / 187 + 2160 / 187),
         (70 + 1400 / 97, 9261 / 187 + 2160 / 187),
         (70 + 1400 / 97 / 2, 9261 / 187 + 2160 / 187 / 2)] ∧
    centredCorners 70 (9261 / 187) (1400 / 97) (2160 / 187)
      = [(70 - 700 / 97, 9261 / 187 - 1080 / 187), (70 + 700 / 97, 9261 / 187 - 1080 / 187),
         (70 - 700 / 97, 9261 / 187 + 1080 / 187), (70 + 700 / 97, 9261 / 187 + 1080 / 187),
         (70, 9261 / 187)] ∧
    corners 70 (9261 / 187) (1400 / 97) (2160 / 187)
      ≠ centredCorners 70 (9261 / 187) (1400 / 97) (2160 / 187) := by
  refine ⟨fun _ _ _ _ _ _ _ _ _ => rfl, ?_, ?_, ?_, ?_, ?_⟩
  · intro cx cy w h
    constructor
    · simp only [corners, centredCorners]
      have e1 : cx + w / 2 - w / 2 = cx := by ring
      have e2 : cy + h / 2 - h / 2 = cy := by ring
      have e3 : cx + w / 2 + w / 2 = cx + w := by ring
      have e4 : cy + h / 2 + h / 2 = cy + h := by ring
      rw [e1, e2, e3, e4]
    · constructor
      · intro heq
        simp only [corners, centredCorners, List.cons.injEq, Prod.mk.injEq] at heq
        obtain ⟨⟨h1, h2⟩, _⟩ := heq
        constructor <;> linarith
      · rintro ⟨rfl, rfl⟩
        simp [corners, centredCorners]
  · simp only [saveDefectCoordinates, defectRect, QRectF.center]
    norm_num
  · simp only [corners]
  · simp only [centredCorners]
    norm_num
  · intro heq
    simp only [corners, centredCorners, List.cons.injEq, Prod.mk.injEq] at heq
    obtain ⟨⟨h1, _⟩, _⟩ := heq
    norm_num at h1

theorem truncToInt_natCast (n : Nat) : truncToInt (n : ℚ) = n := by
  unfold truncToInt
  rw [if_pos (by positivity)]
  exact Int.floor_natCast n

/-- C13: for a grid of at least 1 x 1 pieces, a surface of positive size and every point with
`0 ≤ x ≤ surfaceWidth` and `0 ≤ y ≤ surfaceHeight`, the piece index
`(min (trunc (x / pieceWidth) + 1) piecesInX, min (trunc (y / pieceHeight) + 1) piecesInY)` with
`pieceWidth = surfaceWidth / piecesInX` and `pieceHeight = surfaceHeight / piecesInY` lies in
`[1, piecesInX] x [1, piecesInY]`; a point on the far edge `x = surfaceWidth` gets
`piecesInX`, and one on the far edge `y = surfaceHeight` gets `piecesInY`. -/
theorem C13_piece_index_in_grid (piecesInX piecesInY : Nat) (surfaceWidth surfaceHeight x y : ℚ)
    (hpx : 1 ≤ piecesInX) (hpy : 1 ≤ piecesInY) (hw : 0 < surfaceWidth) (hh : 0 < surfaceHeight)
    (hx0 : 0 ≤ x) (hx : x ≤ surfaceWidth) (hy0 : 0 ≤ y) (hy : y ≤ surfaceHeight) :
    (CuttingAnalyzer.create piecesInX piecesInY surfaceWidth surfaceHeight).pieceOf (x, y)
      = (min (truncToInt (x / (surfaceWidth / piecesInX)) + 1) (piecesInX : Int),
         min (truncToInt (y / (surfaceHeight / piecesInY)) + 1) (piecesInY : Int)) ∧
    ¬ (CuttingAnalyzer.create piecesInX piecesInY surfaceWidth surfaceHeight).outsideBounds (x, y) ∧
    1 ≤ ((CuttingAnalyzer.create piecesInX piecesInY surfaceWidth surfaceHeight).pieceOf (x, y)).1 ∧
    ((CuttingAnalyzer.create piecesInX piecesInY surfaceWidth surfaceHeight).pieceOf (x, y)).1
      ≤ piecesInX ∧
    1 ≤ ((CuttingAnalyzer.create piecesInX piecesInY surfaceWidth surfaceHeight).pieceOf (x, y)).2 ∧
    ((CuttingAnalyzer.create piecesInX piecesInY surfaceWidth surfaceHeight).pieceOf (x, y)).2
      ≤ piecesInY ∧
    ((CuttingAnalyzer.create piecesInX piecesInY surfaceWidth surfaceHeight).pieceOf
      (surfaceWidth, y)).1 = piecesInX ∧
    ((CuttingAnalyzer.create piecesInX piecesInY surfaceWidth surfaceHeight).pieceOf
      (x, surfaceHeight)).2 = piecesInY := by
  have hpw : 0 < (CuttingAnalyzer.create piecesInX piecesInY surfaceWidth surfaceHeight).pieceWidth := by
    show 0 < surfaceWidth / (piecesInX : ℚ)
    exact div_pos hw (by exact_mod_cast hpx)
  have hph : 0 < (CuttingAnalyzer.create piecesInX piecesInY surfaceWidth surfaceHeight).pieceHeight := by
    show 0 < surfaceHeight / (piecesInY : ℚ)
    exact div_pos hh (by exact_mod_cast hpy)
  have hin : ¬ (CuttingAnalyzer.create piecesInX piecesInY surfaceWidth surfaceHeight).outsideBounds
      (x, y) := by
    unfold CuttingAnalyzer.outsideBounds
    simp only [not_or, not_lt]
    exact ⟨hx0, hx, hy0, hy⟩
  have hgrid := pieceOf_in_grid (CuttingAnalyzer.create piecesInX piecesInY surfaceWidth surfaceHeight)
    (x, y) hpx hpy hpw hph hin
  have hxq : (piecesInX : ℚ) ≠ 0 := by
    have : (0 : ℚ) < piecesInX := by exact_mod_cast hpx
    exact ne_of_gt this
  have hyq : (piecesInY : ℚ) ≠ 0 := by
    have : (0 : ℚ) < piecesInY := by exact_mod_cast hpy
    exact ne_of_gt this
  refine ⟨rfl, hin, hgrid.1, hgrid.2.1, hgrid.2.2.1, hgrid.2.2.2, ?_, ?_⟩
  · show min (truncToInt (surfaceWidth / (surfaceWidth / (piecesInX : ℚ))) + 1) (piecesInX : Int)
      = piecesInX
    have e : surfaceWidth / (surfaceWidth / (piecesInX : ℚ)) = piecesInX := by
      field_simp
    rw [e, truncToInt_natCast]
    exact min_eq_right (by omega)
  · show min (truncToInt (surfaceHeight / (surfaceHeight / (piecesInY : ℚ))) + 1) (piecesInY : Int)
      = piecesInY
    have e : surfaceHeight / (surfaceHeight / (piecesInY : ℚ)) = piecesInY := by
      field_simp
    rw [e, truncToInt_natCast]
    exact min_eq_right (by omega)

/-- C20 (fails on the code): the defect tables of `updateDefectPreview` and `showPieceDefects`
divide a confidence above 1 by 100 before they print it as percentage, so that a confidence in
`[0, 100]` is printed as a number in `[0, 100]` and one not above 1 as `c * 100`; the label
drawn by `labelDefects` prints `qRound(confidence * 100)` without that division, which for the
confidence 85 is 8500 where the tables print 85. -/
theorem C20_confidence_display :
    (∀ c : ℚ, 0 ≤ c → c ≤ 100 → 0 ≤ tablePercent c ∧ tablePercent c ≤ 100) ∧
    (∀ c : ℚ, c ≤ 1 → tablePercent c = c * 100) ∧
    (∀ c : ℚ, 1 < c → tablePercent c = c) ∧
    tablePercent 85 = 85 ∧
    labelPercent 85 = 8500 ∧
    (∀ c : Nat, labelPercent c = 100 * c) := by
  have hlabel : ∀ c : Nat, labelPercent c = 100 * c := by
    intro c
    unfold labelPercent qRound truncToInt
    have h0 : (0 : ℚ) ≤ (c : ℚ) * 100 := by positivity
    rw [if_pos h0, if_pos (by linarith)]
    rw [Int.floor_eq_iff]
    push_cast
    constructor <;> linarith
  refine ⟨?_, ?_, ?_, ?_, ?_, hlabel⟩
  · intro c h0 h100
    unfold tablePercent
    by_cases h : c > 1
    · simp only [h, if_true]
      constructor
      · have : c / 100 * 100 = c := by field_simp
        linarith
      · have : c / 100 * 100 = c := by field_simp
        linarith
    · simp only [h, if_false]
      constructor
      · positivity
      · have : c ≤ 1 := not_lt.mp h
        linarith
  · intro c h
    unfold tablePercent
    rw [if_neg (not_lt.mpr h)]
  · intro c h
    unfold tablePercent
    simp only [gt_iff_lt, h, if_true]
    field_simp
  · unfold tablePercent
    norm_num
  · have := hlabel 85
    simpa using this

/-! ## Lemmas and claims on the frame of the piece assignment -/

theorem count_eq_one_of_nodup_mem {α : Type} [BEq α] [LawfulBEq α] (l : List α) (a : α)
    (h : l.Nodup) (ha : a ∈ l) : l.count a = 1 := by
  induction l with
  | nil => cases ha
  | cons b t ih =>
    rw [List.nodup_cons] at h
    rw [List.count_cons]
    by_cases hb : (b == a) = true
    · have hba : b = a := eq_of_beq hb
      subst hba
      rw [List.count_eq_zero_of_not_mem h.1]
      simp
    · have hne : a ≠ b := by
        intro hab; apply hb; rw [hab]; exact beq_self_eq_true b
      have hat : a ∈ t := by
        rcases List.mem_cons.mp ha with h1 | h1
        · exact absurd h1 hne
        · exact h1
      rw [ih h.2 hat]
      simp [hb]

theorem cornerStep_nodup (a : CuttingAnalyzer) (l : List (ℚ × ℚ))
    (acc : List (Int × Int) × Bool) (h : acc.1.Nodup) :
    (l.foldl a.cornerStep acc).1.Nodup := by
  induction l generalizing acc with
  | nil => exact h
  | cons c t ih =>
    rw [List.foldl_cons]
    apply ih
    by_cases hc : a.outsideBounds c
    · rw [cornerStep_outside a acc c hc]; exact h
    · by_cases hm : a.pieceOf c ∈ acc.1
      · rw [cornerStep_known a acc c hc hm]; exact h
      · rw [cornerStep_new a acc c hc hm]
        show (acc.1 ++ [a.pieceOf c]).Nodup
        rw [List.nodup_append]
        refine ⟨h, List.nodup_singleton _, ?_⟩
        intro q hq hq2
        rw [List.mem_singleton] at hq2
        subst hq2
        exact hm hq

theorem cornerStep_origin (a : CuttingAnalyzer) (l : List (ℚ × ℚ))
    (acc : List (Int × Int) × Bool) (q : Int × Int) (h : q ∈ (l.foldl a.cornerStep acc).1) :
    q ∈ acc.1 ∨ ∃ p ∈ l, ¬ a.outsideBounds p ∧ a.pieceOf p = q := by
  induction l generalizing acc with
  | nil => left; exact h
  | cons c t ih =>
    rw [List.foldl_cons] at h
    rcases ih _ h with h1 | ⟨p, hp, hin, hq⟩
    · by_cases hc : a.outsideBounds c
      · rw [cornerStep_outside a acc c hc] at h1; left; exact h1
      · by_cases hm : a.pieceOf c ∈ acc.1
        · rw [cornerStep_known a acc c hc hm] at h1; left; exact h1
        · rw [cornerStep_new a acc c hc hm] at h1
          rcases List.mem_append.mp h1 with h2 | h2
          · left; exact h2
          · right
            rw [List.mem_singleton] at h2
            exact ⟨c, List.mem_cons_self _ _, hc, h2.symm⟩
    · right
      exact ⟨p, List.mem_cons_of_mem _ hp, hin, hq⟩

/-- The list `affectedPieces` after the loop over the sample points: without repetition, and
holding exactly the pieces computed for the points inside the surface bounds. -/
theorem affected_pieces (a : CuttingAnalyzer) (d : Defect) :
    (a.affected d).1.Nodup ∧
    ∀ q, q ∈ (a.affected d).1 ↔
      ∃ p ∈ corners d.physical_position.x d.physical_position.y d.physical_position.width
        d.physical_position.height, ¬ a.outsideBounds p ∧ a.pieceOf p = q := by
  unfold CuttingAnalyzer.affected
  refine ⟨cornerStep_nodup a _ _ List.nodup_nil, ?_⟩
  intro q
  constructor
  · intro h
    rcases cornerStep_origin a _ _ q h with h1 | h1
    · cases h1
    · exact h1
  · rintro ⟨p, hp, hin, rfl⟩
    exact cornerStep_mem a _ _ p hp hin

theorem map_modify_absorb {α β : Type} (g : α → β) (f : α → α) (h : ∀ x, g (f x) = g x)
    (n : Nat) (l : List α) : (l.modify f n).map g = l.map g := by
  apply List.ext_getElem?
  intro i
  rw [List.getElem?_map, List.getElem?_map, List.getElem?_modify]
  cases l[i]? with
  | none => rfl
  | some x =>
    simp only [Option.map_eq_map, Option.map_some']
    split
    · rw [h]
    · rfl

theorem clear_appendDefect (pieces : List (List CutPiece)) (x y : Nat) (d : Defect) :
    (appendDefect pieces x y d).map
        (fun column => column.map (fun piece => ({ piece with defects := [] } : CutPiece)))
      = pieces.map
        (fun column => column.map (fun piece => ({ piece with defects := [] } : CutPiece))) := by
  unfold appendDefect
  apply map_modify_absorb
  intro column
  apply map_modify_absorb
  intro piece
  rfl

theorem clear_addDefectToPiece (d : Defect) (a : CuttingAnalyzer) (q : Int × Int) :
    (a.addDefectToPiece d q).clear = a.clear := by
  unfold CuttingAnalyzer.addDefectToPiece
  by_cases hc : q.1 - 1 ≥ 0 ∧ q.1 - 1 < (a.piecesInX : Int) ∧ q.2 - 1 ≥ 0 ∧
      q.2 - 1 < (a.piecesInY : Int)
  · simp only [hc, and_self, if_true]
    unfold CuttingAnalyzer.clear
    simp only [clear_appendDefect]
  · simp only [hc, if_false, and_self]

theorem clear_addDefectToPieces (a : CuttingAnalyzer) (d : Defect) (aff : List (Int × Int)) :
    (a.addDefectToPieces d aff).clear = a.clear := by
  unfold CuttingAnalyzer.addDefectToPieces
  induction aff generalizing a with
  | nil => rfl
  | cons q t ih =>
    rw [List.foldl_cons, ih, clear_addDefectToPiece]

theorem clear_processDefect (idx : Int) (a : CuttingAnalyzer) (d : Defect) :
    (a.processDefect idx d).clear = a.clear := by
  unfold CuttingAnalyzer.processDefect
  by_cases hf : (a.affected d).2 = true
  · simp only [hf, if_true]
    rfl
  · simp only [hf]
    exact clear_addDefectToPieces a _ _

theorem clear_foldl_processDefect (idx : Int) (ds : List Defect) (a : CuttingAnalyzer) :
    (ds.foldl (CuttingAnalyzer.processDefect idx) a).clear = a.clear := by
  induction ds generalizing a with
  | nil => rfl
  | cons d t ih => rw [List.foldl_cons, ih, clear_processDefect]

theorem clear_clear (a : CuttingAnalyzer) : a.clear.clear = a.clear := by
  unfold CuttingAnalyzer.clear
  simp [Function.comp_def]

/-- The analyzer after `analyzeSurfaces`: the cleared analyzer, with the defects of the file
processed in order when the file could be read. -/
theorem analyzeSurfaces_state (a : CuttingAnalyzer) (coordFile : Option (List Defect))
    (surfaceName : String) (writable : Bool) :
    (a.analyzeSurfaces coordFile surfaceName writable).2.1
      = (coordFile.getD []).foldl (CuttingAnalyzer.processDefect 1) a.clear := by
  unfold CuttingAnalyzer.analyzeSurfaces CuttingAnalyzer.analyzeDefectsInSurface
    CuttingAnalyzer.saveAnalysis
  cases coordFile with
  | none => simp
  | some ds => cases writable <;> simp

theorem analyzeSurfaces_congr (a b : CuttingAnalyzer) (h : a.clear = b.clear)
    (coordFile : Option (List Defect)) (surfaceName : String) (writable : Bool) :
    a.analyzeSurfaces coordFile surfaceName writable
      = b.analyzeSurfaces coordFile surfaceName writable := by
  unfold CuttingAnalyzer.analyzeSurfaces
  rw [h]

/-- C14: running `analyzeSurfaces` a second time on the same defect-coordinate input leaves the
analyzer, and so every per-piece defect list and the outside list, as the first run left it,
whatever the state before the first run and whether or not the output could be written; both
runs return the same result when the output is equally writable, and write the same content. -/
theorem C14_analyzeSurfaces_idempotent (a : CuttingAnalyzer) (coordFile : Option (List Defect))
    (surfaceName : String) (writable1 writable2 : Bool) :
    ((a.analyzeSurfaces coordFile surfaceName writable1).2.1.analyzeSurfaces coordFile
        surfaceName writable2).2.1
      = (a.analyzeSurfaces coordFile surfaceName writable1).2.1 ∧
    (∀ x y,
      (((a.analyzeSurfaces coordFile surfaceName writable1).2.1.analyzeSurfaces coordFile
          surfaceName writable2).2.1).defectsOf x y
        = ((a.analyzeSurfaces coordFile surfaceName writable1).2.1).defectsOf x y) ∧
    (((a.analyzeSurfaces coordFile surfaceName writable1).2.1.analyzeSurfaces coordFile
        surfaceName writable2).2.1).outsideDefects
      = ((a.analyzeSurfaces coordFile surfaceName writable1).2.1).outsideDefects ∧
    ((a.analyzeSurfaces coordFile surfaceName writable1).2.1.analyzeSurfaces coordFile
        surfaceName writable1)
      = a.analyzeSurfaces coordFile surfaceName writable1 := by
  have hstate : ∀ w1 w2,
      ((a.analyzeSurfaces coordFile surfaceName w1).2.1.analyzeSurfaces coordFile
        surfaceName w2).2.1 = (a.analyzeSurfaces coordFile surfaceName w1).2.1 := by
    intro w1 w2
    rw [analyzeSurfaces_state, analyzeSurfaces_state, clear_foldl_processDefect, clear_clear]
  have hclear : (a.analyzeSurfaces coordFile surfaceName writable1).2.1.clear = a.clear := by
    rw [analyzeSurfaces_state, clear_foldl_processDefect, clear_clear]
  refine ⟨hstate _ _, ?_, ?_, ?_⟩
  · intro x y; rw [hstate]
  · rw [hstate]
  · exact analyzeSurfaces_congr _ _ hclear _ _ _

theorem foldl_performSurface (piecesInX piecesInY : Nat) (surfaces : List SurfaceDir)
    (st : Option CuttingAnalyzer × List (Bool × CuttingAnalyzer × Option CuttingAnalysis)) :
    (surfaces.foldl (performSurface piecesInX piecesInY) st).2
      = st.2 ++ surfaces.map (fun surface =>
          (CuttingAnalyzer.create piecesInX piecesInY 420 297).analyzeSurfaces
            (surface.coordFile.map (fun f => f.defects)) surface.name surface.writable) := by
  induction surfaces generalizing st with
  | nil => simp
  | cons s t ih =>
    rw [List.foldl_cons, ih]
    simp [performSurface]

/-- The outcomes of `performCuttingAnalysis`: surface by surface, the outcome of
`analyzeSurfaces` of a new analyzer for the A3 size. -/
theorem performCuttingAnalysis_eq_map (piecesInX piecesInY : Nat) (surfaces : List SurfaceDir) :
    performCuttingAnalysis piecesInX piecesInY surfaces
      = surfaces.map (fun surface =>
          (CuttingAnalyzer.create piecesInX piecesInY 420 297).analyzeSurfaces
            (surface.coordFile.map (fun f => f.defects)) surface.name surface.writable) := by
  unfold performCuttingAnalysis
  rw [foldl_performSurface]
  simp

theorem analyzeSurfaces_none (a : CuttingAnalyzer) (surfaceName : String) (writable : Bool) :
    a.analyzeSurfaces none surfaceName writable = (false, a.clear, none) := by
  simp [CuttingAnalyzer.analyzeSurfaces, CuttingAnalyzer.analyzeDefectsInSurface]

/-- C15: when the defect-coordinate file of a surface cannot be opened or holds no JSON object,
`analyzeSurfaces` returns `false`, writes no output and leaves the analyzer cleared; and
`performCuttingAnalysis` on a session that contains such a surface records that failure and
gives every surface before and after it the outcome it has in a session without the failing
surface. -/
theorem C15_unreadable_surface_is_reported (piecesInX piecesInY : Nat) :
    (∀ (a : CuttingAnalyzer) (surfaceName : String) (writable : Bool),
      a.analyzeSurfaces none surfaceName writable = (false, a.clear, none)) ∧
    (∀ (before after : List SurfaceDir) (bad : SurfaceDir), bad.coordFile = none →
      performCuttingAnalysis piecesInX piecesInY (before ++ bad :: after)
        = performCuttingAnalysis piecesInX piecesInY before
          ++ (false, (CuttingAnalyzer.create piecesInX piecesInY 420 297).clear, none)
            :: performCuttingAnalysis piecesInX piecesInY after) ∧
    (∀ (surfaces : List SurfaceDir),
      (performCuttingAnalysis piecesInX piecesInY surfaces).length = surfaces.length ∧
      ∀ (i : Nat) (surface : SurfaceDir), surfaces[i]? = some surface →
        (performCuttingAnalysis piecesInX piecesInY surfaces)[i]?
          = some ((CuttingAnalyzer.create piecesInX piecesInY 420 297).analyzeSurfaces
              (surface.coordFile.map (fun f => f.defects)) surface.name surface.writable)) := by
  refine ⟨analyzeSurfaces_none, ?_, ?_⟩
  · intro before after bad hbad
    simp only [performCuttingAnalysis_eq_map, List.map_append, List.map_cons, hbad,
      Option.map_none', analyzeSurfaces_none]
  · intro surfaces
    rw [performCuttingAnalysis_eq_map]
    refine ⟨by simp, ?_⟩
    intro i surface hs
    rw [List.getElem?_map, hs]
    rfl

theorem analyzeSurfaces_frame (a : CuttingAnalyzer) (coordFile : Option (List Defect))
    (surfaceName : String) (writable : Bool) :
    (a.analyzeSurfaces coordFile surfaceName writable).2.1.piecesInX = a.piecesInX ∧
    (a.analyzeSurfaces coordFile surfaceName writable).2.1.piecesInY = a.piecesInY ∧
    (a.analyzeSurfaces coordFile surfaceName writable).2.1.surfaceWidth = a.surfaceWidth ∧
    (a.analyzeSurfaces coordFile surfaceName writable).2.1.surfaceHeight = a.surfaceHeight ∧
    (a.analyzeSurfaces coordFile surfaceName writable).2.1.pieceWidth = a.pieceWidth ∧
    (a.analyzeSurfaces coordFile surfaceName writable).2.1.pieceHeight = a.pieceHeight := by
  rw [analyzeSurfaces_state]
  generalize coordFile.getD [] = ds
  have hc : a.clear.piecesInX = a.piecesInX ∧ a.clear.piecesInY = a.piecesInY ∧
      a.clear.surfaceWidth = a.surfaceWidth ∧ a.clear.surfaceHeight = a.surfaceHeight ∧
      a.clear.pieceWidth = a.pieceWidth ∧ a.clear.pieceHeight = a.pieceHeight :=
    ⟨rfl, rfl, rfl, rfl, rfl, rfl⟩
  revert hc
  generalize a.clear = b
  induction ds generalizing b with
  | nil => intro hc; exact hc
  | cons d t ih =>
    intro hc
    rw [List.foldl_cons]
    apply ih
    have hf := processDefect_frame 1 b d
    exact ⟨hf.1.trans hc.1, hf.2.1.trans hc.2.1, hf.2.2.1.trans hc.2.2.1,
      hf.2.2.2.1.trans hc.2.2.2.1, hf.2.2.2.2.1.trans hc.2.2.2.2.1,
      hf.2.2.2.2.2.trans hc.2.2.2.2.2⟩

set_option maxRecDepth 100000 in
/-- C19 (fails on the code): for a surface whose file persists the size `600 x 400` and a defect
at the point `(500, 100)`, `performCuttingAnalysis` with a 4 x 2 grid analyzes with the width
420 and the height 297: the defect, inside the persisted surface, goes to the outside list,
while an analyzer constructed from the persisted size puts it into piece `(4, 1)`. -/
theorem C19_persisted_size_not_used :
    (performCuttingAnalysis 4 2
        [{ name := "surface_1",
           coordFile := some { surface_width := 600, surface_height := 400, grid_x := 3,
                               grid_y := 3, sequence := [], defects := [defectAt 500 100 0 0] },
           writable := true }]).map
      (fun r => (r.1, r.2.1.surfaceWidth, r.2.1.surfaceHeight, r.2.1.outsideDefects,
        r.2.1.defectsOf 4 1))
      = [(true, 420, 297, [enrich (defectAt 500 100 0 0) 1], [])] ∧
    ((CuttingAnalyzer.create 4 2 600 400).analyzeSurfaces (some [defectAt 500 100 0 0])
        "surface_1" true).2.1.outsideDefects = [] ∧
    ((CuttingAnalyzer.create 4 2 600 400).analyzeSurfaces (some [defectAt 500 100 0 0])
        "surface_1" true).2.1.defectsOf 4 1 = [enrich (defectAt 500 100 0 0) 1] := by
  decide!

/-- The analyzer of every surface is constructed with the width 420 and the height 297,
whatever `surface_width` and `surface_height` the surface's defect-coordinate file holds: these
constants are the bounds of the bounds test, the piece size is `420 / piecesInX` by
`297 / piecesInY`, and they are what the metadata of the written output holds. -/
theorem performCuttingAnalysis_fixed_size (piecesInX piecesInY : Nat)
    (surfaces : List SurfaceDir) :
    performCuttingAnalysis piecesInX piecesInY surfaces
      = surfaces.map (fun surface =>
          (CuttingAnalyzer.create piecesInX piecesInY 420 297).analyzeSurfaces
            (surface.coordFile.map (fun f => f.defects)) surface.name surface.writable) ∧
    (∀ corner : ℚ × ℚ,
      (CuttingAnalyzer.create piecesInX piecesInY 420 297).outsideBounds corner
        ↔ corner.1 < 0 ∨ corner.1 > 420 ∨ corner.2 < 0 ∨ corner.2 > 297) ∧
    (∀ corner : ℚ × ℚ,
      (CuttingAnalyzer.create piecesInX piecesInY 420 297).pieceOf corner
        = (min (truncToInt (corner.1 / (420 / piecesInX)) + 1) (piecesInX : Int),
           min (truncToInt (corner.2 / (297 / piecesInY)) + 1) (piecesInY : Int))) ∧
    (∀ r ∈ performCuttingAnalysis piecesInX piecesInY surfaces,
      r.2.1.surfaceWidth = 420 ∧ r.2.1.surfaceHeight = 297 ∧
      r.2.1.pieceWidth = 420 / piecesInX ∧ r.2.1.pieceHeight = 297 / piecesInY ∧
      ∀ out, r.2.2 = some out →
        out.metadata.surface_width = 420 ∧ out.metadata.surface_height = 297) := by
  refine ⟨performCuttingAnalysis_eq_map _ _ _, fun _ => Iff.rfl, fun _ => rfl, ?_⟩
  intro r hr
  rw [performCuttingAnalysis_eq_map, List.mem_map] at hr
  obtain ⟨surface, _, rfl⟩ := hr
  have hf := analyzeSurfaces_frame (CuttingAnalyzer.create piecesInX piecesInY 420 297)
    (surface.coordFile.map (fun f => f.defects)) surface.name surface.writable
  refine ⟨hf.2.2.1, hf.2.2.2.1, hf.2.2.2.2.1, hf.2.2.2.2.2, ?_⟩
  intro out hout
  have hout2 : out.metadata.surface_width
        = ((CuttingAnalyzer.create piecesInX piecesInY 420 297).analyzeSurfaces
            (surface.coordFile.map (fun f => f.defects)) surface.name
            surface.writable).2.1.surfaceWidth ∧
      out.metadata.surface_height
        = ((CuttingAnalyzer.create piecesInX piecesInY 420 297).analyzeSurfaces
            (surface.coordFile.map (fun f => f.defects)) surface.name
            surface.writable).2.1.surfaceHeight := by
    revert hout
    unfold CuttingAnalyzer.analyzeSurfaces CuttingAnalyzer.saveAnalysis
    cases hcf : (CuttingAnalyzer.create piecesInX piecesInY 420 297).clear.analyzeDefectsInSurface
      (surface.coordFile.map (fun f => f.defects)) 1 with
    | mk ok b =>
      cases ok <;> cases surface.writable <;> simp
      · intro h; rw [← h]; exact ⟨rfl, rfl⟩
  rw [hout2.1, hout2.2]
  exact ⟨hf.2.2.1, hf.2.2.2.1⟩

/-! ## Lemmas and claims on `saveAnalysis` -/

theorem pieceId_injective (x y x2 y2 : Nat) (h : pieceId x y = pieceId x2 y2) :
    x = x2 ∧ y = y2 := by
  have hx := qMid_pieceId_x x y
  have hy := qMid_pieceId_y x y
  rw [h, qMid_pieceId_x] at hx
  rw [h, qMid_pieceId_y] at hy
  have vx := congrArg decValue hx
  have vy := congrArg decValue hy
  rw [(toString_nat_spec x).2.2, (toString_nat_spec x2).2.2] at vx
  rw [(toString_nat_spec y).2.2, (toString_nat_spec y2).2.2] at vy
  exact ⟨vx.symm, vy.symm⟩

theorem pieceIdOf_natCast (x y : Nat) : pieceIdOf (x : Int) (y : Int) = pieceId x y := rfl

theorem foldl_saveStep (a : CuttingAnalyzer) (x : Nat) (l : List Nat)
    (acc : List PieceRecord × List String) :
    l.foldl (a.saveStep x) acc
      = (acc.1 ++ l.map (fun y =>
            ({ x := (pieceAt a.pieces x y).x, y := (pieceAt a.pieces x y).y,
               defects := (pieceAt a.pieces x y).defects } : PieceRecord)),
         acc.2 ++ (l.filter (fun y => !(pieceAt a.pieces x y).defects.isEmpty)).map
            (fun y => pieceIdOf (pieceAt a.pieces x y).x (pieceAt a.pieces x y).y)) := by
  induction l generalizing acc with
  | nil => simp
  | cons y t ih =>
    rw [List.foldl_cons, ih]
    unfold CuttingAnalyzer.saveStep
    by_cases he : (pieceAt a.pieces x y).defects.isEmpty = true
    · simp [he]
    · simp [he]

theorem foldl_foldl_saveStep (a : CuttingAnalyzer) (l : List Nat) (n : Nat)
    (acc : List PieceRecord × List String) :
    l.foldl (fun acc x => (List.range n).foldl (a.saveStep x) acc) acc
      = (acc.1 ++ l.flatMap (fun x => (List.range n).map (fun y =>
            ({ x := (pieceAt a.pieces x y).x, y := (pieceAt a.pieces x y).y,
               defects := (pieceAt a.pieces x y).defects } : PieceRecord))),
         acc.2 ++ l.flatMap (fun x =>
            ((List.range n).filter (fun y => !(pieceAt a.pieces x y).defects.isEmpty)).map
              (fun y => pieceIdOf (pieceAt a.pieces x y).x (pieceAt a.pieces x y).y))) := by
  induction l generalizing acc with
  | nil => simp
  | cons x t ih =>
    rw [List.foldl_cons, ih, foldl_saveStep]
    simp

/-- In a grid that is as the constructor makes it, the element `pieces[x][y]` carries the
coordinates `(x + 1, y + 1)` and the defect list of that piece. -/
theorem pieceAt_gridOk (a : CuttingAnalyzer) (h : a.GridOk) (x y : Nat)
    (hx : x < a.piecesInX) (hy : y < a.piecesInY) :
    (pieceAt a.pieces x y).x = (x : Int) + 1 ∧ (pieceAt a.pieces x y).y = (y : Int) + 1 ∧
    (pieceAt a.pieces x y).defects = a.defectsOf (x + 1) (y + 1) := by
  obtain ⟨⟨hlen, hcol⟩, hxy⟩ := h
  have hx' : x < a.pieces.length := by rw [hlen]; exact hx
  have hc : a.pieces[x]? = some a.pieces[x] := List.getElem?_eq_getElem hx'
  have hy' : y < (a.pieces[x]).length := by rw [hcol _ (List.getElem_mem hx')]; exact hy
  have hp : (a.pieces[x])[y]? = some (a.pieces[x])[y] := List.getElem?_eq_getElem hy'
  have hat : pieceAt a.pieces x y = (a.pieces[x])[y] := by
    have h1 : a.pieces.getD x [] = a.pieces[x] := List.getD_eq_getElem _ _ hx'
    unfold pieceAt
    rw [h1, List.getD_eq_getElem _ _ hy']
  have hco := hxy x y _ _ hc hp
  refine ⟨by rw [hat]; exact hco.1, by rw [hat]; exact hco.2, ?_⟩
  unfold CuttingAnalyzer.defectsOf pieceDefects
  simp only [Nat.add_sub_cancel, hc, hp, hat]

theorem mem_gridCells (piecesInX piecesInY : Nat) (c : Nat × Nat) :
    c ∈ gridCells piecesInX piecesInY
      ↔ 1 ≤ c.1 ∧ c.1 ≤ piecesInX ∧ 1 ≤ c.2 ∧ c.2 ≤ piecesInY := by
  unfold gridCells
  simp only [List.mem_flatMap, List.mem_map, List.mem_range]
  constructor
  · rintro ⟨x, hx, y, hy, rfl⟩
    simp only
    omega
  · rintro ⟨h1, h2, h3, h4⟩
    refine ⟨c.1 - 1, by omega, c.2 - 1, by omega, ?_⟩
    apply Prod.ext <;> simp only <;> omega

theorem gridCells_length (piecesInX piecesInY : Nat) :
    (gridCells piecesInX piecesInY).length = piecesInX * piecesInY := by
  unfold gridCells
  simp [List.length_flatMap, Function.comp_def]

theorem gridCells_nodup (piecesInX piecesInY : Nat) : (gridCells piecesInX piecesInY).Nodup := by
  unfold gridCells
  rw [flatMap_range_map_range]
  apply List.Nodup.map_on _ (List.nodup_range _)
  intro k hk k2 hk2 h
  simp only [Prod.mk.injEq, Nat.add_right_cancel_iff] at h
  have e1 := Nat.mod_add_div k piecesInY
  have e2 := Nat.mod_add_div k2 piecesInY
  rw [h.1, h.2] at e1
  omega

/-- The two arrays that `saveAnalysis` builds for an analyzer whose grid is as the constructor
makes it. -/
theorem buildAnalysis_gridOk (a : CuttingAnalyzer) (h : a.GridOk) (surfaceName : String) :
    (a.buildAnalysis surfaceName).pieces
      = (gridCells a.piecesInX a.piecesInY).map (fun c =>
          ({ x := (c.1 : Int), y := (c.2 : Int), defects := a.defectsOf c.1 c.2 } : PieceRecord)) ∧
    (a.buildAnalysis surfaceName).pieces_with_defects
      = ((gridCells a.piecesInX a.piecesInY).filter
          (fun c => !(a.defectsOf c.1 c.2).isEmpty)).map (fun c => pieceId c.1 c.2) := by
  unfold CuttingAnalyzer.buildAnalysis gridCells
  simp only [foldl_foldl_saveStep, List.nil_append, List.map_flatMap, List.filter_flatMap,
    List.map_map, List.filter_map, Function.comp_def]
  constructor
  · apply flatMap_congr_mem
    intro x hx
    apply List.map_congr_left
    intro y hy
    have := pieceAt_gridOk a h x y (List.mem_range.mp hx) (List.mem_range.mp hy)
    rw [this.1, this.2.1, this.2.2]
    push_cast
    rfl
  · apply flatMap_congr_mem
    intro x hx
    have hf : (List.range a.piecesInY).filter (fun y => !(pieceAt a.pieces x y).defects.isEmpty)
        = (List.range a.piecesInY).filter (fun y => !(a.defectsOf (x + 1) (y + 1)).isEmpty) := by
      apply List.filter_congr
      intro y hy
      rw [(pieceAt_gridOk a h x y (List.mem_range.mp hx) (List.mem_range.mp hy)).2.2]
    rw [hf]
    apply List.map_congr_left
    intro y hy
    have hy2 : y < a.piecesInY := List.mem_range.mp (List.mem_filter.mp hy).1
    have := pieceAt_gridOk a h x y (List.mem_range.mp hx) hy2
    rw [this.1, this.2.1]
    exact pieceIdOf_natCast (x + 1) (y + 1)

theorem filter_eq_singleton {α : Type} (p : α → Bool) (l : List α) (e : α) (hnd : l.Nodup)
    (he : e ∈ l) (hp : ∀ c ∈ l, p c = true ↔ c = e) : l.filter p = [e] := by
  induction l with
  | nil => cases he
  | cons b t ih =>
    rw [List.nodup_cons] at hnd
    by_cases hb : b = e
    · subst hb
      have hpb : p b = true := (hp b (List.mem_cons_self _ _)).mpr rfl
      rw [List.filter_cons_of_pos hpb]
      congr 1
      rw [List.filter_eq_nil_iff]
      intro c hc hpc
      have := (hp c (List.mem_cons_of_mem _ hc)).mp hpc
      subst this
      exact hnd.1 hc
    · have hpb : ¬ p b = true := fun h => hb ((hp b (List.mem_cons_self _ _)).mp h)
      rw [List.filter_cons_of_neg hpb]
      apply ih hnd.2
      · rcases List.mem_cons.mp he with h1 | h1
        · exact absurd h1.symm hb
        · exact h1
      · intro c hc
        exact hp c (List.mem_cons_of_mem _ hc)

theorem create_gridOk (piecesInX piecesInY : Nat) (w h : ℚ) :
    (CuttingAnalyzer.create piecesInX piecesInY w h).GridOk := by
  refine ⟨create_wellFormed _ _ _ _, ?_⟩
  intro i j column piece hc hp
  unfold CuttingAnalyzer.create at hc
  simp only [List.getElem?_map] at hc
  cases hi : (List.range piecesInX)[i]? with
  | none => rw [hi] at hc; cases hc
  | some x =>
    rw [hi] at hc
    simp only [Option.map_some', Option.some.injEq] at hc
    have hx : x = i := by
      have := List.getElem?_eq_some.mp hi
      obtain ⟨hlt, hv⟩ := this
      rw [List.getElem_range] at hv
      exact hv.symm
    subst hc
    rw [List.getElem?_map] at hp
    cases hj : (List.range piecesInY)[j]? with
    | none => rw [hj] at hp; cases hp
    | some y =>
      rw [hj] at hp
      simp only [Option.map_some', Option.some.injEq] at hp
      have hy : y = j := by
        obtain ⟨hlt, hv⟩ := List.getElem?_eq_some.mp hj
        rw [List.getElem_range] at hv
        exact hv.symm
      subst hp
      simp only
      rw [hx, hy]
      exact ⟨rfl, rfl⟩

theorem appendDefect_coords (pieces : List (List CutPiece)) (x y : Nat) (d : Defect)
    (h : ∀ (i j : Nat) (column : List CutPiece) (piece : CutPiece),
      pieces[i]? = some column → column[j]? = some piece →
      piece.x = (i : Int) + 1 ∧ piece.y = (j : Int) + 1) :
    ∀ (i j : Nat) (column : List CutPiece) (piece : CutPiece),
      (appendDefect pieces x y d)[i]? = some column → column[j]? = some piece →
      piece.x = (i : Int) + 1 ∧ piece.y = (j : Int) + 1 := by
  intro i j column piece hc hp
  unfold appendDefect at hc
  rw [List.getElem?_modify] at hc
  cases hc0 : pieces[i]? with
  | none => rw [hc0] at hc; cases hc
  | some column0 =>
    rw [hc0] at hc
    simp only [Option.map_eq_map, Option.map_some', Option.some.injEq] at hc
    by_cases hxi : x = i
    · simp only [hxi, if_true] at hc
      subst hc
      rw [List.getElem?_modify] at hp
      cases hp0 : column0[j]? with
      | none => rw [hp0] at hp; cases hp
      | some piece0 =>
        rw [hp0] at hp
        simp only [Option.map_eq_map, Option.map_some', Option.some.injEq] at hp
        have := h i j column0 piece0 hc0 hp0
        by_cases hyj : y = j
        · simp only [hyj, if_true] at hp
          subst hp
          exact this
        · simp only [hyj, if_false] at hp
          subst hp
          exact this
    · simp only [hxi, if_false] at hc
      subst hc
      exact h i j column0 piece hc0 hp

theorem addDefectToPiece_gridOk (d : Defect) (a : CuttingAnalyzer) (q : Int × Int)
    (h : a.GridOk) : (a.addDefectToPiece d q).GridOk := by
  refine ⟨addDefectToPiece_wellFormed d a q h.1, ?_⟩
  unfold CuttingAnalyzer.addDefectToPiece
  by_cases hc : q.1 - 1 ≥ 0 ∧ q.1 - 1 < (a.piecesInX : Int) ∧ q.2 - 1 ≥ 0 ∧
      q.2 - 1 < (a.piecesInY : Int)
  · simp only [hc, and_self, if_true]
    exact appendDefect_coords a.pieces _ _ d h.2
  · simp only [hc, if_false, and_self]
    exact h.2

theorem addDefectToPieces_gridOk (a : CuttingAnalyzer) (d : Defect) (aff : List (Int × Int))
    (h : a.GridOk) : (a.addDefectToPieces d aff).GridOk := by
  unfold CuttingAnalyzer.addDefectToPieces
  induction aff generalizing a with
  | nil => exact h
  | cons q t ih =>
    rw [List.foldl_cons]
    exact ih _ (addDefectToPiece_gridOk d a q h)

theorem processDefect_gridOk (idx : Int) (a : CuttingAnalyzer) (d : Defect) (h : a.GridOk) :
    (a.processDefect idx d).GridOk := by
  unfold CuttingAnalyzer.processDefect
  by_cases hf : (a.affected d).2 = true
  · simp only [hf, if_true]; exact h
  · simp only [hf]
    exact addDefectToPieces_gridOk a _ _ h

theorem clear_gridOk (a : CuttingAnalyzer) (h : a.GridOk) : a.clear.GridOk := by
  obtain ⟨⟨hlen, hcol⟩, hxy⟩ := h
  refine ⟨⟨?_, ?_⟩, ?_⟩
  · show (a.pieces.map _).length = a.piecesInX
    rw [List.length_map]; exact hlen
  · intro column hc
    change column ∈ a.pieces.map _ at hc
    obtain ⟨c0, hc0, rfl⟩ := List.mem_map.mp hc
    rw [List.length_map]
    exact hcol c0 hc0
  · intro i j column piece hc hp
    change (a.pieces.map _)[i]? = some column at hc
    rw [List.getElem?_map] at hc
    cases hc0 : a.pieces[i]? with
    | none => rw [hc0] at hc; cases hc
    | some column0 =>
      rw [hc0] at hc
      simp only [Option.map_some', Option.some.injEq] at hc
      subst hc
      rw [List.getElem?_map] at hp
      cases hp0 : column0[j]? with
      | none => rw [hp0] at hp; cases hp
      | some piece0 =>
        rw [hp0] at hp
        simp only [Option.map_some', Option.some.injEq] at hp
        subst hp
        exact hxy i j column0 piece0 hc0 hp0

/-- The grid stays as the constructor makes it through `analyzeSurfaces`. -/
theorem analyzeSurfaces_gridOk (a : CuttingAnalyzer) (h : a.GridOk)
    (coordFile : Option (List Defect)) (surfaceName : String) (writable : Bool) :
    (a.analyzeSurfaces coordFile surfaceName writable).2.1.GridOk := by
  rw [analyzeSurfaces_state]
  have hc := clear_gridOk a h
  revert hc
  generalize a.clear = b
  generalize coordFile.getD [] = ds
  intro hb
  induction ds generalizing b with
  | nil => exact hb
  | cons d t ih =>
    rw [List.foldl_cons]
    exact ih _ (processDefect_gridOk 1 b d hb)

/-- C16: for an analyzer whose grid is as the constructor makes it (as it is from construction
on and through every analysis), the object that `saveAnalysis` writes has a `pieces` list of
`piecesInX * piecesInY` entries with pairwise distinct `(x, y)`, all in
`[1, piecesInX] x [1, piecesInY]`, among them exactly one entry for every grid cell, which
carries the defect list of that piece; its `pieces_with_defects` list holds the identifier
"x{x}y{y}" of a grid cell exactly once when the defect list of piece `(x, y)` is not empty and
not at all when it is empty, and holds nothing else. -/
theorem C16_saved_pieces (a : CuttingAnalyzer) (h : a.GridOk) (surfaceName : String) :
    a.saveAnalysis surfaceName true = (true, some (a.buildAnalysis surfaceName)) ∧
    (a.buildAnalysis surfaceName).pieces.length = a.piecesInX * a.piecesInY ∧
    ((a.buildAnalysis surfaceName).pieces.map (fun p => (p.x, p.y))).Nodup ∧
    (∀ p ∈ (a.buildAnalysis surfaceName).pieces,
      1 ≤ p.x ∧ p.x ≤ a.piecesInX ∧ 1 ≤ p.y ∧ p.y ≤ a.piecesInY) ∧
    (∀ x y : Nat, 1 ≤ x → x ≤ a.piecesInX → 1 ≤ y → y ≤ a.piecesInY →
      (a.buildAnalysis surfaceName).pieces.filter
          (fun p => decide (p.x = (x : Int) ∧ p.y = (y : Int)))
        = [{ x := (x : Int), y := (y : Int), defects := a.defectsOf x y }]) ∧
    (∀ x y : Nat, 1 ≤ x → x ≤ a.piecesInX → 1 ≤ y → y ≤ a.piecesInY →
      (a.buildAnalysis surfaceName).pieces_with_defects.count (pieceId x y)
        = if a.defectsOf x y = [] then 0 else 1) ∧
    (∀ s ∈ (a.buildAnalysis surfaceName).pieces_with_defects,
      ∃ x y : Nat, 1 ≤ x ∧ x ≤ a.piecesInX ∧ 1 ≤ y ∧ y ≤ a.piecesInY ∧ s = pieceId x y ∧
        a.defectsOf x y ≠ []) := by
  obtain ⟨hp, hw⟩ := buildAnalysis_gridOk a h surfaceName
  have hnd := gridCells_nodup a.piecesInX a.piecesInY
  have hmemw : ∀ x y : Nat, pieceId x y ∈ (a.buildAnalysis surfaceName).pieces_with_defects ↔
      (1 ≤ x ∧ x ≤ a.piecesInX ∧ 1 ≤ y ∧ y ≤ a.piecesInY) ∧ a.defectsOf x y ≠ [] := by
    intro x y
    rw [hw, List.mem_map]
    constructor
    · rintro ⟨c, hc, hid⟩
      obtain ⟨hcx, hcy⟩ := pieceId_injective _ _ _ _ hid
      rw [List.mem_filter, mem_gridCells] at hc
      rw [← hcx, ← hcy]
      refine ⟨hc.1, ?_⟩
      intro hnil
      rw [hnil] at hc
      simp at hc
    · rintro ⟨hg, hne⟩
      refine ⟨(x, y), ?_, rfl⟩
      rw [List.mem_filter, mem_gridCells]
      refine ⟨hg, ?_⟩
      cases hd : a.defectsOf x y with
      | nil => exact absurd hd hne
      | cons e t => simp [hd]
  refine ⟨rfl, ?_, ?_, ?_, ?_, ?_, ?_⟩
  · rw [hp, List.length_map, gridCells_length]
  · rw [hp, List.map_map]
    apply List.Nodup.map_on _ hnd
    intro c _ c2 _ heq
    simp only [Function.comp, Prod.mk.injEq] at heq
    apply Prod.ext <;> omega
  · intro p hpm
    rw [hp, List.mem_map] at hpm
    obtain ⟨c, hc, rfl⟩ := hpm
    rw [mem_gridCells] at hc
    simp only
    omega
  · intro x y hx1 hx hy1 hy
    rw [hp, List.filter_map]
    have hsing : (gridCells a.piecesInX a.piecesInY).filter
        ((fun p : PieceRecord => decide (p.x = (x : Int) ∧ p.y = (y : Int))) ∘ fun c =>
          ({ x := (c.1 : Int), y := (c.2 : Int), defects := a.defectsOf c.1 c.2 } : PieceRecord))
        = [(x, y)] := by
      apply filter_eq_singleton _ _ _ hnd ((mem_gridCells _ _ _).mpr ⟨hx1, hx, hy1, hy⟩)
      intro c _
      simp only [Function.comp, decide_eq_true_eq]
      constructor
      · rintro ⟨h1, h2⟩
        apply Prod.ext <;> simp only <;> omega
      · rintro rfl
        exact ⟨rfl, rfl⟩
    rw [hsing]
    rfl
  · intro x y hx1 hx hy1 hy
    by_cases hd : a.defectsOf x y = []
    · rw [if_pos hd]
      apply List.count_eq_zero_of_not_mem
      intro hm
      exact ((hmemw x y).mp hm).2 hd
    · rw [if_neg hd]
      apply count_eq_one_of_nodup_mem
      · rw [hw]
        apply List.Nodup.map_on _ (hnd.filter _)
        intro c _ c2 _ heq
        obtain ⟨e1, e2⟩ := pieceId_injective _ _ _ _ heq
        exact Prod.ext e1 e2
      · exact (hmemw x y).mpr ⟨⟨hx1, hx, hy1, hy⟩, hd⟩
  · intro s hs
    have hs2 := hs
    rw [hw, List.mem_map] at hs2
    obtain ⟨c, _, rfl⟩ := hs2
    have := (hmemw c.1 c.2).mp hs
    exact ⟨c.1, c.2, this.1.1, this.1.2.1, this.1.2.2.1, this.1.2.2.2, rfl, this.2⟩

/-- Witness of C13: the A3 surface cut into 4 x 2 pieces and the point `(210, 297)`. -/
theorem C13_piece_index_in_grid_witness :
    (1 ≤ 4 ∧ 1 ≤ 2 ∧ (0 : ℚ) < 420 ∧ (0 : ℚ) < 297 ∧ (0 : ℚ) ≤ 210 ∧ (210 : ℚ) ≤ 420 ∧
      (0 : ℚ) ≤ 297 ∧ (297 : ℚ) ≤ 297) ∧
    1 ≤ ((CuttingAnalyzer.create 4 2 420 297).pieceOf (210, 297)).1 ∧
    ((CuttingAnalyzer.create 4 2 420 297).pieceOf (210, 297)).1 ≤ ((4 : Nat) : Int) ∧
    1 ≤ ((CuttingAnalyzer.create 4 2 420 297).pieceOf (210, 297)).2 ∧
    ((CuttingAnalyzer.create 4 2 420 297).pieceOf (210, 297)).2 ≤ ((2 : Nat) : Int) ∧
    ((CuttingAnalyzer.create 4 2 420 297).pieceOf (420, 297)).1 = ((4 : Nat) : Int) ∧
    ((CuttingAnalyzer.create 4 2 420 297).pieceOf (210, 297)).2 = ((2 : Nat) : Int) :=
  ⟨⟨by decide, by decide, by norm_num, by norm_num, by norm_num, by norm_num, by norm_num,
      by norm_num⟩,
    (C13_piece_index_in_grid 4 2 420 297 210 297 (by decide) (by decide) (by norm_num)
      (by norm_num) (by norm_num) (by norm_num) (by norm_num) (by norm_num)).2.2⟩

/-- Witness of C16: the analyzer of a 2 x 1 grid after the analysis of one defect. -/
theorem C16_saved_pieces_witness :
    ((CuttingAnalyzer.create 2 1 420 297).analyzeSurfaces (some [defectAt 10 10 5 5])
      "surface_1" true).2.1.GridOk ∧
    (((CuttingAnalyzer.create 2 1 420 297).analyzeSurfaces (some [defectAt 10 10 5 5])
        "surface_1" true).2.1.buildAnalysis "surface_1").pieces.length
      = ((CuttingAnalyzer.create 2 1 420 297).analyzeSurfaces (some [defectAt 10 10 5 5])
          "surface_1" true).2.1.piecesInX
        * ((CuttingAnalyzer.create 2 1 420 297).analyzeSurfaces (some [defectAt 10 10 5 5])
          "surface_1" true).2.1.piecesInY ∧
    ((((CuttingAnalyzer.create 2 1 420 297).analyzeSurfaces (some [defectAt 10 10 5 5])
        "surface_1" true).2.1.buildAnalysis "surface_1").pieces.map (fun p => (p.x, p.y))).Nodup :=
  ⟨analyzeSurfaces_gridOk _ (create_gridOk 2 1 420 297) _ _ _,
    (C16_saved_pieces _ (analyzeSurfaces_gridOk _ (create_gridOk 2 1 420 297)
      (some [defectAt 10 10 5 5]) "surface_1" true) "surface_1").2.1,
    (C16_saved_pieces _ (analyzeSurfaces_gridOk _ (create_gridOk 2 1 420 297)
      (some [defectAt 10 10 5 5]) "surface_1" true) "surface_1").2.2.1⟩

/-! ## The claims on the tile positions -/

theorem createSequencePositionMap_eq (imagesInX sequenceSize : Nat) (h : imagesInX ≠ 0) :
    createSequencePositionMap imagesInX sequenceSize
      = some ((List.range sequenceSize).map
          (fun i => (i + 1, (i % imagesInX, i / imagesInX)))) := by
  unfold createSequencePositionMap
  rw [if_neg (by tauto)]
  have := foldl_snoc_eq_map (fun i => (i + 1, (i % imagesInX, i / imagesInX)))
    (List.range sequenceSize) []
  simpa using this

theorem qMapValue_positions (imagesInX n i : Nat) (hi : i < n) :
    qMapValue ((List.range n).map (fun i => (i + 1, (i % imagesInX, i / imagesInX)))) (i + 1)
      = (i % imagesInX, i / imagesInX) := by
  induction n with
  | zero => omega
  | succ n ih =>
    unfold qMapValue at ih ⊢
    rw [List.range_succ, List.map_append, List.reverse_append]
    simp only [List.map_cons, List.map_nil, List.reverse_cons, List.reverse_nil, List.nil_append,
      List.singleton_append, List.find?_cons]
    by_cases hin : i = n
    · subst hin
      simp
    · have hlt : i < n := by omega
      have hne : (n + 1 == i + 1) = false := by
        simp only [beq_eq_false_iff_ne, ne_eq, Nat.add_right_cancel_iff]
        omega
      rw [hne]
      exact ih hlt

theorem labelOrigin_eq (imagesInX sequenceSize i : Nat) (h : imagesInX ≠ 0)
    (hi : i < sequenceSize) :
    labelOrigin imagesInX sequenceSize i
      = some (i % imagesInX * 970, i / imagesInX * 686) := by
  unfold labelOrigin
  rw [createSequencePositionMap_eq imagesInX sequenceSize h]
  simp only [Option.map_some', qMapValue_positions imagesInX sequenceSize i hi]

/-- C22 (fails on the code): for the tile of sequence position `i` the function `labelDefects`
takes the grid origin `(col * 970, row * 686)` with `col = i mod imagesInX` and
`row = i div imagesInX`, the same column and row as `getImagePosition`, which however places
the tile at `(col * (canvasWidth div imagesInX), row * (canvasHeight div imagesInY))`.  On the
A3 surface captured as 3 x 3 tiles the canvas is `2910 x 2057`, and the tile of position 3 is
drawn at `(0, 685)` and relabelled from `(0, 686)`; on a 4 x 4 grid of an A4 surface the tile
of position 1 is drawn at `(727, 0)` and relabelled from `(970, 0)`. -/
theorem C22_label_origin_differs :
    (∀ imagesInX sequenceSize i : Nat, imagesInX ≠ 0 → i < sequenceSize →
      labelOrigin imagesInX sequenceSize i
        = some (i % imagesInX * 970, i / imagesInX * 686)) ∧
    (∀ imagesInX imagesInY i canvasWidth canvasHeight : Nat, imagesInX ≠ 0 → imagesInY ≠ 0 →
      getImagePosition imagesInX imagesInY i canvasWidth canvasHeight
        = some (i % imagesInX * (canvasWidth / imagesInX),
                i / imagesInX * (canvasHeight / imagesInY))) ∧
    canvasSize 420 297 = (2910, 2057) ∧
    stitchOrigin 3 3 420 297 3 = some (0, 685) ∧
    labelOrigin 3 9 3 = some (0, 686) ∧
    stitchOrigin 3 3 420 297 8 = some (1940, 1370) ∧
    labelOrigin 3 9 8 = some (1940, 1372) ∧
    canvasSize 297 210 = (2910, 2057) ∧
    stitchOrigin 4 4 297 210 1 = some (727, 0) ∧
    labelOrigin 4 16 1 = some (970, 0) := by
  refine ⟨?_, ?_, by decide!, by decide!, by decide, by decide!, by decide, by decide!,
    by decide!, by decide⟩
  · intro imagesInX sequenceSize i h hi
    exact labelOrigin_eq imagesInX sequenceSize i h hi
  · intro imagesInX imagesInY i canvasWidth canvasHeight hx hy
    unfold getImagePosition
    rw [if_neg (by tauto)]

/-- C24: for a grid of `cols ≥ 1` by `rows ≥ 1` tiles and a canvas of at least `cols` by `rows`
pixels, `getImagePosition` maps the sequence index `i < cols * rows` to
`((i mod cols) * cellWidth, (i div cols) * cellHeight)` with `cellWidth = canvasWidth div cols`
and `cellHeight = canvasHeight div rows`; the cell of that origin lies inside the canvas, and
for every other index `j < cols * rows` the origin differs and the two cells are disjoint (one
lies left of, right of, above or below the other).  The map of `createSequencePositionMap`
holds the same column and row under the key `i + 1`. -/
theorem C24_image_positions (cols rows canvasWidth canvasHeight : Nat)
    (hc : 1 ≤ cols) (hr : 1 ≤ rows) (hw : cols ≤ canvasWidth) (hh : rows ≤ canvasHeight)
    (i : Nat) (hi : i < cols * rows) :
    getImagePosition cols rows i canvasWidth canvasHeight
      = some (i % cols * (canvasWidth / cols), i / cols * (canvasHeight / rows)) ∧
    i % cols * (canvasWidth / cols) + canvasWidth / cols ≤ canvasWidth ∧
    i / cols * (canvasHeight / rows) + canvasHeight / rows ≤ canvasHeight ∧
    (∀ j, j < cols * rows → j ≠ i →
      (j % cols * (canvasWidth / cols), j / cols * (canvasHeight / rows))
        ≠ (i % cols * (canvasWidth / cols), i / cols * (canvasHeight / rows)) ∧
      (i % cols * (canvasWidth / cols) + canvasWidth / cols ≤ j % cols * (canvasWidth / cols) ∨
        j % cols * (canvasWidth / cols) + canvasWidth / cols ≤ i % cols * (canvasWidth / cols) ∨
        i / cols * (canvasHeight / rows) + canvasHeight / rows
          ≤ j / cols * (canvasHeight / rows) ∨
        j / cols * (canvasHeight / rows) + canvasHeight / rows
          ≤ i / cols * (canvasHeight / rows))) ∧
    (∃ seqToPos, createSequencePositionMap cols (cols * rows) = some seqToPos ∧
      qMapValue seqToPos (i + 1) = (i % cols, i / cols)) := by
  have hcw : 1 ≤ canvasWidth / cols := (Nat.one_le_div_iff (by omega)).mpr hw
  have hch : 1 ≤ canvasHeight / rows := (Nat.one_le_div_iff (by omega)).mpr hh
  have hcol : i % cols < cols := Nat.mod_lt _ (by omega)
  have hrow : i / cols < rows := by
    rw [Nat.div_lt_iff_lt_mul (by omega)]
    rw [Nat.mul_comm]
    exact hi
  have step : ∀ a b c : Nat, a < b → a * c + c ≤ b * c := by
    intro a b c hab
    calc a * c + c = (a + 1) * c := by ring
      _ ≤ b * c := Nat.mul_le_mul_right c hab
  refine ⟨?_, ?_, ?_, ?_, ?_⟩
  · unfold getImagePosition
    rw [if_neg (by omega)]
  · calc i % cols * (canvasWidth / cols) + canvasWidth / cols
        ≤ cols * (canvasWidth / cols) := step _ _ _ hcol
      _ ≤ canvasWidth := Nat.mul_div_le _ _
  · calc i / cols * (canvasHeight / rows) + canvasHeight / rows
        ≤ rows * (canvasHeight / rows) := step _ _ _ hrow
      _ ≤ canvasHeight := Nat.mul_div_le _ _
  · intro j hj hji
    have hdisj : i % cols * (canvasWidth / cols) + canvasWidth / cols
          ≤ j % cols * (canvasWidth / cols) ∨
        j % cols * (canvasWidth / cols) + canvasWidth / cols ≤ i % cols * (canvasWidth / cols) ∨
        i / cols * (canvasHeight / rows) + canvasHeight / rows
          ≤ j / cols * (canvasHeight / rows) ∨
        j / cols * (canvasHeight / rows) + canvasHeight / rows
          ≤ i / cols * (canvasHeight / rows) := by
      rcases Nat.lt_trichotomy (i % cols) (j % cols) with h | h | h
      · exact Or.inl (step _ _ _ h)
      · rcases Nat.lt_trichotomy (i / cols) (j / cols) with h2 | h2 | h2
        · exact Or.inr (Or.inr (Or.inl (step _ _ _ h2)))
        · exfalso
          apply hji
          rw [← Nat.div_add_mod j cols, ← Nat.div_add_mod i cols, h, h2]
        · exact Or.inr (Or.inr (Or.inr (step _ _ _ h2)))
      · exact Or.inr (Or.inl (step _ _ _ h))
    refine ⟨?_, hdisj⟩
    intro heq
    rw [Prod.mk.injEq] at heq
    rcases hdisj with h | h | h | h <;> omega
  · refine ⟨_, createSequencePositionMap_eq cols (cols * rows) (by omega), ?_⟩
    exact qMapValue_positions cols (cols * rows) i hi

/-! ## Further claims on the piece index -/

theorem truncToInt_floor (q : ℚ) (h : 0 ≤ q) : truncToInt q = ⌊q⌋ := by
  unfold truncToInt
  rw [if_pos h]

theorem truncToInt_mono_nonneg (q r : ℚ) (h : 0 ≤ q) (hqr : q ≤ r) :
    truncToInt q ≤ truncToInt r := by
  rw [truncToInt_floor q h, truncToInt_floor r (le_trans h hqr)]
  exact Int.floor_le_floor hqr

/-- The index `min (trunc (x / w) + 1) n` of a coordinate `0 ≤ x ≤ n * w` names an interval of
width `w` that contains the coordinate. -/
theorem index_contains (n : Nat) (w x : ℚ) (hw : 0 < w) (hx0 : 0 ≤ x)
    (hx : x ≤ n * w) :
    (((min (truncToInt (x / w) + 1) (n : Int) : Int) : ℚ) - 1) * w ≤ x ∧
    x ≤ ((min (truncToInt (x / w) + 1) (n : Int) : Int) : ℚ) * w := by
  have hq : 0 ≤ x / w := div_nonneg hx0 hw.le
  rw [truncToInt_floor _ hq]
  have hfl : ((⌊x / w⌋ : Int) : ℚ) ≤ x / w := Int.floor_le _
  have hlt : x / w < ((⌊x / w⌋ : Int) : ℚ) + 1 := Int.lt_floor_add_one _
  constructor
  · have h0 : min (⌊x / w⌋ + 1) (n : Int) ≤ ⌊x / w⌋ + 1 := min_le_left _ _
    have h1 : ((min (⌊x / w⌋ + 1) (n : Int) : Int) : ℚ) ≤ ((⌊x / w⌋ : Int) : ℚ) + 1 := by
      have h : ((min (⌊x / w⌋ + 1) (n : Int) : Int) : ℚ) ≤ ((⌊x / w⌋ + 1 : Int) : ℚ) :=
        Int.cast_le.mpr h0
      rwa [Int.cast_add, Int.cast_one] at h
    have h2 : ((min (⌊x / w⌋ + 1) (n : Int) : Int) : ℚ) - 1 ≤ x / w := by linarith
    calc (((min (⌊x / w⌋ + 1) (n : Int) : Int) : ℚ) - 1) * w ≤ x / w * w :=
          mul_le_mul_of_nonneg_right h2 hw.le
      _ = x := by field_simp
  · rcases le_total (⌊x / w⌋ + 1) (n : Int) with h | h
    · rw [min_eq_left h]
      push_cast
      have : x / w * w < (((⌊x / w⌋ : Int) : ℚ) + 1) * w := mul_lt_mul_of_pos_right hlt hw
      have e : x / w * w = x := by field_simp
      linarith
    · rw [min_eq_right h]
      exact_mod_cast hx

/-! ## Further claims on the stack layout and the summary -/

/-- C28: with every analysis file readable, the number `totalStacks` that `updateSummaryText`
prints as "Number of stacks" is the number of stacks that `updateStackPreview` creates:
`piecesInY * ceil(S * piecesInX / 50)` under the per-row strategy and
`ceil(S * piecesInX * piecesInY / 50)` under the single strategy. -/
theorem C28_number_of_stacks (readAnalysis : Nat → Option (List String))
    (totalSurfaces piecesInX piecesInY : Nat)
    (hread : ∀ s, s < totalSurfaces → (readAnalysis s).isSome = true) :
    (updateStackPreview true readAnalysis totalSurfaces piecesInX piecesInY).length
      = totalStacks true totalSurfaces piecesInX piecesInY ∧
    totalStacks true totalSurfaces piecesInX piecesInY
      = piecesInY * ((totalSurfaces * piecesInX + 49) / 50) ∧
    (updateStackPreview false readAnalysis totalSurfaces piecesInX piecesInY).length
      = totalStacks false totalSurfaces piecesInX piecesInY ∧
    totalStacks false totalSurfaces piecesInX piecesInY
      = (totalSurfaces * piecesInX * piecesInY + 49) / 50 := by
  have hx : totalStacks true totalSurfaces piecesInX piecesInY
      = piecesInY * ((totalSurfaces * piecesInX + 49) / 50) := by
    simp only [totalStacks, maxPiecesPerStack, if_true]
    rfl
  have hs : totalStacks false totalSurfaces piecesInX piecesInY
      = (totalSurfaces * piecesInX * piecesInY + 49) / 50 := by
    simp only [totalStacks, maxPiecesPerStack]
    rw [if_neg (by decide), Nat.mul_assoc]
    rfl
  refine ⟨?_, hx, ?_, hs⟩
  · rw [hx, updateStackPreview_xAxis, List.length_map, List.length_range]
    simp only [stackGroupsNeeded, maxPiecesPerStack]
    rw [Nat.mul_comm]
    rfl
  · rw [hs, (single_stacks readAnalysis totalSurfaces piecesInX piecesInY).2.1,
      singleEntries_eq_allPieces readAnalysis totalSurfaces piecesInX piecesInY hread,
      allPieces_length]

set_option maxRecDepth 100000 in
/-- C25 (fails on the code): with 11 surfaces cut into 9 x 1 pieces, `surfacesPerGroup` is 5 and
a defective piece `x1y1` of the surface with index 10 is reported in stack
`1 + (10 div 5) * 1 = 3`, while the summary prints 2 as number of stacks and the layout creates
the two stacks "Stack 1" and "Stack 2". -/
theorem C25_reported_stack_not_created :
    summaryXAxis (fun i => if i = 10 then some ["x1y1"] else some []) 11 9 1
      = some [{ stackNumber := 3, positionInStack := 9, surfaceNum := 11, pieceId := "x1y1" }] ∧
    surfacesPerGroup 9 = 5 ∧
    totalStacks true 11 9 1 = 2 ∧
    1 * ((11 * 9 + 49) / 50) = 2 ∧
    (updateStackPreview true (fun i => if i = 10 then some ["x1y1"] else some []) 11 9 1).map
        StackWidget.label = ["Stack 1", "Stack 2"] := by
  refine ⟨by decide, by decide, by decide, by decide, by decide⟩

theorem group_start_lt (totalSurfaces piecesInX g : Nat)
    (hg : g < stackGroupsNeeded totalSurfaces piecesInX) :
    g * surfacesPerGroup piecesInX < totalSurfaces := by
  have hspg := surfacesPerGroup_mul_le piecesInX
  simp only [stackGroupsNeeded, maxPiecesPerStack] at hg
  simp only [maxPiecesPerStack] at hspg
  have h50 : 50 * g < totalSurfaces * piecesInX := by omega
  have h2 : g * (surfacesPerGroup piecesInX * piecesInX) ≤ g * 50 :=
    Nat.mul_le_mul_left g hspg
  have h3 : g * surfacesPerGroup piecesInX * piecesInX < totalSurfaces * piecesInX := by
    rw [Nat.mul_assoc]
    omega
  exact Nat.lt_of_mul_lt_mul_right h3

/-- C27: under the per-row strategy with `1 ≤ piecesInX ≤ 50` and every analysis file readable,
each of the `ceil(S * piecesInX / 50)` groups starts at a surface index below the number of
surfaces, so it covers at least one surface, and every stack that `updateStackPreview` creates
holds at least the `piecesInX` pieces of that surface. -/
theorem C27_xaxis_stacks_nonempty (readAnalysis : Nat → Option (List String))
    (totalSurfaces piecesInX piecesInY : Nat) (h1 : 1 ≤ piecesInX) (h50 : piecesInX ≤ 50)
    (hread : ∀ s, s < totalSurfaces → (readAnalysis s).isSome = true) :
    (∀ g, g < stackGroupsNeeded totalSurfaces piecesInX →
      g * surfacesPerGroup piecesInX < totalSurfaces ∧
      g * surfacesPerGroup piecesInX ∈ groupSurfaces totalSurfaces piecesInX g) ∧
    (∀ st ∈ updateStackPreview true readAnalysis totalSurfaces piecesInX piecesInY,
      st.pieces ≠ [] ∧ piecesInX ≤ st.pieces.length) := by
  have hspg : 1 ≤ surfacesPerGroup piecesInX := by
    unfold surfacesPerGroup maxPiecesPerStack
    exact (Nat.one_le_div_iff (by omega)).mpr h50
  have hmem : ∀ g, g < stackGroupsNeeded totalSurfaces piecesInX →
      g * surfacesPerGroup piecesInX < totalSurfaces ∧
      g * surfacesPerGroup piecesInX ∈ groupSurfaces totalSurfaces piecesInX g := by
    intro g hg
    have hlt := group_start_lt totalSurfaces piecesInX g hg
    refine ⟨hlt, ?_⟩
    unfold groupSurfaces
    rw [List.mem_range'_1]
    have : (g + 1) * surfacesPerGroup piecesInX
        = g * surfacesPerGroup piecesInX + surfacesPerGroup piecesInX := by ring
    omega
  refine ⟨hmem, ?_⟩
  intro st hst
  rw [updateStackPreview_xAxis, List.mem_map] at hst
  obtain ⟨k, hk, rfl⟩ := hst
  rw [List.mem_range] at hk
  have hpy : 0 < piecesInY := by
    rcases Nat.eq_zero_or_pos piecesInY with h | h
    · rw [h] at hk; omega
    · exact h
  have hg : k / piecesInY < stackGroupsNeeded totalSurfaces piecesInX := by
    rw [Nat.div_lt_iff_lt_mul hpy]
    exact hk
  obtain ⟨hlt, hin⟩ := hmem _ hg
  rw [xAxisStack_eq]
  show (List.flatMap _ _) ≠ [] ∧ piecesInX ≤ (List.flatMap _ _).length
  have hlen : piecesInX ≤ ((groupSurfaces totalSurfaces piecesInX (k / piecesInY)).flatMap
      (surfaceRow readAnalysis piecesInX (1 + k % piecesInY))).length := by
    obtain ⟨l1, l2, hsplit⟩ := List.append_of_mem hin
    rw [hsplit, List.flatMap_append, List.flatMap_cons, List.length_append, List.length_append,
      surfaceRow_of_readable readAnalysis piecesInX _ _ (hread _ hlt), List.length_map,
      List.length_range']
    omega
  refine ⟨?_, hlen⟩
  intro hnil
  rw [hnil] at hlen
  simp at hlen
  omega

/-! ## The capacity guard is never taken -/

theorem foldl_flatMap_eq {α β γ : Type} (f : β → γ → β) (g : α → List γ) (l : List α) (b : β) :
    (l.flatMap g).foldl f b = l.foldl (fun b a => (g a).foldl f b) b := by
  induction l generalizing b with
  | nil => rfl
  | cons a t ih => rw [List.flatMap_cons, List.foldl_append, ih, List.foldl_cons]

theorem addAll_room (calls : List StackPieceWidget) (st : StackWidget)
    (h : st.pieces.length + calls.length ≤ st.maxCapacity) :
    addAll calls st = { st with pieces := st.pieces ++ calls } := by
  have := foldl_addPiece_room (fun e : StackPieceWidget => e) calls st h
  simp only [List.map_id_fun', id_eq] at this
  exact this

theorem addSurfaceRow_eq_addAll (piecesInX : Nat) (d : List String) (s y : Nat)
    (st : StackWidget) :
    addSurfaceRow piecesInX d s y st = addAll (rowEntries piecesInX d s y) st := by
  unfold addSurfaceRow addAll rowEntries
  rw [List.foldl_map]
  rfl

theorem fillStack_eq_addAll (readAnalysis : Nat → Option (List String)) (piecesInX y : Nat)
    (startSurface endSurface : Nat) (st : StackWidget) :
    fillStack readAnalysis piecesInX y startSurface endSurface st
      = addAll ((List.range' startSurface (endSurface - startSurface)).flatMap
          (surfaceRow readAnalysis piecesInX y)) st := by
  unfold fillStack addAll
  rw [foldl_flatMap_eq]
  congr 1
  funext st surfaceIndex
  unfold surfaceRow
  cases readAnalysis surfaceIndex with
  | none => rfl
  | some d => exact addSurfaceRow_eq_addAll piecesInX d surfaceIndex y st

theorem xAxisStack_eq_addAll (readAnalysis : Nat → Option (List String))
    (totalSurfaces piecesInX piecesInY g y : Nat) :
    xAxisStack readAnalysis totalSurfaces piecesInX piecesInY g y
      = addAll ((groupSurfaces totalSurfaces piecesInX g).flatMap
          (surfaceRow readAnalysis piecesInX y))
        (StackWidget.create (stackLabel (y + g * piecesInY)) maxPiecesPerStack) := by
  unfold xAxisStack
  simp only
  rw [fillStack_eq_addAll]
  unfold groupSurfaces
  have : (g + 1) * surfacesPerGroup piecesInX
      = g * surfacesPerGroup piecesInX + surfacesPerGroup piecesInX := by ring
  rw [this]

theorem singleStep_openStack (d : List String) (surfaceIndex y x : Nat) (st : SingleState) :
    singleStep d surfaceIndex y st x
      = { openStack st with
          allStacks := updateCurrent
            (fun s => s.addPiece (surfaceIndex + 1) (pieceId x y) (hasDefect d (pieceId x y)))
            (openStack st).allStacks,
          currentPieceCount := (openStack st).currentPieceCount + 1 } := rfl

theorem singleStacks_eq_run (readAnalysis : Nat → Option (List String))
    (totalSurfaces piecesInX piecesInY : Nat) :
    singleStacks readAnalysis totalSurfaces piecesInX piecesInY
      = (singleRun (singleCalls readAnalysis totalSurfaces piecesInX piecesInY)
          { allStacks := [], currentPieceCount := 0, stackCount := 0 }).allStacks := by
  unfold singleStacks singleRun singleCalls
  rw [foldl_flatMap_eq]
  congr 2
  funext st surfaceIndex
  unfold singleSurface
  cases readAnalysis surfaceIndex with
  | none => rfl
  | some d =>
    simp only
    rw [foldl_flatMap_eq]
    congr 1
    funext st y
    rw [List.foldl_map]

theorem singleInv_run (calls : List (List String × Nat × Nat × Nat)) (st : SingleState)
    (es : List StackPieceWidget) (h : SingleInv st es) :
    SingleInv (singleRun calls st)
      (es ++ calls.map (fun c => entry c.1 c.2.1 c.2.2.2 c.2.2.1)) := by
  induction calls generalizing st es with
  | nil => simpa [singleRun] using h
  | cons c t ih =>
    have hs := singleInv_step c.1 c.2.1 c.2.2.1 c.2.2.2 st es h
    have := ih _ _ hs
    simpa [singleRun, List.append_assoc] using this

theorem openStack_target (st : SingleState) (es : List StackPieceWidget) (h : SingleInv st es) :
    ∃ init target, (openStack st).allStacks = init ++ [target] ∧
      target.maxCapacity = maxPiecesPerStack ∧ target.pieces.length < target.maxCapacity := by
  obtain ⟨_, _, hlab, hshape⟩ := h
  rcases hshape with ⟨hnil, _⟩ | ⟨init, last, hall, _, hlast, _, hle⟩
  · refine ⟨[], StackWidget.create (stackLabel (st.stackCount + 1)) maxPiecesPerStack, ?_, rfl,
      by simp [StackWidget.create, maxPiecesPerStack]⟩
    simp [openStack, hnil]
  · have hcap : last.maxCapacity = maxPiecesPerStack :=
      (hlab init.length last (by rw [hall]; simp)).2
    have hne : st.allStacks.isEmpty = false := by rw [hall]; simp
    rcases Nat.lt_or_ge st.currentPieceCount maxPiecesPerStack with hlt | hge
    · refine ⟨init, last, ?_, hcap, by rw [hcap, hlast]; exact hlt⟩
      unfold openStack
      simp only [hne, Bool.false_or, ge_iff_le, decide_eq_true_eq]
      rw [if_neg (by omega)]
      exact hall
    · refine ⟨st.allStacks,
        StackWidget.create (stackLabel (st.stackCount + 1)) maxPiecesPerStack, ?_, rfl,
        by simp [StackWidget.create, maxPiecesPerStack]⟩
      unfold openStack
      simp only [hne, Bool.false_or, ge_iff_le, decide_eq_true_eq]
      rw [if_pos hge]

/-- C23: under the per-row strategy the stack of group `g` and row `y` is the empty stack of
capacity 50 after the calls `addPiece` with the entries of the readable surfaces of the group;
there are at most 50 of them, before the call number `k` the stack holds `k` entries, fewer
than 50, and after the last it holds them all.  Under the single strategy, before each
execution of the loop body the stack that `addPiece` is called on (the last one, after a new
stack was opened if needed) holds fewer than 50 entries, and the stacks together hold every
entry that was added.  So the guard of `addPiece` is never taken, for every number of surfaces
and every grid. -/
theorem C23_capacity_guard_never_taken (readAnalysis : Nat → Option (List String))
    (totalSurfaces piecesInX piecesInY : Nat) :
    (∀ g y,
      xAxisStack readAnalysis totalSurfaces piecesInX piecesInY g y
        = addAll ((groupSurfaces totalSurfaces piecesInX g).flatMap
            (surfaceRow readAnalysis piecesInX y))
          (StackWidget.create (stackLabel (y + g * piecesInY)) maxPiecesPerStack) ∧
      ((groupSurfaces totalSurfaces piecesInX g).flatMap
          (surfaceRow readAnalysis piecesInX y)).length ≤ 50 ∧
      (∀ k, k < ((groupSurfaces totalSurfaces piecesInX g).flatMap
            (surfaceRow readAnalysis piecesInX y)).length →
        (addAll (((groupSurfaces totalSurfaces piecesInX g).flatMap
            (surfaceRow readAnalysis piecesInX y)).take k)
          (StackWidget.create (stackLabel (y + g * piecesInY)) maxPiecesPerStack)).pieces.length
          = k ∧
        k < (addAll (((groupSurfaces totalSurfaces piecesInX g).flatMap
            (surfaceRow readAnalysis piecesInX y)).take k)
          (StackWidget.create (stackLabel (y + g * piecesInY)) maxPiecesPerStack)).maxCapacity) ∧
      (xAxisStack readAnalysis totalSurfaces piecesInX piecesInY g y).pieces
        = (groupSurfaces totalSurfaces piecesInX g).flatMap
            (surfaceRow readAnalysis piecesInX y)) ∧
    (∀ st ∈ updateStackPreview true readAnalysis totalSurfaces piecesInX piecesInY,
      ∃ g y, st = xAxisStack readAnalysis totalSurfaces piecesInX piecesInY g y) ∧
    (totalSurfaces ≠ 0 → piecesInX ≠ 0 → piecesInY ≠ 0 →
      updateStackPreview false readAnalysis totalSurfaces piecesInX piecesInY
        = (singleRun (singleCalls readAnalysis totalSurfaces piecesInX piecesInY)
            { allStacks := [], currentPieceCount := 0, stackCount := 0 }).allStacks) ∧
    (∀ k, k < (singleCalls readAnalysis totalSurfaces piecesInX piecesInY).length →
      ∃ init target,
        (openStack (singleRun
            ((singleCalls readAnalysis totalSurfaces piecesInX piecesInY).take k)
            { allStacks := [], currentPieceCount := 0, stackCount := 0 })).allStacks
          = init ++ [target] ∧
        target.maxCapacity = 50 ∧ target.pieces.length < 50) ∧
    ((updateStackPreview false readAnalysis totalSurfaces piecesInX piecesInY).map
        StackWidget.pieces).flatten
      = singleEntries readAnalysis totalSurfaces piecesInX piecesInY := by
  have hlen : ∀ g y, ((groupSurfaces totalSurfaces piecesInX g).flatMap
      (surfaceRow readAnalysis piecesInX y)).length ≤ 50 := by
    intro g y
    calc ((groupSurfaces totalSurfaces piecesInX g).flatMap
          (surfaceRow readAnalysis piecesInX y)).length
        ≤ (groupSurfaces totalSurfaces piecesInX g).length * piecesInX :=
          flatMap_surfaceRow_length_le _ _ _ _
      _ ≤ surfacesPerGroup piecesInX * piecesInX :=
          Nat.mul_le_mul_right _ (groupSurfaces_length_le _ _ _)
      _ ≤ 50 := surfacesPerGroup_mul_le piecesInX
  refine ⟨?_, ?_, ?_, ?_, (single_stacks readAnalysis totalSurfaces piecesInX piecesInY).1⟩
  · intro g y
    refine ⟨xAxisStack_eq_addAll _ _ _ _ _ _, hlen g y, ?_, ?_⟩
    · intro k hk
      have hroom : (StackWidget.create (stackLabel (y + g * piecesInY))
            maxPiecesPerStack).pieces.length
          + (((groupSurfaces totalSurfaces piecesInX g).flatMap
              (surfaceRow readAnalysis piecesInX y)).take k).length
          ≤ (StackWidget.create (stackLabel (y + g * piecesInY)) maxPiecesPerStack).maxCapacity := by
        have := hlen g y
        simp only [StackWidget.create, maxPiecesPerStack, List.length_nil, List.length_take]
        omega
      rw [addAll_room _ _ hroom]
      have := hlen g y
      simp only [StackWidget.create, maxPiecesPerStack, List.nil_append, List.length_take]
      omega
    · rw [xAxisStack_eq]
  · intro st hst
    rw [updateStackPreview_xAxis, List.mem_map] at hst
    obtain ⟨k, _, rfl⟩ := hst
    exact ⟨_, _, rfl⟩
  · intro hS hx hy
    unfold updateStackPreview
    rw [if_neg (by tauto), if_neg (by decide)]
    exact singleStacks_eq_run _ _ _ _
  · intro k _
    have hinv := singleInv_run
      ((singleCalls readAnalysis totalSurfaces piecesInX piecesInY).take k) _ [] singleInv_init
    obtain ⟨init, target, h1, h2, h3⟩ := openStack_target _ _ hinv
    refine ⟨init, target, h1, h2, ?_⟩
    rw [h2] at h3
    exact h3

/-! ## Reported position and insertion index under the per-row strategy -/

theorem flatMap_range'_getElem? {β : Type} (a len n : Nat) (H : Nat → Nat → β) (j x : Nat)
    (hj : j < len) (hx : x < n) :
    ((List.range' a len).flatMap (fun s => (List.range' 1 n).map (H s)))[j * n + x]?
      = some (H (a + j) (1 + x)) := by
  have e : (List.range' a len).flatMap (fun s => (List.range' 1 n).map (H s))
      = (List.range len).flatMap (fun g => (List.range n).map (fun k => H (a + g) (1 + k))) := by
    rw [List.range'_eq_map_range, List.flatMap_map]
    apply flatMap_congr_mem
    intro g _
    rw [List.range'_eq_map_range, List.map_map]
    rfl
  rw [e, flatMap_range_map_range len n (fun g k => H (a + g) (1 + k)), List.getElem?_map,
    List.getElem?_range (by
      calc j * n + x < j * n + n := by omega
        _ = (j + 1) * n := by ring
        _ ≤ len * n := Nat.mul_le_mul_right n hj)]
  have hn : 0 < n := by omega
  have h1 : (j * n + x) / n = j := by
    rw [Nat.mul_comm, Nat.mul_add_div hn, Nat.div_eq_of_lt hx, Nat.add_zero]
  have h2 : (j * n + x) % n = x := by
    rw [Nat.mul_comm, Nat.mul_add_mod, Nat.mod_eq_of_lt hx]
  simp only [Option.map_some', h1, h2]

set_option maxRecDepth 100000 in
/-- C26 (fails as stated): with one surface cut into 4 x 1 pieces whose piece `x1y1` is
defective, the summary reports that piece at position 4 of stack 1, while the layout holds
it as first entry of stack 1; the piece `x4y1` is reported at position 1 and is the fourth
entry. -/
theorem C26_reported_position_reversed :
    summaryXAxis (fun _ => some ["x1y1", "x4y1"]) 1 4 1
      = some [{ stackNumber := 1, positionInStack := 4, surfaceNum := 1, pieceId := "x1y1" },
              { stackNumber := 1, positionInStack := 1, surfaceNum := 1, pieceId := "x4y1" }] ∧
    layoutPlaces (updateStackPreview true (fun _ => some ["x1y1", "x4y1"]) 1 4 1) 1 "x1y1"
      = [(1, 1)] ∧
    layoutPlaces (updateStackPreview true (fun _ => some ["x1y1", "x4y1"]) 1 4 1) 1 "x4y1"
      = [(1, 4)] := by
  refine ⟨by decide, by decide, by decide⟩

/-- C26 (amended): under the per-row strategy with `1 ≤ piecesInX ≤ 50` and readable analysis
files, for a surface `i` that the layout places (its group `i div surfacesPerGroup` is one of
the groups created) and a defective piece `(x, y)` of it, the layout holds the piece in the
stack numbered `y + (i div surfacesPerGroup) * piecesInY` at the 1-based insertion index
`(i mod surfacesPerGroup) * piecesInX + x`, and `updateSummaryText` reports it in that stack
at position `(i mod surfacesPerGroup) * piecesInX + (piecesInX - x + 1)`; the two numbers agree
exactly when `2 * x = piecesInX + 1`. -/
theorem C26_reported_vs_insertion (readAnalysis : Nat → Option (List String))
    (totalSurfaces piecesInX piecesInY : Nat) (h1 : 1 ≤ piecesInX) (h50 : piecesInX ≤ 50)
    (hpy : piecesInY < 2147483648)
    (hread : ∀ s, s < totalSurfaces → (readAnalysis s).isSome = true)
    (i x y : Nat) (defectPieces : List String) (hi : i < totalSurfaces)
    (hplaced : i / surfacesPerGroup piecesInX < stackGroupsNeeded totalSurfaces piecesInX)
    (hd : readAnalysis i = some defectPieces) (hmem : pieceId x y ∈ defectPieces)
    (hx1 : 1 ≤ x) (hx : x ≤ piecesInX) (hy1 : 1 ≤ y) (hy : y ≤ piecesInY) :
    (∃ st,
      (updateStackPreview true readAnalysis totalSurfaces piecesInX piecesInY)[
          i / surfacesPerGroup piecesInX * piecesInY + (y - 1)]? = some st ∧
      st.label = stackLabel (y + i / surfacesPerGroup piecesInX * piecesInY) ∧
      st.pieces[i % surfacesPerGroup piecesInX * piecesInX + x - 1]?
        = some { surfaceNum := i + 1, pieceId := pieceId x y, hasDefect := true }) ∧
    (∃ lines, summaryXAxis readAnalysis totalSurfaces piecesInX piecesInY = some lines ∧
      ∃ line ∈ lines, line.surfaceNum = i + 1 ∧ line.pieceId = pieceId x y ∧
        line.stackNumber = ((y + i / surfacesPerGroup piecesInX * piecesInY : Nat) : Int) ∧
        line.positionInStack
          = ((i % surfacesPerGroup piecesInX * piecesInX + (piecesInX - x + 1) : Nat) : Int) ∧
        (line.positionInStack
            = ((i % surfacesPerGroup piecesInX * piecesInX + x : Nat) : Int)
          ↔ 2 * x = piecesInX + 1)) := by
  have hspg1 : 1 ≤ surfacesPerGroup piecesInX := by
    unfold surfacesPerGroup maxPiecesPerStack
    exact (Nat.one_le_div_iff (by omega)).mpr h50
  have hspg : surfacesPerGroup piecesInX ≠ 0 := by omega
  have hspgdef : surfacesPerGroup piecesInX = 50 / piecesInX := rfl
  constructor
  · refine ⟨_, updateStackPreview_xAxis_getElem? readAnalysis totalSurfaces piecesInX piecesInY
      (i / surfacesPerGroup piecesInX) y hplaced hy1 hy, xAxisStack_label _ _ _ _ _ _, ?_⟩
    rw [xAxisStack_of_readable readAnalysis totalSurfaces piecesInX piecesInY _ y hread]
    show (List.flatMap _ _)[i % surfacesPerGroup piecesInX * piecesInX + x - 1]? = _
    have hidx : i % surfacesPerGroup piecesInX * piecesInX + x - 1
        = i % surfacesPerGroup piecesInX * piecesInX + (x - 1) := by omega
    have hmod : i % surfacesPerGroup piecesInX < surfacesPerGroup piecesInX :=
      Nat.mod_lt _ (by omega)
    have hdm : i / surfacesPerGroup piecesInX * surfacesPerGroup piecesInX
        + i % surfacesPerGroup piecesInX = i := by
      rw [Nat.mul_comm]
      exact Nat.div_add_mod i _
    have hsucc : (i / surfacesPerGroup piecesInX + 1) * surfacesPerGroup piecesInX
        = i / surfacesPerGroup piecesInX * surfacesPerGroup piecesInX
          + surfacesPerGroup piecesInX := by ring
    rw [hidx, flatMap_range'_getElem? _ _ piecesInX
      (fun s x => entry ((readAnalysis s).getD []) s x y) (i % surfacesPerGroup piecesInX)
      (x - 1) (by omega) (by omega)]
    simp only [hdm, hd, Option.getD_some]
    have hx' : 1 + (x - 1) = x := by omega
    rw [hx']
    unfold entry
    rw [(hasDefect_iff defectPieces (pieceId x y)).mpr hmem]
  · obtain ⟨lines, hsum, hflat⟩ :=
      summaryXAxis_spec readAnalysis totalSurfaces piecesInX piecesInY h1 h50
    refine ⟨lines, hsum, ?_⟩
    have hline := xAxisDefectLine_pieceId piecesInX piecesInY (50 / piecesInX) i x y
      (by rw [← hspgdef]; exact hspg) (by omega) (by omega)
    have hin : xAxisDefectLine piecesInX piecesInY (50 / piecesInX) i (pieceId x y)
        ∈ lines.map some := by
      rw [← hflat, List.mem_flatMap]
      refine ⟨i, List.mem_range.mpr hi, ?_⟩
      rw [hd, Option.getD_some]
      exact List.mem_map_of_mem _ hmem
    rw [hline] at hin
    rw [List.mem_map] at hin
    obtain ⟨line, hmem2, heq⟩ := hin
    have hl := Option.some.inj heq
    subst hl
    refine ⟨_, hmem2, rfl, rfl, ?_, ?_, ?_⟩
    · show (y : Int) + ((i / (50 / piecesInX) : Nat) : Int) * piecesInY = _
      rw [hspgdef]
      push_cast
      ring
    · show ((i % (50 / piecesInX) : Nat) : Int) * piecesInX + ((piecesInX : Int) - x + 1) = _
      rw [hspgdef]
      push_cast [Nat.cast_sub hx]
      ring
    · show ((i % (50 / piecesInX) : Nat) : Int) * piecesInX + ((piecesInX : Int) - x + 1) = _ ↔ _
      rw [hspgdef]
      push_cast
      constructor
      · intro h
        omega
      · intro h
        omega

/-! ## Validity of a capture sequence -/

theorem qToIntOk_digits (l : List Char) (hne : l ≠ []) (h : ∀ c ∈ l, c.isDigit = true)
    (hv : decValue l < 2147483648) : qToIntOk l = some (decValue l : Int) := by
  unfold qToIntOk
  have hrev : ∀ c ∈ l.reverse, c.isDigit = true := fun c hc => h c (List.mem_reverse.mp hc)
  rw [dropWhile_isWhitespace_digits l h, dropWhile_isWhitespace_digits l.reverse hrev,
    List.reverse_reverse]
  cases l with
  | nil => exact absurd rfl hne
  | cons a t =>
    have ha := isDigit_not_special a (h a (List.mem_cons_self _ _))
    have hall : (a :: t).all Char.isDigit = true := by
      rw [List.all_eq_true]; exact h
    simp only [List.head?_cons, Option.some.injEq, ha.2.1, ha.2.2.1, or_self, if_false, hall]
    simp only [reduceCtorEq, Bool.true_eq_false, or_self, if_false]
    rw [if_neg]
    omega

theorem qToIntOk_toString (n : Nat) (h : n < 2147483648) :
    qToIntOk (toString n).data = some (n : Int) := by
  obtain ⟨hne, hdig, hval⟩ := toString_nat_spec n
  rw [qToIntOk_digits _ hne hdig (by rw [hval]; exact h), hval]

/-- The loop of `isSequenceValid` runs to its end exactly when every text is a number between 1
and `total` that none of the earlier texts gave; the set then holds these numbers. -/
theorem foldlM_sequenceStep (total : Nat) (texts : List String) (ns0 ns : List Int) :
    texts.foldlM (CaptureSettingsDialog.sequenceStep total) ns0 = some ns ↔
      ∃ values : List Int, texts.map (fun t => qToIntOk t.data) = values.map some ∧
        ns = values.reverse ++ ns0 ∧ (∀ v ∈ values, 1 ≤ v ∧ v ≤ (total : Int)) ∧
        values.Nodup ∧ (∀ v ∈ values, v ∉ ns0) := by
  induction texts generalizing ns0 with
  | nil =>
    simp only [List.foldlM_nil, List.map_nil]
    constructor
    · intro h
      refine ⟨[], rfl, ?_, by simp, List.nodup_nil, by simp⟩
      have : ns0 = ns := Option.some.inj h
      simp [this]
    · rintro ⟨values, hmap, hns, -, -, -⟩
      have hv : values = [] := by
        cases values with
        | nil => rfl
        | cons a t => simp at hmap
      subst hv
      simp at hns
      rw [hns]; rfl
  | cons t ts ih =>
    rw [List.foldlM_cons]
    cases hp : qToIntOk t.data with
    | none =>
      have hs : CaptureSettingsDialog.sequenceStep total ns0 t = none := by
        simp only [CaptureSettingsDialog.sequenceStep, hp]
      rw [hs]
      simp only [Option.bind_eq_bind, Option.none_bind, List.map_cons, hp]
      constructor
      · intro h; exact absurd h (by simp)
      · rintro ⟨values, hmap, -⟩
        cases values with
        | nil => simp at hmap
        | cons a t => simp at hmap
    | some num =>
      simp only [List.map_cons, hp]
      by_cases hc : num < 1 ∨ num > (total : Int) ∨ ns0.contains num = true
      · have hs : CaptureSettingsDialog.sequenceStep total ns0 t = none := by
          simp only [CaptureSettingsDialog.sequenceStep, hp]
          rw [if_pos hc]
        rw [hs]
        simp only [Option.bind_eq_bind, Option.none_bind]
        constructor
        · intro h; exact absurd h (by simp)
        · rintro ⟨values, hmap, -, hrange, -, hnot⟩
          exfalso
          cases values with
          | nil => simp at hmap
          | cons a vs =>
            simp only [List.map_cons, List.cons.injEq, Option.some.injEq] at hmap
            have ha : a = num := hmap.1.symm
            subst ha
            have hr := hrange a (List.mem_cons_self _ _)
            have hn := hnot a (List.mem_cons_self _ _)
            rcases hc with hc | hc | hc
            · omega
            · omega
            · have hm : a ∈ ns0 := by simpa using hc
              exact hn hm
      · have hs : CaptureSettingsDialog.sequenceStep total ns0 t = some (ns0.insert num) := by
          simp only [CaptureSettingsDialog.sequenceStep, hp]
          rw [if_neg hc]
        rw [hs]
        simp only [not_or, not_lt, gt_iff_lt, Bool.not_eq_true] at hc
        obtain ⟨hc1, hc2, hc3⟩ := hc
        have hnot0 : num ∉ ns0 := by
          intro hm
          have : ns0.contains num = true := by simpa using hm
          rw [this] at hc3
          exact absurd hc3 (by simp)
        simp only [Option.bind_eq_bind, Option.some_bind]
        rw [List.insert_of_not_mem hnot0, ih (num :: ns0)]
        constructor
        · rintro ⟨values, hmap, hns, hrange, hnd, hnot⟩
          refine ⟨num :: values, by simp [hmap], by simp [hns], ?_, ?_, ?_⟩
          · intro v hv
            rcases List.mem_cons.mp hv with rfl | hv
            · exact ⟨hc1, hc2⟩
            · exact hrange v hv
          · rw [List.nodup_cons]
            refine ⟨?_, hnd⟩
            intro hm
            exact hnot num hm (List.mem_cons_self _ _)
          · intro v hv
            rcases List.mem_cons.mp hv with rfl | hv
            · exact hnot0
            · intro hm
              exact hnot v hv (List.mem_cons_of_mem _ hm)
        · rintro ⟨values, hmap, hns, hrange, hnd, hnot⟩
          cases values with
          | nil => simp at hmap
          | cons a vs =>
            simp only [List.map_cons, List.cons.injEq, Option.some.injEq] at hmap
            have ha : a = num := hmap.1.symm
            subst ha
            rw [List.nodup_cons] at hnd
            refine ⟨vs, hmap.2, by simp [hns], ?_, hnd.2, ?_⟩
            · intro v hv
              exact hrange v (List.mem_cons_of_mem _ hv)
            · intro v hv hm
              rcases List.mem_cons.mp hm with rfl | hm
              · exact hnd.1 hv
              · exact hnot v (List.mem_cons_of_mem _ hv) hm

theorem isSequenceValid_iff (imagesInX imagesInY : Nat) (sequenceInputs : List String) :
    CaptureSettingsDialog.isSequenceValid imagesInX imagesInY sequenceInputs = true ↔
      ∃ values : List Int, sequenceInputs.map (fun t => qToIntOk t.data) = values.map some ∧
        (∀ v ∈ values, 1 ≤ v ∧ v ≤ ((imagesInX * imagesInY : Nat) : Int)) ∧ values.Nodup ∧
        values.length = imagesInX * imagesInY := by
  unfold CaptureSettingsDialog.isSequenceValid
  simp only
  cases hf : sequenceInputs.foldlM
      (CaptureSettingsDialog.sequenceStep (imagesInX * imagesInY)) [] with
  | none =>
    simp only [Bool.false_eq_true, false_iff]
    rintro ⟨values, hmap, hrange, hnd, -⟩
    have := (foldlM_sequenceStep (imagesInX * imagesInY) sequenceInputs [] values.reverse).mpr
      ⟨values, hmap, by simp, hrange, hnd, by simp⟩
    rw [hf] at this
    exact absurd this (by simp)
  | some ns =>
    obtain ⟨values, hmap, hns, hrange, hnd, -⟩ :=
      (foldlM_sequenceStep (imagesInX * imagesInY) sequenceInputs [] ns).mp hf
    simp only [beq_iff_eq]
    have hlen : ns.length = values.length := by simp [hns]
    constructor
    · intro h
      exact ⟨values, hmap, hrange, hnd, by omega⟩
    · rintro ⟨values2, hmap2, -, -, hl2⟩
      have : values.map some = values2.map some := by rw [← hmap, ← hmap2]
      have hl := congrArg List.length this
      simp only [List.length_map] at hl
      omega

/-- A list of integers consists of pairwise distinct numbers between 1 and `n`, `n` of them,
exactly when it is a permutation of `1 .. n`. -/
theorem perm_range_iff (n : Nat) (values : List Int) :
    ((∀ v ∈ values, 1 ≤ v ∧ v ≤ (n : Int)) ∧ values.Nodup ∧ values.length = n) ↔
      values.Perm ((List.range' 1 n).map (fun k : Nat => (k : Int))) := by
  constructor
  · rintro ⟨hrange, hnd, hlen⟩
    have hsub : values ⊆ (List.range' 1 n).map (fun k : Nat => (k : Int)) := by
      intro v hv
      obtain ⟨h1, h2⟩ := hrange v hv
      rw [List.mem_map]
      refine ⟨v.toNat, ?_, by omega⟩
      rw [List.mem_range'_1]
      omega
    exact (List.subperm_of_subset hnd hsub).perm_of_length_le (by simp [hlen])
  · intro hp
    refine ⟨?_, ?_, ?_⟩
    · intro v hv
      have := hp.subset hv
      rw [List.mem_map] at this
      obtain ⟨k, hk, rfl⟩ := this
      rw [List.mem_range'_1] at hk
      omega
    · rw [hp.nodup_iff]
      exact (List.nodup_range' 1 n).map (fun a b h => by exact_mod_cast h)
    · rw [hp.length_eq]
      simp

theorem foldlM_collectStep (texts : List String) (ns0 ns : List Int) :
    texts.foldlM MotorizedCaptureSettingsDialog.collectStep ns0 = some ns ↔
      ∃ values : List Int, texts.map (fun t => qToIntOk t.data) = values.map some ∧
        ns = ns0 ++ values ∧ (∀ v ∈ values, 1 ≤ v ∧ v ≤ 16) := by
  induction texts generalizing ns0 with
  | nil =>
    simp only [List.foldlM_nil, List.map_nil]
    constructor
    · intro h
      have : ns0 = ns := Option.some.inj h
      exact ⟨[], rfl, by simp [this], by simp⟩
    · rintro ⟨values, hmap, hns, -⟩
      have hv : values = [] := by
        cases values with
        | nil => rfl
        | cons a t => simp at hmap
      subst hv
      simp at hns
      rw [hns]; rfl
  | cons t ts ih =>
    rw [List.foldlM_cons]
    cases hp : qToIntOk t.data with
    | none =>
      have hs : MotorizedCaptureSettingsDialog.collectStep ns0 t = none := by
        simp only [MotorizedCaptureSettingsDialog.collectStep, hp]
      rw [hs]
      simp only [Option.bind_eq_bind, Option.none_bind, List.map_cons, hp]
      constructor
      · intro h; exact absurd h (by simp)
      · rintro ⟨values, hmap, -⟩
        cases values with
        | nil => simp at hmap
        | cons a t => simp at hmap
    | some num =>
      simp only [List.map_cons, hp]
      by_cases hc : num < 1 ∨ num > 16
      · have hs : MotorizedCaptureSettingsDialog.collectStep ns0 t = none := by
          simp only [MotorizedCaptureSettingsDialog.collectStep, hp]
          rw [if_pos hc]
        rw [hs]
        simp only [Option.bind_eq_bind, Option.none_bind]
        constructor
        · intro h; exact absurd h (by simp)
        · rintro ⟨values, hmap, -, hrange⟩
          exfalso
          cases values with
          | nil => simp at hmap
          | cons a vs =>
            simp only [List.map_cons, List.cons.injEq, Option.some.injEq] at hmap
            have ha : a = num := hmap.1.symm
            subst ha
            have hr := hrange a (List.mem_cons_self _ _)
            omega
      · have hs : MotorizedCaptureSettingsDialog.collectStep ns0 t = some (ns0 ++ [num]) := by
          simp only [MotorizedCaptureSettingsDialog.collectStep, hp]
          rw [if_neg hc]
        rw [hs]
        simp only [Option.bind_eq_bind, Option.some_bind]
        rw [ih (ns0 ++ [num])]
        constructor
        · rintro ⟨values, hmap, hns, hrange⟩
          refine ⟨num :: values, by simp [hmap], by simp [hns], ?_⟩
          intro v hv
          rcases List.mem_cons.mp hv with rfl | hv
          · omega
          · exact hrange v hv
        · rintro ⟨values, hmap, hns, hrange⟩
          cases values with
          | nil => simp at hmap
          | cons a vs =>
            simp only [List.map_cons, List.cons.injEq, Option.some.injEq] at hmap
            have ha : a = num := hmap.1.symm
            subst ha
            exact ⟨vs, hmap.2, by simp [hns], fun v hv => hrange v (List.mem_cons_of_mem _ hv)⟩

theorem dedup_length_eq_iff (l : List Int) : l.dedup.length = l.length ↔ l.Nodup := by
  constructor
  · intro h
    have := (List.dedup_sublist l).eq_of_length h
    rw [← this]
    exact List.nodup_dedup l
  · intro h
    rw [List.dedup_eq_self.mpr h]

theorem validateSequence_iff (sequenceInputs : List String) (hlen : sequenceInputs.length = 16) :
    MotorizedCaptureSettingsDialog.validateSequence sequenceInputs = true ↔
      ∃ values : List Int, sequenceInputs.map (fun t => qToIntOk t.data) = values.map some ∧
        (∀ v ∈ values, 1 ≤ v ∧ v ≤ ((16 : Nat) : Int)) ∧ values.Nodup ∧ values.length = 16 := by
  unfold MotorizedCaptureSettingsDialog.validateSequence
  cases hf : sequenceInputs.foldlM MotorizedCaptureSettingsDialog.collectStep [] with
  | none =>
    simp only [Bool.false_eq_true, false_iff]
    rintro ⟨values, hmap, hrange, -, -⟩
    have := (foldlM_collectStep sequenceInputs [] values).mpr
      ⟨values, hmap, by simp, fun v hv => by have := hrange v hv; omega⟩
    rw [hf] at this
    exact absurd this (by simp)
  | some ns =>
    obtain ⟨values, hmap, hns, hrange⟩ := (foldlM_collectStep sequenceInputs [] ns).mp hf
    simp only [List.nil_append] at hns
    subst hns
    have hl : ns.length = 16 := by
      have := congrArg List.length hmap
      simp only [List.length_map] at this
      omega
    simp only [ne_eq, ite_not]
    constructor
    · intro h
      have h16 : ns.dedup.length = 16 := by
        by_contra hne
        rw [if_neg hne] at h
        exact absurd h (by simp)
      refine ⟨ns, hmap, fun v hv => by have := hrange v hv; omega, ?_, hl⟩
      exact (dedup_length_eq_iff ns).mp (by omega)
    · rintro ⟨values2, hmap2, -, hnd, -⟩
      have hinj : ns = values2 := by
        have : ns.map some = values2.map some := by rw [← hmap, ← hmap2]
        exact List.map_injective_iff.mpr (Option.some_injective _) this
      subst hinj
      rw [if_pos (by rw [(dedup_length_eq_iff ns).mpr hnd]; exact hl)]

/-- C21: `isSequenceValid` returns true exactly when every field is a number and the numbers
entered are a permutation of `1 .. N`, `N = imagesInX * imagesInY`, that is pairwise distinct
numbers between 1 and `N`, `N` of them; so it returns false when a field is no number, a
number is below 1 or above `N`, or a number occurs twice.  On its 16 fields
`validateSequence` of the motorized dialog accepts exactly the permutations of `1 .. 16`. -/
theorem C21_sequence_valid_iff_permutation (imagesInX imagesInY : Nat)
    (sequenceInputs : List String) :
    (CaptureSettingsDialog.isSequenceValid imagesInX imagesInY sequenceInputs = true ↔
      ∃ values : List Int, sequenceInputs.map (fun t => qToIntOk t.data) = values.map some ∧
        values.Perm ((List.range' 1 (imagesInX * imagesInY)).map (fun k : Nat => (k : Int)))) ∧
    (CaptureSettingsDialog.isSequenceValid imagesInX imagesInY sequenceInputs = true ↔
      ∃ values : List Int, sequenceInputs.map (fun t => qToIntOk t.data) = values.map some ∧
        (∀ v ∈ values, 1 ≤ v ∧ v ≤ ((imagesInX * imagesInY : Nat) : Int)) ∧ values.Nodup ∧
        values.length = imagesInX * imagesInY) ∧
    ((none ∈ sequenceInputs.map (fun t => qToIntOk t.data) ∨
        (∃ v : Int, some v ∈ sequenceInputs.map (fun t => qToIntOk t.data) ∧
          (v < 1 ∨ ((imagesInX * imagesInY : Nat) : Int) < v)) ∨
        ¬ (sequenceInputs.map (fun t => qToIntOk t.data)).Nodup) →
      CaptureSettingsDialog.isSequenceValid imagesInX imagesInY sequenceInputs = false) ∧
    (sequenceInputs.length = 16 →
      (MotorizedCaptureSettingsDialog.validateSequence sequenceInputs = true ↔
        ∃ values : List Int, sequenceInputs.map (fun t => qToIntOk t.data) = values.map some ∧
          values.Perm ((List.range' 1 16).map (fun k : Nat => (k : Int))))) := by
  refine ⟨?_, isSequenceValid_iff imagesInX imagesInY sequenceInputs, ?_, ?_⟩
  · rw [isSequenceValid_iff]
    constructor
    · rintro ⟨values, hmap, h⟩
      exact ⟨values, hmap, (perm_range_iff _ values).mp h⟩
    · rintro ⟨values, hmap, h⟩
      exact ⟨values, hmap, (perm_range_iff _ values).mpr h⟩
  · intro hbad
    cases hv : CaptureSettingsDialog.isSequenceValid imagesInX imagesInY sequenceInputs with
    | false => rfl
    | true =>
      exfalso
      obtain ⟨values, hmap, hrange, hnd, -⟩ := (isSequenceValid_iff _ _ _).mp hv
      rw [hmap] at hbad
      rcases hbad with h | ⟨v, hin, hout⟩ | h
      · simp at h
      · rw [List.mem_map] at hin
        obtain ⟨w, hw, hwv⟩ := hin
        have : w = v := Option.some.inj hwv
        subst this
        have := hrange w hw
        omega
      · exact h (hnd.map (Option.some_injective _))
  · intro hlen
    rw [validateSequence_iff sequenceInputs hlen]
    constructor
    · rintro ⟨values, hmap, h⟩
      exact ⟨values, hmap, (perm_range_iff 16 values).mp h⟩
    · rintro ⟨values, hmap, h⟩
      exact ⟨values, hmap, (perm_range_iff 16 values).mpr h⟩

/-! ## The default capture sequence -/

theorem setCell_shape (xCount yCount : Nat) (g : List (List Nat)) (y x v : Nat)
    (h : GridShape xCount yCount g) : GridShape xCount yCount (setCell g y x v) := by
  obtain ⟨hl, hrows⟩ := h
  refine ⟨by rw [setCell, List.length_modify]; exact hl, ?_⟩
  intro i row hrow
  rw [setCell, List.getElem?_modify] at hrow
  cases hg : g[i]? with
  | none => rw [hg] at hrow; simp at hrow
  | some r =>
    rw [hg] at hrow
    simp only [Option.map_eq_map, Option.map_some', Option.some.injEq] at hrow
    rw [← hrow]
    by_cases hyi : y = i
    · rw [if_pos hyi, List.length_set]; exact hrows i r hg
    · rw [if_neg hyi]; exact hrows i r hg

theorem cellValue_setCell (xCount yCount : Nat) (g : List (List Nat)) (y x v y2 x2 : Nat)
    (h : GridShape xCount yCount g) (hy : y < yCount) (hx : x < xCount) :
    cellValue (setCell g y x v) y2 x2 = if y2 = y ∧ x2 = x then v else cellValue g y2 x2 := by
  obtain ⟨hl, hrows⟩ := h
  unfold cellValue setCell
  rw [List.getD_eq_getElem?_getD, List.getD_eq_getElem?_getD, List.getD_eq_getElem?_getD,
    List.getD_eq_getElem?_getD, List.getElem?_modify]
  by_cases hyy : y2 = y
  · subst hyy
    have hlt : y2 < g.length := by omega
    have hg : g[y2]? = some g[y2] := List.getElem?_eq_getElem hlt
    have hrl : (g[y2]).length = xCount := hrows y2 _ hg
    rw [hg]
    simp only [Option.map_eq_map, Option.map_some', if_true, Option.getD_some, true_and]
    rw [List.getElem?_set]
    by_cases hxx : x2 = x
    · subst hxx
      simp [hrl, hx]
    · have : ¬ x = x2 := fun e => hxx e.symm
      rw [if_neg this, if_neg hxx]
  · have : ¬ y = y2 := fun e => hyy e.symm
    rw [if_neg (by tauto)]
    cases hg : g[y2]? with
    | none => simp
    | some r => simp [this]

theorem foldl_columnStep (xCount yCount x : Nat) (hx : x < xCount) (ys : List Nat) :
    ∀ (g : List (List Nat)) (n : Nat), GridShape xCount yCount g → ys.Nodup →
      (∀ y ∈ ys, y < yCount) →
      (ys.foldl (CaptureSettingsDialog.columnStep x) (g, n)).2 = n + ys.length ∧
      GridShape xCount yCount (ys.foldl (CaptureSettingsDialog.columnStep x) (g, n)).1 ∧
      (∀ k y, ys[k]? = some y →
        cellValue (ys.foldl (CaptureSettingsDialog.columnStep x) (g, n)).1 y x = n + k) ∧
      (∀ y2 x2, (x2 ≠ x ∨ y2 ∉ ys) →
        cellValue (ys.foldl (CaptureSettingsDialog.columnStep x) (g, n)).1 y2 x2
          = cellValue g y2 x2) := by
  induction ys with
  | nil =>
    intro g n hs _ _
    refine ⟨rfl, hs, ?_, ?_⟩
    · intro k y hk; simp at hk
    · intro y2 x2 _; rfl
  | cons y t ih =>
    intro g n hs hnd hlt
    rw [List.nodup_cons] at hnd
    have hy : y < yCount := hlt y (List.mem_cons_self _ _)
    have hs1 := setCell_shape xCount yCount g y x n hs
    obtain ⟨h1, h2, h3, h4⟩ := ih (setCell g y x n) (n + 1) hs1 hnd.2
      (fun z hz => hlt z (List.mem_cons_of_mem _ hz))
    have hfold : (y :: t).foldl (CaptureSettingsDialog.columnStep x) (g, n)
        = t.foldl (CaptureSettingsDialog.columnStep x) (setCell g y x n, n + 1) := rfl
    rw [hfold]
    refine ⟨by rw [h1, List.length_cons]; omega, h2, ?_, ?_⟩
    · intro k z hk
      cases k with
      | zero =>
        simp only [List.getElem?_cons_zero, Option.some.injEq] at hk
        subst hk
        rw [h4 y x (Or.inr hnd.1), cellValue_setCell xCount yCount g y x n y x hs hy hx]
        simp
      | succ k =>
        simp only [List.getElem?_cons_succ] at hk
        rw [h3 k z hk]
        omega
    · intro y2 x2 hcond
      have hc2 : x2 ≠ x ∨ y2 ∉ t := by
        rcases hcond with h | h
        · exact Or.inl h
        · exact Or.inr (fun hm => h (List.mem_cons_of_mem _ hm))
      rw [h4 y2 x2 hc2, cellValue_setCell xCount yCount g y x n y2 x2 hs hy hx]
      have : ¬ (y2 = y ∧ x2 = x) := by
        rintro ⟨e1, e2⟩
        rcases hcond with h | h
        · exact h e2
        · exact h (by rw [e1]; exact List.mem_cons_self _ _)
      rw [if_neg this]

theorem fillColumn_spec (xCount yCount x : Nat) (hx : x < xCount) (g : List (List Nat))
    (n : Nat) (hs : GridShape xCount yCount g) :
    (CaptureSettingsDialog.fillColumn yCount (g, n) x).2 = n + yCount ∧
    GridShape xCount yCount (CaptureSettingsDialog.fillColumn yCount (g, n) x).1 ∧
    (∀ y, y < yCount →
      cellValue (CaptureSettingsDialog.fillColumn yCount (g, n) x).1 y x
        = n + (if x % 2 = 0 then yCount - 1 - y else y)) ∧
    (∀ y2 x2, x2 ≠ x →
      cellValue (CaptureSettingsDialog.fillColumn yCount (g, n) x).1 y2 x2
        = cellValue g y2 x2) := by
  unfold CaptureSettingsDialog.fillColumn
  by_cases hpar : x % 2 = 0
  · rw [if_pos hpar]
    obtain ⟨h1, h2, h3, h4⟩ := foldl_columnStep xCount yCount x hx (List.range yCount).reverse g n
      hs (List.nodup_reverse.mpr (List.nodup_range yCount))
      (fun y hy => List.mem_range.mp (List.mem_reverse.mp hy))
    refine ⟨by rw [h1, List.length_reverse, List.length_range], h2, ?_, ?_⟩
    · intro y hy
      rw [if_pos hpar]
      apply h3 (yCount - 1 - y) y
      rw [List.getElem?_reverse (by rw [List.length_range]; omega), List.length_range,
        List.getElem?_range (by omega)]
      congr 1
      omega
    · intro y2 x2 hne
      exact h4 y2 x2 (Or.inl hne)
  · rw [if_neg hpar]
    obtain ⟨h1, h2, h3, h4⟩ := foldl_columnStep xCount yCount x hx (List.range yCount) g n
      hs (List.nodup_range yCount) (fun y hy => List.mem_range.mp hy)
    refine ⟨by rw [h1, List.length_range], h2, ?_, ?_⟩
    · intro y hy
      rw [if_neg hpar]
      exact h3 y y (List.getElem?_range hy)
    · intro y2 x2 hne
      exact h4 y2 x2 (Or.inl hne)

theorem replicate_shape (xCount yCount : Nat) :
    GridShape xCount yCount (List.replicate yCount (List.replicate xCount 0)) := by
  refine ⟨List.length_replicate _ _, ?_⟩
  intro i row h
  have hm : row ∈ List.replicate yCount (List.replicate xCount 0) := List.mem_iff_getElem?.mpr ⟨i, h⟩
  rw [List.mem_replicate] at hm
  rw [hm.2, List.length_replicate]

theorem foldl_fillColumn (xCount yCount m : Nat) (hm : m ≤ xCount) :
    ((List.range m).foldl (CaptureSettingsDialog.fillColumn yCount)
        (List.replicate yCount (List.replicate xCount 0), 1)).2 = m * yCount + 1 ∧
    GridShape xCount yCount ((List.range m).foldl (CaptureSettingsDialog.fillColumn yCount)
        (List.replicate yCount (List.replicate xCount 0), 1)).1 ∧
    (∀ y x, y < yCount → x < m →
      cellValue ((List.range m).foldl (CaptureSettingsDialog.fillColumn yCount)
        (List.replicate yCount (List.replicate xCount 0), 1)).1 y x = serpentine yCount y x) := by
  induction m with
  | zero =>
    refine ⟨by simp, replicate_shape xCount yCount, ?_⟩
    intro y x _ hx
    omega
  | succ m ih =>
    obtain ⟨h1, h2, h3⟩ := ih (by omega)
    rw [List.range_succ, List.foldl_append, List.foldl_cons, List.foldl_nil]
    generalize hst : (List.range m).foldl (CaptureSettingsDialog.fillColumn yCount)
        (List.replicate yCount (List.replicate xCount 0), 1) = st at h1 h2 h3
    obtain ⟨g, n⟩ := st
    simp only at h1 h2 h3
    obtain ⟨f1, f2, f3, f4⟩ := fillColumn_spec xCount yCount m (by omega) g n h2
    refine ⟨?_, f2, ?_⟩
    · rw [f1, h1]; ring
    · intro y x hy hx
      by_cases hxm : x = m
      · subst hxm
        rw [f3 y hy, h1]
        unfold serpentine
        by_cases hpar : x % 2 = 0
        · rw [if_pos hpar, if_pos hpar]; omega
        · rw [if_neg hpar, if_neg hpar]; omega
      · rw [f4 y x hxm]
        exact h3 y x hy (by omega)

theorem defaultGrid_cell (xCount yCount y x : Nat) (hy : y < yCount) (hx : x < xCount) :
    cellValue (CaptureSettingsDialog.defaultGrid xCount yCount) y x = serpentine yCount y x :=
  (foldl_fillColumn xCount yCount xCount (le_refl _)).2.2 y x hy hx

theorem foldl_set_range {α : Type} (F : Nat → α) (init : List α) (m : Nat)
    (hm : m ≤ init.length) :
    (List.range m).foldl (fun l k => l.set k (F k)) init
      = (List.range m).map F ++ init.drop m := by
  induction m with
  | zero => simp
  | succ m ih =>
    rw [List.range_succ, List.foldl_append, ih (by omega), List.foldl_cons, List.foldl_nil,
      List.set_append_right _ _ (by simp), List.length_map, List.length_range, Nat.sub_self,
      List.drop_eq_getElem_cons (by omega), List.set_cons_zero, List.map_append, List.map_cons,
      List.map_nil, List.append_assoc, List.singleton_append]

theorem generateDefaultSequence_eq (xCount yCount : Nat) (sequenceInputs : List String)
    (hlen : sequenceInputs.length = xCount * yCount) :
    CaptureSettingsDialog.generateDefaultSequence xCount yCount sequenceInputs
      = ((List.range (yCount * xCount)).map
          (fun k => serpentine yCount (k / xCount) (k % xCount))).map toString := by
  unfold CaptureSettingsDialog.generateDefaultSequence
  simp only
  have h1 : (List.range yCount).foldl
      (fun inputs y => (List.range xCount).foldl
        (fun inputs x => inputs.set (y * xCount + x)
          (toString (cellValue (CaptureSettingsDialog.defaultGrid xCount yCount) y x)))
        inputs) sequenceInputs
      = ((List.range yCount).flatMap
          (fun y => (List.range xCount).map (fun x => (y, x)))).foldl
        (fun inputs p => inputs.set (p.1 * xCount + p.2)
          (toString (cellValue (CaptureSettingsDialog.defaultGrid xCount yCount) p.1 p.2)))
        sequenceInputs := by
    rw [foldl_flatMap_eq]
    congr 1
    funext inputs y
    rw [List.foldl_map]
  rw [h1, flatMap_range_map_range yCount xCount (fun y x => (y, x)), List.foldl_map]
  have h2 : ∀ (l : List Nat) (init : List String), (∀ k ∈ l, k < yCount * xCount) →
      l.foldl (fun inputs k => inputs.set (k / xCount * xCount + k % xCount)
          (toString (cellValue (CaptureSettingsDialog.defaultGrid xCount yCount)
            (k / xCount) (k % xCount)))) init
        = l.foldl (fun inputs k => inputs.set k
            (toString (serpentine yCount (k / xCount) (k % xCount)))) init := by
    intro l
    induction l with
    | nil => intro init _; rfl
    | cons k t ih =>
      intro init hk
      have hk0 : k < yCount * xCount := hk k (List.mem_cons_self _ _)
      have hx0 : 0 < xCount := by
        rcases Nat.eq_zero_or_pos xCount with h | h
        · rw [h] at hk0; omega
        · exact h
      have e1 : k / xCount * xCount + k % xCount = k := by
        rw [Nat.mul_comm]; exact Nat.div_add_mod k xCount
      have e2 : cellValue (CaptureSettingsDialog.defaultGrid xCount yCount)
          (k / xCount) (k % xCount) = serpentine yCount (k / xCount) (k % xCount) :=
        defaultGrid_cell xCount yCount _ _ ((Nat.div_lt_iff_lt_mul hx0).mpr hk0)
          (Nat.mod_lt _ hx0)
      rw [List.foldl_cons, List.foldl_cons, e1, e2]
      exact ih _ (fun j hj => hk j (List.mem_cons_of_mem _ hj))
  rw [h2 _ _ (fun k hk => List.mem_range.mp hk),
    foldl_set_range (fun k => toString (serpentine yCount (k / xCount) (k % xCount)))
      sequenceInputs (yCount * xCount) (by rw [hlen, Nat.mul_comm]),
    List.drop_of_length_le (by rw [hlen, Nat.mul_comm]), List.append_nil, List.map_map]
  rfl

theorem serpentine_range (xCount yCount y x : Nat) (hy : y < yCount) (hx : x < xCount) :
    x * yCount + 1 ≤ serpentine yCount y x ∧ serpentine yCount y x ≤ x * yCount + yCount ∧
    x * yCount + yCount ≤ xCount * yCount := by
  have hmul : (x + 1) * yCount ≤ xCount * yCount := Nat.mul_le_mul_right _ hx
  have hexp : (x + 1) * yCount = x * yCount + yCount := by ring
  rw [hexp] at hmul
  unfold serpentine
  generalize x * yCount = p at hmul ⊢
  generalize xCount * yCount = q at hmul ⊢
  split <;> omega

theorem serpentine_cell_inj (xCount yCount y x y2 x2 : Nat) (hy : y < yCount)
    (hx : x < xCount) (hy2 : y2 < yCount) (hx2 : x2 < xCount)
    (h : serpentine yCount y x = serpentine yCount y2 x2) : y = y2 ∧ x = x2 := by
  have r1 := serpentine_range xCount yCount y x hy hx
  have r2 := serpentine_range xCount yCount y2 x2 hy2 hx2
  have hcol : x = x2 := by
    rcases Nat.lt_trichotomy x x2 with hlt | heq | hgt
    · exfalso
      have hmul : (x + 1) * yCount ≤ x2 * yCount := Nat.mul_le_mul_right _ hlt
      have hexp : (x + 1) * yCount = x * yCount + yCount := by ring
      rw [hexp] at hmul
      omega
    · exact heq
    · exfalso
      have hmul : (x2 + 1) * yCount ≤ x * yCount := Nat.mul_le_mul_right _ hgt
      have hexp : (x2 + 1) * yCount = x2 * yCount + yCount := by ring
      rw [hexp] at hmul
      omega
  subst hcol
  refine ⟨?_, rfl⟩
  unfold serpentine at h
  generalize x * yCount = p at h
  split at h <;> omega

theorem serpentine_bounds (xCount yCount k : Nat) (hk : k < yCount * xCount) :
    1 ≤ serpentine yCount (k / xCount) (k % xCount) ∧
    serpentine yCount (k / xCount) (k % xCount) ≤ xCount * yCount := by
  have hx0 : 0 < xCount := by
    rcases Nat.eq_zero_or_pos xCount with h | h
    · rw [h] at hk; omega
    · exact h
  have r := serpentine_range xCount yCount (k / xCount) (k % xCount)
    ((Nat.div_lt_iff_lt_mul hx0).mpr hk) (Nat.mod_lt _ hx0)
  constructor
  · exact le_trans (Nat.le_add_left _ _) r.1
  · exact le_trans r.2.1 r.2.2

theorem serpentine_inj (xCount yCount k j : Nat) (hk : k < yCount * xCount)
    (hj : j < yCount * xCount)
    (h : serpentine yCount (k / xCount) (k % xCount)
      = serpentine yCount (j / xCount) (j % xCount)) : k = j := by
  have hx0 : 0 < xCount := by
    rcases Nat.eq_zero_or_pos xCount with h | h
    · rw [h] at hk; omega
    · exact h
  obtain ⟨hrow, hcol⟩ := serpentine_cell_inj xCount yCount _ _ _ _
    ((Nat.div_lt_iff_lt_mul hx0).mpr hk) (Nat.mod_lt _ hx0)
    ((Nat.div_lt_iff_lt_mul hx0).mpr hj) (Nat.mod_lt _ hx0) h
  rw [← Nat.div_add_mod k xCount, ← Nat.div_add_mod j xCount, hcol, hrow]

theorem serpentine_nodup (xCount yCount : Nat) :
    ((List.range (yCount * xCount)).map
      (fun k => serpentine yCount (k / xCount) (k % xCount))).Nodup := by
  rw [List.nodup_map_iff_inj_on (List.nodup_range _)]
  intro k hk j hj h
  exact serpentine_inj xCount yCount k j (List.mem_range.mp hk) (List.mem_range.mp hj) h

theorem serpentine_perm (xCount yCount : Nat) :
    ((List.range (yCount * xCount)).map
      (fun k => serpentine yCount (k / xCount) (k % xCount))).Perm
      (List.range' 1 (xCount * yCount)) := by
  apply (List.subperm_of_subset (serpentine_nodup xCount yCount) ?_).perm_of_length_le
  · rw [List.length_range', List.length_map, List.length_range, Nat.mul_comm]
  · intro v hv
    rw [List.mem_map] at hv
    obtain ⟨k, hk, rfl⟩ := hv
    have := serpentine_bounds xCount yCount k (List.mem_range.mp hk)
    rw [List.mem_range'_1]
    omega

set_option maxRecDepth 100000 in
/-- C30: for every grid of fewer than `2^31` fields, so for every `1 ≤ xCount, yCount ≤ 10`,
`generateDefaultSequence` writes into the field of row `y` and column `x` the number
`x * yCount + (yCount - y)` when `x` is even and `x * yCount + (y + 1)` when `x` is odd (the
columns numbered one after the other, the even ones from the last row up and the odd ones
from the first row down); read field by field these numbers are a permutation of
`1 .. xCount * yCount`, and `isSequenceValid` accepts the texts.  For the 4 x 4 grid the
numbers are those of the vector `defaultSequence` of the motorized dialog, and both dialogs
show the same texts. -/
theorem C30_default_sequence_valid (xCount yCount : Nat) (sequenceInputs : List String)
    (hN : xCount * yCount < 2147483648) (hlen : sequenceInputs.length = xCount * yCount) :
    CaptureSettingsDialog.generateDefaultSequence xCount yCount sequenceInputs
      = ((List.range (yCount * xCount)).map
          (fun k => serpentine yCount (k / xCount) (k % xCount))).map toString ∧
    (∀ y x, y < yCount → x < xCount →
      cellValue (CaptureSettingsDialog.defaultGrid xCount yCount) y x
        = x * yCount + (if x % 2 = 0 then yCount - y else y + 1)) ∧
    ((List.range (yCount * xCount)).map
      (fun k => serpentine yCount (k / xCount) (k % xCount))).Perm
      (List.range' 1 (xCount * yCount)) ∧
    CaptureSettingsDialog.isSequenceValid xCount yCount
      (CaptureSettingsDialog.generateDefaultSequence xCount yCount sequenceInputs) = true ∧
    (List.range (4 * 4)).map (fun k => serpentine 4 (k / 4) (k % 4))
      = MotorizedCaptureSettingsDialog.defaultSequence ∧
    MotorizedCaptureSettingsDialog.defaultSequence
      = [4, 5, 12, 13, 3, 6, 11, 14, 2, 7, 10, 15, 1, 8, 9, 16] ∧
    MotorizedCaptureSettingsDialog.generateDefaultSequence (List.replicate 16 "")
      = some (CaptureSettingsDialog.generateDefaultSequence 4 4 (List.replicate 16 "")) ∧
    MotorizedCaptureSettingsDialog.validateSequence
      (CaptureSettingsDialog.generateDefaultSequence 4 4 (List.replicate 16 "")) = true := by
  have hgen := generateDefaultSequence_eq xCount yCount sequenceInputs hlen
  refine ⟨hgen, fun y x hy hx => defaultGrid_cell xCount yCount y x hy hx,
    serpentine_perm xCount yCount, ?_, by decide, rfl, by decide, by decide⟩
  rw [isSequenceValid_iff]
  refine ⟨((List.range (yCount * xCount)).map
      (fun k => serpentine yCount (k / xCount) (k % xCount))).map (fun v : Nat => (v : Int)),
    ?_, ?_, ?_, ?_⟩
  · rw [hgen, List.map_map, List.map_map, List.map_map, List.map_map]
    apply List.map_congr_left
    intro k hk
    have hb := serpentine_bounds xCount yCount k (List.mem_range.mp hk)
    simp only [Function.comp]
    exact qToIntOk_toString _ (by omega)
  · intro v hv
    rw [List.mem_map] at hv
    obtain ⟨w, hw, rfl⟩ := hv
    rw [List.mem_map] at hw
    obtain ⟨k, hk, rfl⟩ := hw
    have hb := serpentine_bounds xCount yCount k (List.mem_range.mp hk)
    constructor
    · exact_mod_cast hb.1
    · exact_mod_cast hb.2
  · exact (serpentine_nodup xCount yCount).map (fun a b h => by exact_mod_cast h)
  · rw [List.length_map, List.length_map, List.length_range, Nat.mul_comm]

/-- Witness of C30: the 3 x 3 grid that the dialog opens with. -/
theorem C30_default_sequence_valid_witness :
    (3 * 3 < 2147483648 ∧ (List.replicate 9 "").length = 3 * 3) ∧
    CaptureSettingsDialog.isSequenceValid 3 3
      (CaptureSettingsDialog.generateDefaultSequence 3 3 (List.replicate 9 "")) = true :=
  ⟨⟨by decide, by decide⟩,
    (C30_default_sequence_valid 3 3 (List.replicate 9 "") (by decide) (by decide)).2.2.2.1⟩

/-! ## Instances of the further theorems at concrete inputs -/

/-- Witness of C24: the tile of sequence position 3 of a 3 x 3 grid on the `2910 x 2057`
canvas. -/
theorem C24_image_positions_witness :
    (1 ≤ 3 ∧ 1 ≤ 3 ∧ 3 ≤ 2910 ∧ 3 ≤ 2057 ∧ 3 < 3 * 3) ∧
    getImagePosition 3 3 3 2910 2057 = some (3 % 3 * (2910 / 3), 3 / 3 * (2057 / 3)) ∧
    3 % 3 * (2910 / 3) + 2910 / 3 ≤ 2910 ∧
    3 / 3 * (2057 / 3) + 2057 / 3 ≤ 2057 :=
  ⟨by decide,
    (C24_image_positions 3 3 2910 2057 (by decide) (by decide) (by decide) (by decide) 3
      (by decide)).1,
    (C24_image_positions 3 3 2910 2057 (by decide) (by decide) (by decide) (by decide) 3
      (by decide)).2.1,
    (C24_image_positions 3 3 2910 2057 (by decide) (by decide) (by decide) (by decide) 3
      (by decide)).2.2.1⟩

/-- Witness of C26 (amended): one surface cut into 4 x 1 pieces with the defective piece
`x1y1`. -/
theorem C26_reported_vs_insertion_witness :
    (1 ≤ 4 ∧ 4 ≤ 50 ∧ 1 < 2147483648 ∧ 0 < 1 ∧
      0 / surfacesPerGroup 4 < stackGroupsNeeded 1 4 ∧ pieceId 1 1 ∈ ["x1y1"]) ∧
    ∃ st,
      (updateStackPreview true (fun _ => some ["x1y1"]) 1 4 1)[
          0 / surfacesPerGroup 4 * 1 + (1 - 1)]? = some st ∧
      st.label = stackLabel (1 + 0 / surfacesPerGroup 4 * 1) ∧
      st.pieces[0 % surfacesPerGroup 4 * 4 + 1 - 1]?
        = some { surfaceNum := 0 + 1, pieceId := pieceId 1 1, hasDefect := true } :=
  ⟨by decide,
    (C26_reported_vs_insertion (fun _ => some ["x1y1"]) 1 4 1 (by decide) (by decide)
      (by decide) (fun _ _ => rfl) 0 1 1 ["x1y1"] (by decide) (by decide) rfl (by decide)
      (by decide) (by decide) (by decide) (by decide)).1⟩

/-- Witness of C27: 11 surfaces cut into 9 x 1 pieces. -/
theorem C27_xaxis_stacks_nonempty_witness :
    (1 ≤ 9 ∧ 9 ≤ 50) ∧
    ∀ st ∈ updateStackPreview true (fun _ => some []) 11 9 1,
      st.pieces ≠ [] ∧ 9 ≤ st.pieces.length :=
  ⟨by decide,
    (C27_xaxis_stacks_nonempty (fun _ => some []) 11 9 1 (by decide) (by decide)
      (fun _ _ => rfl)).2⟩

/-- Witness of C28: 11 surfaces cut into 9 x 1 pieces. -/
theorem C28_number_of_stacks_witness :
    (∀ s, s < 11 → ((fun _ => some []) s : Option (List String)).isSome = true) ∧
    (updateStackPreview true (fun _ => some []) 11 9 1).length = totalStacks true 11 9 1 ∧
    (updateStackPreview false (fun _ => some []) 11 9 1).length = totalStacks false 11 9 1 :=
  ⟨fun _ _ => rfl,
    (C28_number_of_stacks (fun _ => some []) 11 9 1 (fun _ _ => rfl)).1,
    (C28_number_of_stacks (fun _ => some []) 11 9 1 (fun _ _ => rfl)).2.2.1⟩

/-! ## The pieces that receive a defect -/

theorem count_eq_zero_or_one_of_nodup {α : Type} [BEq α] [LawfulBEq α] (l : List α) (a : α)
    (h : l.Nodup) : l.count a = if a ∈ l then 1 else 0 := by
  by_cases ha : a ∈ l
  · rw [if_pos ha]; exact count_eq_one_of_nodup_mem l a h ha
  · rw [if_neg ha]; exact List.count_eq_zero.mpr ha

/-- The defect list of a piece of the grid after the loop over the defects: the enriched
defects one of whose sample points inside the surface bounds gave this piece are appended, in
the order of the file. -/
theorem foldl_processDefect_defectsOf (idx : Int) (ds : List Defect) (a : CuttingAnalyzer)
    (h : a.WellFormed) (x y : Nat) (hx1 : 1 ≤ x) (hx : x ≤ a.piecesInX) (hy1 : 1 ≤ y)
    (hy : y ≤ a.piecesInY) :
    (ds.foldl (CuttingAnalyzer.processDefect idx) a).defectsOf x y
      = a.defectsOf x y
        ++ (ds.filter (fun e => decide (((x : Int), (y : Int)) ∈ (a.affected e).1))).map
            (fun e => enrich e idx) := by
  induction ds generalizing a with
  | nil => simp
  | cons d0 t ih =>
    have hfr := processDefect_frame idx a d0
    have hwf := processDefect_wellFormed idx a d0 h
    have haff : ∀ e, (a.processDefect idx d0).affected e = a.affected e :=
      fun e => affected_congr a _ e hfr
    rw [List.foldl_cons, ih _ hwf (by rw [hfr.1]; exact hx) (by rw [hfr.2.1]; exact hy),
      processDefect_defectsOf idx a d0 h x y hx1 hy1, if_pos ⟨hx, hy⟩,
      count_eq_zero_or_one_of_nodup _ _ (affected_pieces a d0).1]
    simp only [haff, List.filter_cons]
    by_cases hm : ((x : Int), (y : Int)) ∈ (a.affected d0).1
    · simp [hm]
    · simp [hm]

theorem create_defectsOf (piecesInX piecesInY : Nat) (w h : ℚ) (x y : Nat) :
    (CuttingAnalyzer.create piecesInX piecesInY w h).defectsOf x y = [] := by
  unfold CuttingAnalyzer.defectsOf pieceDefects CuttingAnalyzer.create
  simp only [List.getElem?_map]
  cases h1 : (List.range piecesInX)[x - 1]? with
  | none => simp
  | some i =>
    simp only [Option.map_some', List.getElem?_map]
    cases h2 : (List.range piecesInY)[y - 1]? with
    | none => simp
    | some j => simp

theorem affected_of_position (a : CuttingAnalyzer) (d e : Defect)
    (h : e.physical_position = d.physical_position) : a.affected e = a.affected d := by
  unfold CuttingAnalyzer.affected
  rw [h]

theorem roundHalfEven_bounds (t : ℚ) : ⌊t⌋ ≤ roundHalfEven t ∧ roundHalfEven t ≤ ⌊t⌋ + 1 := by
  unfold roundHalfEven
  simp only
  split_ifs <;> omega

theorem roundHalfEven_intCast (k : Int) : roundHalfEven (k : ℚ) = k := by
  unfold roundHalfEven
  simp only [Int.floor_intCast, sub_self]
  rw [if_pos (by norm_num)]

theorem roundHalfEven_natCast (k : Nat) : roundHalfEven (k : ℚ) = k := by
  have := roundHalfEven_intCast (k : Int)
  simpa using this

theorem roundHalfEven_mono {s t : ℚ} (h : s ≤ t) : roundHalfEven s ≤ roundHalfEven t := by
  have hfg : ⌊s⌋ ≤ ⌊t⌋ := Int.floor_le_floor h
  rcases hfg.lt_or_eq with hlt | heq
  · have h1 := (roundHalfEven_bounds s).2
    have h2 := (roundHalfEven_bounds t).1
    omega
  · unfold roundHalfEven
    simp only
    rw [heq]
    have hst : s - (⌊t⌋ : ℚ) ≤ t - (⌊t⌋ : ℚ) := by linarith
    split_ifs <;> first | omega | (exfalso; linarith)

theorem roundHalfEven_error (t : ℚ) : |(roundHalfEven t : ℚ) - t| ≤ 1 / 2 := by
  have h1 : ((⌊t⌋ : Int) : ℚ) ≤ t := Int.floor_le t
  have h2 : t < ((⌊t⌋ : Int) : ℚ) + 1 := Int.lt_floor_add_one t
  unfold roundHalfEven
  simp only
  rw [abs_le]
  split_ifs <;> push_cast <;> constructor <;> linarith

theorem roundHalfEven_nonneg {t : ℚ} (h : 0 ≤ t) : 0 ≤ roundHalfEven t := by
  have := roundHalfEven_mono h
  rwa [show ((0 : ℚ)) = ((0 : Int) : ℚ) by norm_num, roundHalfEven_intCast] at this

theorem ulpAt_pos (prec : Nat) (emin : Int) (q : ℚ) : 0 < ulpAt prec emin q := by
  unfold ulpAt
  positivity

theorem roundMagnitude_zero (prec : Nat) (emin : Int) : roundMagnitude prec emin 0 = 0 := by
  unfold roundMagnitude
  rw [zero_div, show ((0 : ℚ)) = ((0 : Int) : ℚ) by norm_num, roundHalfEven_intCast]
  simp

theorem roundMagnitude_nonneg (prec : Nat) (emin : Int) {q : ℚ} (h : 0 ≤ q) :
    0 ≤ roundMagnitude prec emin q := by
  unfold roundMagnitude
  have h1 : 0 ≤ q / ulpAt prec emin q := div_nonneg h (ulpAt_pos prec emin q).le
  have h2 : (0 : ℚ) ≤ (roundHalfEven (q / ulpAt prec emin q) : ℚ) := by
    exact_mod_cast roundHalfEven_nonneg h1
  exact mul_nonneg h2 (ulpAt_pos prec emin q).le

theorem two_zpow_pos (z : Int) : (0 : ℚ) < (2 : ℚ) ^ z := by positivity

theorem log_lt_of_lt_zpow {q : ℚ} (hq : 0 < q) {z : Int} (h : q < (2 : ℚ) ^ z) :
    Int.log 2 q < z := by
  have := (Int.lt_zpow_iff_log_lt (R := ℚ) (b := 2) (by norm_num) hq (x := z)).mp
    (by simpa using h)
  exact this

theorem le_log_of_zpow_le {q : ℚ} (hq : 0 < q) {z : Int} (h : (2 : ℚ) ^ z ≤ q) :
    z ≤ Int.log 2 q := by
  have := (Int.zpow_le_iff_le_log (R := ℚ) (b := 2) (by norm_num) hq (x := z)).mp
    (by simpa using h)
  exact this

theorem zpow_log_le {q : ℚ} (hq : 0 < q) : (2 : ℚ) ^ Int.log 2 q ≤ q := by
  have := Int.zpow_log_le_self (R := ℚ) (b := 2) (by norm_num) hq
  simpa using this

theorem lt_zpow_log_succ (q : ℚ) : q < (2 : ℚ) ^ (Int.log 2 q + 1) := by
  have := Int.lt_zpow_succ_log_self (R := ℚ) (b := 2) (by norm_num) q
  simpa using this

/-- A number `m * 2 ^ j` with a significand `m < 2 ^ prec` and an exponent `j` that the format
has is a floating-point number: rounding does not change it. -/
theorem roundMagnitude_dyadic (prec : Nat) (emin : Int) (m : Nat) (j : Int)
    (hm : m < 2 ^ prec) (hj : emin - ((prec : Int) - 1) ≤ j) :
    roundMagnitude prec emin ((m : ℚ) * (2 : ℚ) ^ j) = (m : ℚ) * (2 : ℚ) ^ j := by
  rcases Nat.eq_zero_or_pos m with h0 | hpos
  · subst h0
    simp [roundMagnitude_zero]
  have hq : (0 : ℚ) < (m : ℚ) * (2 : ℚ) ^ j :=
    mul_pos (by exact_mod_cast hpos) (two_zpow_pos j)
  have hlt : (m : ℚ) * (2 : ℚ) ^ j < (2 : ℚ) ^ ((prec : Int) + j) := by
    rw [zpow_add₀ (by norm_num : (2 : ℚ) ≠ 0), zpow_natCast]
    apply mul_lt_mul_of_pos_right _ (two_zpow_pos j)
    exact_mod_cast hm
  have hlog := log_lt_of_lt_zpow hq hlt
  have hexp : max (Int.log 2 ((m : ℚ) * (2 : ℚ) ^ j)) emin - ((prec : Int) - 1) ≤ j := by
    rcases max_cases (Int.log 2 ((m : ℚ) * (2 : ℚ) ^ j)) emin with ⟨h1, _⟩ | ⟨h1, _⟩ <;>
      rw [h1] <;> omega
  obtain ⟨d, hd⟩ : ∃ d : Nat,
      j = max (Int.log 2 ((m : ℚ) * (2 : ℚ) ^ j)) emin - ((prec : Int) - 1) + (d : Int) :=
    ⟨(j - (max (Int.log 2 ((m : ℚ) * (2 : ℚ) ^ j)) emin - ((prec : Int) - 1))).toNat, by omega⟩
  unfold roundMagnitude ulpAt
  generalize max (Int.log 2 ((m : ℚ) * (2 : ℚ) ^ j)) emin - ((prec : Int) - 1) = u at hd
  have hdiv : (m : ℚ) * (2 : ℚ) ^ j / (2 : ℚ) ^ u = ((m * 2 ^ d : Nat) : ℚ) := by
    rw [hd, zpow_add₀ (by norm_num : (2 : ℚ) ≠ 0), zpow_natCast]
    field_simp
    ring
  rw [hdiv, roundHalfEven_natCast]
  rw [hd, zpow_add₀ (by norm_num : (2 : ℚ) ≠ 0), zpow_natCast]
  push_cast
  ring

theorem roundMagnitude_natCast (prec : Nat) (emin : Int) (k : Nat) (hk : k < 2 ^ prec)
    (hemin : emin ≤ (prec : Int) - 1) :
    roundMagnitude prec emin (k : ℚ) = k := by
  have := roundMagnitude_dyadic prec emin k 0 hk (by omega)
  simpa using this

theorem roundMagnitude_zpow (prec : Nat) (emin : Int) (j : Int) (hp : 1 ≤ prec)
    (hj : emin - ((prec : Int) - 1) ≤ j) :
    roundMagnitude prec emin ((2 : ℚ) ^ j) = (2 : ℚ) ^ j := by
  have := roundMagnitude_dyadic prec emin 1 j (Nat.one_lt_two_pow (by omega)) hj
  simpa using this

/-- The rounding error is at most half a unit in the last place. -/
theorem roundMagnitude_error (prec : Nat) (emin : Int) (q : ℚ) :
    |roundMagnitude prec emin q - q| ≤ ulpAt prec emin q / 2 := by
  unfold roundMagnitude
  have hu := ulpAt_pos prec emin q
  have he := roundHalfEven_error (q / ulpAt prec emin q)
  have hq : q = q / ulpAt prec emin q * ulpAt prec emin q := by field_simp
  have : (roundHalfEven (q / ulpAt prec emin q) : ℚ) * ulpAt prec emin q - q
      = ((roundHalfEven (q / ulpAt prec emin q) : ℚ) - q / ulpAt prec emin q)
        * ulpAt prec emin q := by
    rw [sub_mul, ← hq]
  rw [this, abs_mul, abs_of_pos hu]
  calc |(roundHalfEven (q / ulpAt prec emin q) : ℚ) - q / ulpAt prec emin q|
        * ulpAt prec emin q ≤ 1 / 2 * ulpAt prec emin q :=
        mul_le_mul_of_nonneg_right he hu.le
    _ = ulpAt prec emin q / 2 := by ring

/-- For `0 ≤ q ≤ B` with `B` at least the least normal number, the rounding error is at most
`2 ^ (-prec) * B`. -/
theorem roundMagnitude_error_le (prec : Nat) (emin : Int) (q B : ℚ) (h0 : 0 ≤ q) (hB : q ≤ B)
    (hmin : (2 : ℚ) ^ emin ≤ B) :
    |roundMagnitude prec emin q - q| ≤ B / 2 ^ prec := by
  rcases h0.lt_or_eq with hpos | hz
  · have h1 := roundMagnitude_error prec emin q
    have h2 : ulpAt prec emin q / 2 ≤ B / 2 ^ prec := by
      unfold ulpAt
      have hmax : (2 : ℚ) ^ (max (Int.log 2 q) emin) ≤ B := by
        rcases max_cases (Int.log 2 q) emin with ⟨h, _⟩ | ⟨h, _⟩
        · rw [h]; exact le_trans (zpow_log_le hpos) hB
        · rw [h]; exact hmin
      have hsplit : (2 : ℚ) ^ (max (Int.log 2 q) emin - ((prec : Int) - 1)) / 2
          = (2 : ℚ) ^ (max (Int.log 2 q) emin) / 2 ^ prec := by
        rw [zpow_sub₀ (by norm_num : (2 : ℚ) ≠ 0), zpow_sub₀ (by norm_num : (2 : ℚ) ≠ 0),
          zpow_natCast]
        field_simp
        ring
      rw [hsplit]
      exact div_le_div_of_nonneg_right hmax (by positivity)
    exact le_trans h1 h2
  · rw [← hz, roundMagnitude_zero, sub_zero, abs_zero]
    have : (0 : ℚ) ≤ B := le_trans (two_zpow_pos emin).le hmin
    positivity

/-- Rounding is monotone. -/
theorem roundMagnitude_mono (prec : Nat) (emin : Int) (hp : 1 ≤ prec) {q r : ℚ} (h0 : 0 ≤ q)
    (h : q ≤ r) : roundMagnitude prec emin q ≤ roundMagnitude prec emin r := by
  rcases h0.lt_or_eq with hpos | hz
  swap
  · rw [← hz, roundMagnitude_zero]
    exact roundMagnitude_nonneg prec emin (le_trans h0 h)
  have hrpos : 0 < r := lt_of_lt_of_le hpos h
  have hlog : Int.log 2 q ≤ Int.log 2 r := Int.log_mono_right hpos h
  have hexp : max (Int.log 2 q) emin ≤ max (Int.log 2 r) emin := max_le_max hlog le_rfl
  rcases hexp.lt_or_eq with hlt | heq
  · -- different binades: a power of two lies between the two roundings
    have hq1 : roundMagnitude prec emin q ≤ (2 : ℚ) ^ (max (Int.log 2 q) emin + 1) := by
      unfold roundMagnitude ulpAt
      have hqlt : q < (2 : ℚ) ^ (max (Int.log 2 q) emin + 1) :=
        lt_of_lt_of_le (lt_zpow_log_succ q)
          (zpow_le_zpow_right₀ (by norm_num) (by have := le_max_left (Int.log 2 q) emin; omega))
      have hdiv : q / (2 : ℚ) ^ (max (Int.log 2 q) emin - ((prec : Int) - 1))
          ≤ ((2 ^ prec : Nat) : ℚ) := by
        rw [div_le_iff₀ (two_zpow_pos _)]
        have : ((2 ^ prec : Nat) : ℚ) * (2 : ℚ) ^ (max (Int.log 2 q) emin - ((prec : Int) - 1))
            = (2 : ℚ) ^ (max (Int.log 2 q) emin + 1) := by
          push_cast
          rw [← zpow_natCast, ← zpow_add₀ (by norm_num : (2 : ℚ) ≠ 0)]
          congr 1
          omega
        rw [this]
        exact hqlt.le
      have hr := roundHalfEven_mono hdiv
      rw [roundHalfEven_natCast] at hr
      have hr2 : (roundHalfEven (q / (2 : ℚ) ^ (max (Int.log 2 q) emin - ((prec : Int) - 1)))
          : ℚ) ≤ ((2 ^ prec : Nat) : ℚ) := by exact_mod_cast hr
      calc (roundHalfEven (q / (2 : ℚ) ^ (max (Int.log 2 q) emin - ((prec : Int) - 1))) : ℚ)
            * (2 : ℚ) ^ (max (Int.log 2 q) emin - ((prec : Int) - 1))
          ≤ ((2 ^ prec : Nat) : ℚ)
            * (2 : ℚ) ^ (max (Int.log 2 q) emin - ((prec : Int) - 1)) :=
            mul_le_mul_of_nonneg_right hr2 (two_zpow_pos _).le
        _ = (2 : ℚ) ^ (max (Int.log 2 q) emin + 1) := by
            push_cast
            rw [← zpow_natCast, ← zpow_add₀ (by norm_num : (2 : ℚ) ≠ 0)]
            congr 1
            omega
    have hr1 : (2 : ℚ) ^ (max (Int.log 2 r) emin) ≤ roundMagnitude prec emin r := by
      have hmaxr : max (Int.log 2 r) emin = Int.log 2 r := by
        rcases max_cases (Int.log 2 r) emin with ⟨h1, _⟩ | ⟨h1, _⟩
        · exact h1
        · exfalso
          have := le_max_right (Int.log 2 q) emin
          omega
      unfold roundMagnitude ulpAt
      rw [hmaxr]
      have hrge : (2 : ℚ) ^ (Int.log 2 r) ≤ r := zpow_log_le hrpos
      have hdiv : ((2 ^ (prec - 1) : Nat) : ℚ)
          ≤ r / (2 : ℚ) ^ (Int.log 2 r - ((prec : Int) - 1)) := by
        rw [le_div_iff₀ (two_zpow_pos _)]
        have : ((2 ^ (prec - 1) : Nat) : ℚ) * (2 : ℚ) ^ (Int.log 2 r - ((prec : Int) - 1))
            = (2 : ℚ) ^ (Int.log 2 r) := by
          push_cast
          rw [← zpow_natCast, ← zpow_add₀ (by norm_num : (2 : ℚ) ≠ 0)]
          congr 1
          omega
        rw [this]
        exact hrge
      have hr := roundHalfEven_mono hdiv
      rw [roundHalfEven_natCast] at hr
      have hr2 : ((2 ^ (prec - 1) : Nat) : ℚ)
          ≤ (roundHalfEven (r / (2 : ℚ) ^ (Int.log 2 r - ((prec : Int) - 1))) : ℚ) := by
        exact_mod_cast hr
      calc (2 : ℚ) ^ (Int.log 2 r)
          = ((2 ^ (prec - 1) : Nat) : ℚ) * (2 : ℚ) ^ (Int.log 2 r - ((prec : Int) - 1)) := by
            push_cast
            rw [← zpow_natCast, ← zpow_add₀ (by norm_num : (2 : ℚ) ≠ 0)]
            congr 1
            omega
        _ ≤ (roundHalfEven (r / (2 : ℚ) ^ (Int.log 2 r - ((prec : Int) - 1))) : ℚ)
            * (2 : ℚ) ^ (Int.log 2 r - ((prec : Int) - 1)) :=
            mul_le_mul_of_nonneg_right hr2 (two_zpow_pos _).le
    have hmid : (2 : ℚ) ^ (max (Int.log 2 q) emin + 1) ≤ (2 : ℚ) ^ (max (Int.log 2 r) emin) :=
      zpow_le_zpow_right₀ (by norm_num) (by omega)
    exact le_trans hq1 (le_trans hmid hr1)
  · -- same binade: the same unit in the last place
    unfold roundMagnitude ulpAt
    rw [heq]
    have hu := two_zpow_pos (max (Int.log 2 r) emin - ((prec : Int) - 1))
    have hdiv : q / (2 : ℚ) ^ (max (Int.log 2 r) emin - ((prec : Int) - 1))
        ≤ r / (2 : ℚ) ^ (max (Int.log 2 r) emin - ((prec : Int) - 1)) :=
      div_le_div_of_nonneg_right h hu.le
    have hr := roundHalfEven_mono hdiv
    have hr2 : (roundHalfEven (q / (2 : ℚ) ^ (max (Int.log 2 r) emin - ((prec : Int) - 1))) : ℚ)
        ≤ (roundHalfEven (r / (2 : ℚ) ^ (max (Int.log 2 r) emin - ((prec : Int) - 1))) : ℚ) := by
      exact_mod_cast hr
    exact mul_le_mul_of_nonneg_right hr2 hu.le

theorem roundBinary_of_nonneg (prec : Nat) (emin : Int) {q : ℚ} (h : 0 ≤ q) :
    roundBinary prec emin q = roundMagnitude prec emin q := by
  unfold roundBinary
  rw [if_pos h]

/-- A non-negative number up to `2 ^ 1023` rounds to a finite `double`. -/
theorem toDouble_of_nonneg {q : ℚ} (h0 : 0 ≤ q) (h : q ≤ (2 : ℚ) ^ (1023 : Int)) :
    toDouble q = some (roundMagnitude 53 (-1022) q) ∧
    0 ≤ roundMagnitude 53 (-1022) q ∧
    roundMagnitude 53 (-1022) q ≤ (2 : ℚ) ^ (1023 : Int) := by
  have hnn := roundMagnitude_nonneg 53 (-1022) h0
  have hle : roundMagnitude 53 (-1022) q ≤ (2 : ℚ) ^ (1023 : Int) := by
    have := roundMagnitude_mono 53 (-1022) (by norm_num) h0 h
    rwa [roundMagnitude_zpow 53 (-1022) 1023 (by norm_num) (by norm_num)] at this
  refine ⟨?_, hnn, hle⟩
  unfold toDouble roundFloat
  rw [roundBinary_of_nonneg 53 (-1022) h0, abs_of_nonneg hnn, if_pos]
  calc roundMagnitude 53 (-1022) q ≤ (2 : ℚ) ^ (1023 : Int) := hle
    _ < (2 : ℚ) ^ ((1023 : Int) + 1) := zpow_lt_zpow_right₀ (by norm_num) (by norm_num)

theorem truncToInt_of_nonneg {q : ℚ} (h : 0 ≤ q) : truncToInt q = ⌊q⌋ := by
  unfold truncToInt
  rw [if_pos h]

/-- The index computation in `double` arithmetic for one axis: the piece size and the quotient
are finite, the conversion to `int` is defined, and the integer part `t` of the rounded quotient
lies between the floor and the ceiling of the exact quotient. -/
theorem pieceIndexDouble_spec (n : Nat) (size x : ℚ) (hn1 : 1 ≤ n) (hn : n ≤ 2 ^ 30)
    (hs1 : (2 : ℚ) ^ (-990 : Int) ≤ size) (hs2 : size ≤ (2 : ℚ) ^ (1023 : Int))
    (hx0 : 0 ≤ x) (hx : x ≤ size) :
    pieceSizeDouble size n = some (roundMagnitude 53 (-1022) (size / n)) ∧
    0 < roundMagnitude 53 (-1022) (size / n) ∧
    doubleDiv x (roundMagnitude 53 (-1022) (size / n))
      = some (roundMagnitude 53 (-1022) (x / roundMagnitude 53 (-1022) (size / n))) ∧
    pieceIndexDouble x (roundMagnitude 53 (-1022) (size / n)) n
      = some (min (⌊roundMagnitude 53 (-1022) (x / roundMagnitude 53 (-1022) (size / n))⌋ + 1)
          (n : Int)) ∧
    0 ≤ roundMagnitude 53 (-1022) (x / roundMagnitude 53 (-1022) (size / n)) ∧
    ⌊x / roundMagnitude 53 (-1022) (size / n)⌋
      ≤ ⌊roundMagnitude 53 (-1022) (x / roundMagnitude 53 (-1022) (size / n))⌋ ∧
    roundMagnitude 53 (-1022) (x / roundMagnitude 53 (-1022) (size / n))
      ≤ (⌈x / roundMagnitude 53 (-1022) (size / n)⌉ : ℚ) := by
  have hnq : (0 : ℚ) < (n : ℚ) := by exact_mod_cast hn1
  have hnq1 : (1 : ℚ) ≤ (n : ℚ) := by exact_mod_cast hn1
  have hnq3 : (n : ℚ) ≤ (2 : ℚ) ^ (30 : Nat) := by exact_mod_cast hn
  have hnq2 : (n : ℚ) ≤ (2 : ℚ) ^ (30 : Int) := by
    rw [show (30 : Int) = ((30 : Nat) : Int) by norm_num, zpow_natCast]
    exact hnq3
  have hspos : 0 < size := lt_of_lt_of_le (two_zpow_pos _) hs1
  -- the piece size
  have hq0 : 0 < size / n := div_pos hspos hnq
  have hqle : size / n ≤ (2 : ℚ) ^ (1023 : Int) :=
    le_trans (div_le_self hspos.le hnq1) hs2
  have hqge : (2 : ℚ) ^ (-1020 : Int) ≤ size / n := by
    rw [le_div_iff₀ hnq]
    calc (2 : ℚ) ^ (-1020 : Int) * n ≤ (2 : ℚ) ^ (-1020 : Int) * (2 : ℚ) ^ (30 : Int) :=
          mul_le_mul_of_nonneg_left hnq2 (two_zpow_pos _).le
      _ = (2 : ℚ) ^ (-990 : Int) := by
          rw [← zpow_add₀ (by norm_num : (2 : ℚ) ≠ 0)]; norm_num
      _ ≤ size := hs1
  obtain ⟨hpw, _, hpwle⟩ := toDouble_of_nonneg hq0.le hqle
  generalize hpwdef : roundMagnitude 53 (-1022) (size / n) = pw at hpw hpwle ⊢
  have hpwge : (2 : ℚ) ^ (-1020 : Int) ≤ pw := by
    have := roundMagnitude_mono 53 (-1022) (by norm_num) (two_zpow_pos (-1020)).le hqge
    rwa [roundMagnitude_zpow 53 (-1022) (-1020) (by norm_num) (by norm_num), hpwdef] at this
  have hpwpos : 0 < pw := lt_of_lt_of_le (two_zpow_pos _) hpwge
  have herr : |pw - size / n| ≤ size / n / 2 ^ 53 := by
    rw [← hpwdef]
    apply roundMagnitude_error_le 53 (-1022) (size / n) (size / n) hq0.le le_rfl
    exact le_trans (zpow_le_zpow_right₀ (by norm_num) (by norm_num)) hqge
  have hpwlow : size / n - size / n / 2 ^ 53 ≤ pw := by
    have := (abs_le.mp herr).1
    linarith
  -- the quotient
  have hsize : size ≤ ((n : ℚ) + 1) * pw := by
    have h1 : ((n : ℚ) + 1) * (size / n - size / n / 2 ^ 53) ≤ ((n : ℚ) + 1) * pw :=
      mul_le_mul_of_nonneg_left hpwlow (by linarith)
    have h2 : size ≤ ((n : ℚ) + 1) * (size / n - size / n / 2 ^ 53) := by
      have e : ((n : ℚ) + 1) * (size / n - size / n / 2 ^ 53)
          = size + size / n * (1 - ((n : ℚ) + 1) / 2 ^ 53) := by
        field_simp
        ring
      rw [e]
      have h3 : ((n : ℚ) + 1) / 2 ^ 53 ≤ 1 := by
        rw [div_le_one (by positivity)]
        have : (n : ℚ) ≤ 2 ^ 30 := hnq3
        have h4 : (2 : ℚ) ^ 30 + 1 ≤ 2 ^ 53 := by norm_num
        linarith
      have h5 : 0 ≤ size / n * (1 - ((n : ℚ) + 1) / 2 ^ 53) :=
        mul_nonneg hq0.le (by linarith)
      linarith
    exact le_trans h2 h1
  have hq2 : 0 ≤ x / pw := div_nonneg hx0 hpwpos.le
  have hq2le : x / pw ≤ ((n + 1 : Nat) : ℚ) := by
    rw [div_le_iff₀ hpwpos]
    push_cast
    exact le_trans hx hsize
  have hn53 : n + 1 < 2 ^ 53 := by
    have : (2 : Nat) ^ 30 + 1 < 2 ^ 53 := by norm_num
    omega
  have hQle : roundMagnitude 53 (-1022) (x / pw) ≤ ((n + 1 : Nat) : ℚ) := by
    have := roundMagnitude_mono 53 (-1022) (by norm_num) hq2 hq2le
    rwa [roundMagnitude_natCast 53 (-1022) (n + 1) hn53 (by norm_num)] at this
  have hQle1023 : x / pw ≤ (2 : ℚ) ^ (1023 : Int) := by
    refine le_trans hq2le ?_
    have h1 : ((n + 1 : Nat) : ℚ) ≤ ((2 ^ 53 : Nat) : ℚ) := by exact_mod_cast hn53.le
    refine le_trans h1 ?_
    have h2 : ((2 ^ 53 : Nat) : ℚ) = (2 : ℚ) ^ (53 : Int) := by norm_num
    rw [h2]
    exact zpow_le_zpow_right₀ (by norm_num) (by norm_num)
  obtain ⟨hQ, hQ0, _⟩ := toDouble_of_nonneg hq2 hQle1023
  generalize hQdef : roundMagnitude 53 (-1022) (x / pw) = Q at hQ hQ0 hQle ⊢
  have hdiv : doubleDiv x pw = some Q := by
    unfold doubleDiv
    rw [if_neg hpwpos.ne']
    exact hQ
  have hQlt : Q < 2147483648 := by
    have h1 : ((n + 1 : Nat) : ℚ) ≤ ((2 ^ 30 + 1 : Nat) : ℚ) := by
      exact_mod_cast Nat.add_le_add_right hn 1
    have h2 : ((2 ^ 30 + 1 : Nat) : ℚ) < 2147483648 := by norm_num
    linarith
  have hcast : castToInt Q = some ⌊Q⌋ := by
    unfold castToInt
    rw [if_pos ⟨by linarith, hQlt⟩, truncToInt_of_nonneg hQ0]
  have hfl : ⌊Q⌋ + 1 ≤ 2147483647 := by
    have h1 : ⌊Q⌋ ≤ ((n + 1 : Nat) : Int) := by
      have : ⌊Q⌋ ≤ ⌊((n + 1 : Nat) : ℚ)⌋ := Int.floor_le_floor hQle
      rwa [Int.floor_natCast] at this
    have h2 : ((n + 1 : Nat) : Int) ≤ 2 ^ 30 + 1 := by
      push_cast
      have : (n : Int) ≤ 2 ^ 30 := by exact_mod_cast hn
      omega
    have h3 : (2 : Int) ^ 30 + 1 + 1 ≤ 2147483647 := by norm_num
    omega
  refine ⟨?_, hpwpos, hdiv, ?_, hQ0, ?_, ?_⟩
  · unfold pieceSizeDouble doubleDiv
    rw [if_neg hnq.ne']
    exact hpw
  · unfold pieceIndexDouble
    rw [hdiv]
    simp only [hcast]
    rw [if_pos hfl]
  · -- the floor of the exact quotient is a natural number below `2 ^ 53`
    have hk0 : 0 ≤ ⌊x / pw⌋ := Int.floor_nonneg.mpr hq2
    obtain ⟨k, hk⟩ := Int.eq_ofNat_of_zero_le hk0
    have hkle : (k : ℚ) ≤ x / pw := by
      have := Int.floor_le (x / pw)
      rw [hk] at this
      exact_mod_cast this
    have hk53 : k < 2 ^ 53 := by
      have h1 : (k : ℚ) ≤ ((n + 1 : Nat) : ℚ) := le_trans hkle hq2le
      have h2 : k ≤ n + 1 := by exact_mod_cast h1
      omega
    have := roundMagnitude_mono 53 (-1022) (by norm_num) (by positivity : (0 : ℚ) ≤ (k : ℚ)) hkle
    rw [roundMagnitude_natCast 53 (-1022) k hk53 (by norm_num), hQdef] at this
    rw [hk]
    exact Int.le_floor.mpr (by exact_mod_cast this)
  · have hc0 : 0 ≤ ⌈x / pw⌉ := Int.ceil_nonneg hq2
    obtain ⟨c, hc⟩ := Int.eq_ofNat_of_zero_le hc0
    have hcge : x / pw ≤ (c : ℚ) := by
      have := Int.le_ceil (x / pw)
      rw [hc] at this
      exact_mod_cast this
    have hc53 : c < 2 ^ 53 := by
      have h1 : ⌈x / pw⌉ ≤ ((n + 1 : Nat) : Int) := Int.ceil_le.mpr (by exact_mod_cast hq2le)
      rw [hc] at h1
      have h2 : c ≤ n + 1 := by exact_mod_cast h1
      omega
    have := roundMagnitude_mono 53 (-1022) (by norm_num) hq2 hcge
    rw [roundMagnitude_natCast 53 (-1022) c hc53 (by norm_num), hQdef] at this
    rw [hc]
    exact_mod_cast this

/-- The index that the code computes for one axis: it lies in the grid, the point lies below
the upper edge of its piece when the index is not clamped, and above the lower edge of its
piece unless the quotient was rounded up to a whole number; it does not decrease when the
coordinate grows. -/
theorem pieceIndexDouble_axis (n : Nat) (size x : ℚ) (hn1 : 1 ≤ n) (hn : n ≤ 2 ^ 30)
    (hs1 : (2 : ℚ) ^ (-990 : Int) ≤ size) (hs2 : size ≤ (2 : ℚ) ^ (1023 : Int))
    (hx0 : 0 ≤ x) (hx : x ≤ size) :
    ∃ (pieceSize : ℚ) (index : Int),
      pieceSizeDouble size n = some pieceSize ∧ 0 < pieceSize ∧
      pieceIndexDouble x pieceSize n = some index ∧
      1 ≤ index ∧ index ≤ n ∧
      ((index : ℚ) - 2) * pieceSize < x ∧
      (index < n → x < (index : ℚ) * pieceSize) ∧
      (((index : ℚ) - 1) * pieceSize ≤ x ∨
        (doubleDiv x pieceSize = some ((index : ℚ) - 1) ∧ x < ((index : ℚ) - 1) * pieceSize)) ∧
      (∀ x2 : ℚ, x ≤ x2 → x2 ≤ size →
        ∃ index2 : Int, pieceIndexDouble x2 pieceSize n = some index2 ∧ index ≤ index2) := by
  obtain ⟨hps, hpos, hdiv, hidx, hQ0, hfloor, hceil⟩ :=
    pieceIndexDouble_spec n size x hn1 hn hs1 hs2 hx0 hx
  generalize hpwdef : roundMagnitude 53 (-1022) (size / n) = pw
    at hps hpos hdiv hidx hQ0 hfloor hceil
  have hmono : ∀ x2 : ℚ, x ≤ x2 → x2 ≤ size →
      roundMagnitude 53 (-1022) (x / pw) ≤ roundMagnitude 53 (-1022) (x2 / pw) := by
    intro x2 h1 _
    exact roundMagnitude_mono 53 (-1022) (by norm_num) (div_nonneg hx0 hpos.le)
      (div_le_div_of_nonneg_right h1 hpos.le)
  generalize hQdef : roundMagnitude 53 (-1022) (x / pw) = Q
    at hdiv hidx hQ0 hfloor hceil hmono
  have ht0 : 0 ≤ ⌊Q⌋ := Int.floor_nonneg.mpr hQ0
  have htQ : ((⌊Q⌋ : Int) : ℚ) ≤ Q := Int.floor_le Q
  have hq1 : x / pw < ((⌊x / pw⌋ : Int) : ℚ) + 1 := Int.lt_floor_add_one _
  have hq2 : ((⌈x / pw⌉ : Int) : ℚ) < x / pw + 1 := Int.ceil_lt_add_one _
  have hn1' : (1 : Int) ≤ (n : Int) := by exact_mod_cast hn1
  have hminle : ((min (⌊Q⌋ + 1) (n : Int) : Int) : ℚ) ≤ ((⌊Q⌋ : Int) : ℚ) + 1 := by
    have : min (⌊Q⌋ + 1) (n : Int) ≤ ⌊Q⌋ + 1 := min_le_left _ _
    have h := (Int.cast_le (R := ℚ)).mpr this
    rwa [Int.cast_add, Int.cast_one] at h
  refine ⟨pw, min (⌊Q⌋ + 1) (n : Int), hps, hpos, hidx, ?_, min_le_right _ _, ?_, ?_, ?_, ?_⟩
  · exact le_min (by omega) hn1'
  · have h1 : ((min (⌊Q⌋ + 1) (n : Int) : Int) : ℚ) - 2 < x / pw := by linarith
    have := mul_lt_mul_of_pos_right h1 hpos
    rwa [div_mul_cancel₀ _ hpos.ne'] at this
  · intro hlt
    have hmin : min (⌊Q⌋ + 1) (n : Int) = ⌊Q⌋ + 1 := by
      rcases min_cases (⌊Q⌋ + 1) (n : Int) with ⟨h, _⟩ | ⟨h, _⟩
      · exact h
      · rw [h] at hlt; omega
    rw [hmin]
    have hfl : ((⌊x / pw⌋ : Int) : ℚ) ≤ ((⌊Q⌋ : Int) : ℚ) := by exact_mod_cast hfloor
    have h1 : x / pw < ((⌊Q⌋ + 1 : Int) : ℚ) := by push_cast; linarith
    have := mul_lt_mul_of_pos_right h1 hpos
    rwa [div_mul_cancel₀ _ hpos.ne'] at this
  · by_cases hle : ((⌊Q⌋ : Int) : ℚ) ≤ x / pw
    · left
      have h1 : ((min (⌊Q⌋ + 1) (n : Int) : Int) : ℚ) - 1 ≤ x / pw := by linarith
      have := mul_le_mul_of_nonneg_right h1 hpos.le
      rwa [div_mul_cancel₀ _ hpos.ne'] at this
    · have hlt : x / pw < ((⌊Q⌋ : Int) : ℚ) := not_le.mp hle
      have hcl : ⌈x / pw⌉ ≤ ⌊Q⌋ := Int.ceil_le.mpr hlt.le
      have hclq : ((⌈x / pw⌉ : Int) : ℚ) ≤ ((⌊Q⌋ : Int) : ℚ) := by exact_mod_cast hcl
      have hQeq : Q = ((⌊Q⌋ : Int) : ℚ) := le_antisymm (le_trans hceil hclq) htQ
      have hceq : ((⌈x / pw⌉ : Int) : ℚ) = ((⌊Q⌋ : Int) : ℚ) :=
        le_antisymm hclq (by rw [← hQeq]; exact hceil)
      rcases le_or_lt (⌊Q⌋ + 1) (n : Int) with hcase | hcase
      · right
        rw [min_eq_left hcase]
        have hval : (((⌊Q⌋ + 1 : Int) : ℚ)) - 1 = Q := by
          push_cast
          linarith
        rw [hval]
        refine ⟨hdiv, ?_⟩
        have := mul_lt_mul_of_pos_right hlt hpos
        rw [div_mul_cancel₀ _ hpos.ne'] at this
        rw [hQeq]
        exact this
      · left
        rw [min_eq_right hcase.le]
        have h1 : ((n : Int) : ℚ) ≤ ((⌊Q⌋ : Int) : ℚ) := by
          have : (n : Int) ≤ ⌊Q⌋ := by omega
          exact_mod_cast this
        have h2 : ((n : Int) : ℚ) - 1 ≤ x / pw := by linarith
        have := mul_le_mul_of_nonneg_right h2 hpos.le
        rwa [div_mul_cancel₀ _ hpos.ne'] at this
  · intro x2 h1 h2
    obtain ⟨_, _, _, hidx2, _, _, _⟩ :=
      pieceIndexDouble_spec n size x2 hn1 hn hs1 hs2 (le_trans hx0 h1) h2
    rw [hpwdef] at hidx2
    refine ⟨_, hidx2, ?_⟩
    exact min_le_min (by have := Int.floor_le_floor (hmono x2 h1 h2); omega) le_rfl

/-! ## The piece of a point in `double` arithmetic -/

/-- C29 (fails as stated): on the A3 surface cut into 1 x 5 pieces the piece height is the
`double` nearest to `59.4`, and for the point with `y` the `double` nearest to `178.2`, inside
the surface, the quotient `y / pieceHeight` is rounded to `3`, so the code computes piece
`(1, 4)`, whose lower edge `3 * pieceHeight` lies above `y`, with `pieceHeight` read as `297 / 5`
and read as the `double` value. -/
theorem C29_point_below_computed_piece :
    toDouble (1782 / 10) = some (3134927553114931 / 17592186044416) ∧
    pieceSizeDouble 297 5 = some (8359806808306483 / 140737488355328) ∧
    (0 : ℚ) ≤ 3134927553114931 / 17592186044416 ∧
    (3134927553114931 / 17592186044416 : ℚ) ≤ 297 ∧
    doubleDiv (3134927553114931 / 17592186044416) (8359806808306483 / 140737488355328)
      = some 3 ∧
    pieceOfDouble 1 5 420 297 (0, 3134927553114931 / 17592186044416) = some (1, 4) ∧
    ¬ ((((4 : Int) : ℚ) - 1) * (297 / 5) ≤ 3134927553114931 / 17592186044416) ∧
    ¬ ((((4 : Int) : ℚ) - 1) * (8359806808306483 / 140737488355328)
        ≤ 3134927553114931 / 17592186044416) := by
  refine ⟨by decide!, by decide!, by norm_num, by norm_num, by decide!, by decide!,
    by norm_num, by norm_num⟩

/-- C29 (amended): for a grid of 1 to `2 ^ 30` pieces per axis, a surface size between
`2 ^ (-990)` and `2 ^ 1023` and a point with `0 ≤ x ≤ surfaceWidth` and
`0 ≤ y ≤ surfaceHeight`, the piece sizes `surfaceWidth / piecesInX` and
`surfaceHeight / piecesInY` are positive finite `double` values and the piece `(px, py)` is
defined and lies in the grid; `x < px * pieceWidth` when `px < piecesInX`; and
`(px - 1) * pieceWidth ≤ x`, unless the quotient `x / pieceWidth` was rounded up to the whole
number `px - 1`, and then still `(px - 2) * pieceWidth < x`; likewise for `y`; `px` does not
decrease when `x` grows, nor `py` when `y` grows. -/
theorem C29_piece_of_point_double (piecesInX piecesInY : Nat)
    (surfaceWidth surfaceHeight x y : ℚ)
    (hpx : 1 ≤ piecesInX) (hpx2 : piecesInX ≤ 2 ^ 30)
    (hpy : 1 ≤ piecesInY) (hpy2 : piecesInY ≤ 2 ^ 30)
    (hw : (2 : ℚ) ^ (-990 : Int) ≤ surfaceWidth) (hw2 : surfaceWidth ≤ (2 : ℚ) ^ (1023 : Int))
    (hh : (2 : ℚ) ^ (-990 : Int) ≤ surfaceHeight)
    (hh2 : surfaceHeight ≤ (2 : ℚ) ^ (1023 : Int))
    (hx0 : 0 ≤ x) (hx : x ≤ surfaceWidth) (hy0 : 0 ≤ y) (hy : y ≤ surfaceHeight) :
    ∃ (pieceWidth pieceHeight : ℚ) (px py : Int),
      pieceSizeDouble surfaceWidth piecesInX = some pieceWidth ∧
      pieceSizeDouble surfaceHeight piecesInY = some pieceHeight ∧
      0 < pieceWidth ∧ 0 < pieceHeight ∧
      pieceOfDouble piecesInX piecesInY surfaceWidth surfaceHeight (x, y) = some (px, py) ∧
      1 ≤ px ∧ px ≤ piecesInX ∧ 1 ≤ py ∧ py ≤ piecesInY ∧
      (px < piecesInX → x < (px : ℚ) * pieceWidth) ∧
      (py < piecesInY → y < (py : ℚ) * pieceHeight) ∧
      (((px : ℚ) - 1) * pieceWidth ≤ x ∨
        (doubleDiv x pieceWidth = some ((px : ℚ) - 1) ∧ x < ((px : ℚ) - 1) * pieceWidth)) ∧
      (((py : ℚ) - 1) * pieceHeight ≤ y ∨
        (doubleDiv y pieceHeight = some ((py : ℚ) - 1) ∧ y < ((py : ℚ) - 1) * pieceHeight)) ∧
      ((px : ℚ) - 2) * pieceWidth < x ∧ ((py : ℚ) - 2) * pieceHeight < y ∧
      (∀ x2 y2 : ℚ, x ≤ x2 → x2 ≤ surfaceWidth → y ≤ y2 → y2 ≤ surfaceHeight →
        ∃ px2 py2 : Int,
          pieceOfDouble piecesInX piecesInY surfaceWidth surfaceHeight (x2, y2)
            = some (px2, py2) ∧ px ≤ px2 ∧ py ≤ py2) := by
  obtain ⟨pw, px, hpw, hpwpos, hix, hx1, hxn, hxlow2, hxup, hxlow, hxmono⟩ :=
    pieceIndexDouble_axis piecesInX surfaceWidth x hpx hpx2 hw hw2 hx0 hx
  obtain ⟨ph, py, hph, hphpos, hiy, hy1, hyn, hylow2, hyup, hylow, hymono⟩ :=
    pieceIndexDouble_axis piecesInY surfaceHeight y hpy hpy2 hh hh2 hy0 hy
  refine ⟨pw, ph, px, py, hpw, hph, hpwpos, hphpos, ?_, hx1, hxn, hy1, hyn, hxup, hyup, hxlow,
    hylow, hxlow2, hylow2, ?_⟩
  · unfold pieceOfDouble
    simp only [hpw, hph, hix, hiy]
  · intro x2 y2 h1 h2 h3 h4
    obtain ⟨px2, hix2, hle2⟩ := hxmono x2 h1 h2
    obtain ⟨py2, hiy2, hle3⟩ := hymono y2 h3 h4
    refine ⟨px2, py2, ?_, hle2, hle3⟩
    unfold pieceOfDouble
    simp only [hpw, hph, hix2, hiy2]

/-- Witness of C29 (amended): the A3 surface cut into 4 x 2 pieces and the point
`(210, 297)`. -/
theorem C29_piece_of_point_double_witness :
    (1 ≤ 4 ∧ 4 ≤ 2 ^ 30 ∧ 1 ≤ 2 ∧ 2 ≤ 2 ^ 30 ∧
      (2 : ℚ) ^ (-990 : Int) ≤ 420 ∧ (420 : ℚ) ≤ (2 : ℚ) ^ (1023 : Int) ∧
      (2 : ℚ) ^ (-990 : Int) ≤ 297 ∧ (297 : ℚ) ≤ (2 : ℚ) ^ (1023 : Int) ∧
      (0 : ℚ) ≤ 210 ∧ (210 : ℚ) ≤ 420 ∧ (0 : ℚ) ≤ 297 ∧ (297 : ℚ) ≤ 297) ∧
    ∃ (pieceWidth pieceHeight : ℚ) (px py : Int),
      pieceSizeDouble 420 4 = some pieceWidth ∧
      pieceSizeDouble 297 2 = some pieceHeight ∧
      0 < pieceWidth ∧ 0 < pieceHeight ∧
      pieceOfDouble 4 2 420 297 (210, 297) = some (px, py) ∧
      1 ≤ px ∧ px ≤ (4 : Nat) ∧ 1 ≤ py ∧ py ≤ (2 : Nat) :=
  ⟨⟨by decide, by decide, by decide, by decide, by norm_num, by norm_num, by norm_num,
      by norm_num, by norm_num, by norm_num, by norm_num, by norm_num⟩,
    (C29_piece_of_point_double 4 2 420 297 210 297 (by decide) (by decide) (by decide)
      (by decide) (by norm_num) (by norm_num) (by norm_num) (by norm_num) (by norm_num)
      (by norm_num) (by norm_num) (by norm_num)).imp
      (fun _ h => h.imp (fun _ h => h.imp (fun _ h => h.imp (fun _ h =>
        ⟨h.1, h.2.1, h.2.2.1, h.2.2.2.1, h.2.2.2.2.1, h.2.2.2.2.2.1, h.2.2.2.2.2.2.1,
          h.2.2.2.2.2.2.2.1, h.2.2.2.2.2.2.2.2.1⟩))))⟩


/-! ## Rounding of numbers of either sign -/

theorem roundBinary_abs (prec : Nat) (emin : Int) (q : ℚ) :
    |roundBinary prec emin q| = roundMagnitude prec emin |q| := by
  unfold roundBinary
  by_cases h : 0 ≤ q
  · rw [if_pos h, abs_of_nonneg h, abs_of_nonneg (roundMagnitude_nonneg prec emin h)]
  · have hneg : q < 0 := not_le.mp h
    have h2 : 0 ≤ -q := by linarith
    rw [if_neg h, abs_neg, abs_of_neg hneg, abs_of_nonneg (roundMagnitude_nonneg prec emin h2)]

theorem roundBinary_error_le (prec : Nat) (emin : Int) (q B : ℚ) (hB : |q| ≤ B)
    (hmin : (2 : ℚ) ^ emin ≤ B) : |roundBinary prec emin q - q| ≤ B / 2 ^ prec := by
  unfold roundBinary
  by_cases h : 0 ≤ q
  · rw [if_pos h]
    rw [abs_of_nonneg h] at hB
    exact roundMagnitude_error_le prec emin q B h hB hmin
  · have hneg : q < 0 := not_le.mp h
    have h2 : 0 ≤ -q := by linarith
    rw [if_neg h]
    rw [abs_of_neg hneg] at hB
    have := roundMagnitude_error_le prec emin (-q) B h2 hB hmin
    have e : -roundMagnitude prec emin (-q) - q = -(roundMagnitude prec emin (-q) - -q) := by
      ring
    rw [e, abs_neg]
    exact this

theorem roundBinary_dyadic (prec : Nat) (emin : Int) (z : Int) (j : Int)
    (hz : z.natAbs < 2 ^ prec) (hj : emin - ((prec : Int) - 1) ≤ j) :
    roundBinary prec emin ((z : ℚ) * (2 : ℚ) ^ j) = (z : ℚ) * (2 : ℚ) ^ j := by
  have hm := roundMagnitude_dyadic prec emin z.natAbs j hz hj
  unfold roundBinary
  by_cases h : 0 ≤ (z : ℚ) * (2 : ℚ) ^ j
  · rw [if_pos h]
    have hz0 : 0 ≤ z := by
      by_contra hneg
      have : (z : ℚ) < 0 := by exact_mod_cast not_le.mp hneg
      have := mul_neg_of_neg_of_pos this (two_zpow_pos j)
      linarith
    have e : ((z.natAbs : Nat) : ℚ) = (z : ℚ) := by
      rw [Nat.cast_natAbs, abs_of_nonneg hz0]
    rw [e] at hm
    exact hm
  · rw [if_neg h]
    have hz0 : z < 0 := by
      by_contra hnn
      have : (0 : ℚ) ≤ (z : ℚ) := by exact_mod_cast not_lt.mp hnn
      exact h (mul_nonneg this (two_zpow_pos j).le)
    have e : ((z.natAbs : Nat) : ℚ) = -(z : ℚ) := by
      rw [Nat.cast_natAbs, abs_of_neg hz0, Int.cast_neg]
    rw [e] at hm
    have e2 : -((z : ℚ) * (2 : ℚ) ^ j) = -(z : ℚ) * (2 : ℚ) ^ j := by ring
    rw [e2, hm]
    ring

/-- A number of magnitude at most `B`, with `B` between the least normal number and
`2 ^ emax`, rounds to a finite number, with an error of at most `B / 2 ^ prec`. -/
theorem roundFloat_approx (prec : Nat) (emin emax : Int) (hp : 1 ≤ prec)
    (he : emin - ((prec : Int) - 1) ≤ emax) (q B : ℚ) (hB : |q| ≤ B)
    (hmin : (2 : ℚ) ^ emin ≤ B) (hmax : B ≤ (2 : ℚ) ^ emax) :
    ∃ r, roundFloat prec emin emax q = some r ∧ |r - q| ≤ B / 2 ^ prec := by
  refine ⟨roundBinary prec emin q, ?_, roundBinary_error_le prec emin q B hB hmin⟩
  unfold roundFloat
  rw [if_pos]
  rw [roundBinary_abs]
  have h1 := roundMagnitude_mono prec emin hp (abs_nonneg q) (le_trans hB hmax)
  rw [roundMagnitude_zpow prec emin emax hp he] at h1
  exact lt_of_le_of_lt h1 (zpow_lt_zpow_right₀ (by norm_num) (by omega))

theorem toDouble_approx (q B : ℚ) (hB : |q| ≤ B) (hmin : (2 : ℚ) ^ (-1022 : Int) ≤ B)
    (hmax : B ≤ (2 : ℚ) ^ (1023 : Int)) :
    ∃ r, toDouble q = some r ∧ |r - q| ≤ B / 2 ^ 53 :=
  roundFloat_approx 53 (-1022) 1023 (by norm_num) (by norm_num) q B hB hmin hmax

theorem toFloat_approx (q B : ℚ) (hB : |q| ≤ B) (hmin : (2 : ℚ) ^ (-126 : Int) ≤ B)
    (hmax : B ≤ (2 : ℚ) ^ (127 : Int)) :
    ∃ r, toFloat q = some r ∧ |r - q| ≤ B / 2 ^ 24 :=
  roundFloat_approx 24 (-126) 127 (by norm_num) (by norm_num) q B hB hmin hmax

/-- A whole or half number of magnitude below `2 ^ 23` is a `float`. -/
theorem toFloat_half (z : Int) (hz : z.natAbs < 2 ^ 24) :
    toFloat ((z : ℚ) / 2) = some ((z : ℚ) / 2) := by
  have e : (z : ℚ) / 2 = (z : ℚ) * (2 : ℚ) ^ (-1 : Int) := by
    rw [zpow_neg_one]; ring
  have hr := roundBinary_dyadic 24 (-126) z (-1) hz (by norm_num)
  unfold toFloat roundFloat
  rw [e, hr, if_pos]
  rw [abs_mul, abs_of_pos (two_zpow_pos (-1))]
  have h1 : |(z : ℚ)| < 2 ^ 24 := by
    have : ((z.natAbs : Nat) : ℚ) < ((2 ^ 24 : Nat) : ℚ) := by exact_mod_cast hz
    rw [Nat.cast_natAbs] at this
    simpa using this
  have h2 : (2 : ℚ) ^ (-1 : Int) ≤ 1 := by norm_num
  have h3 : |(z : ℚ)| * (2 : ℚ) ^ (-1 : Int) ≤ |(z : ℚ)| * 1 :=
    mul_le_mul_of_nonneg_left h2 (abs_nonneg _)
  have h4 : (2 : ℚ) ^ 24 < (2 : ℚ) ^ ((127 : Int) + 1) := by norm_num
  linarith

theorem toFloat_intCast (z : Int) (hz : z.natAbs < 2 ^ 23) :
    toFloat (z : ℚ) = some (z : ℚ) := by
  have h := toFloat_half (2 * z) (by
    have : (2 * z).natAbs = 2 * z.natAbs := by rw [Int.natAbs_mul]; rfl
    rw [this]
    omega)
  have e : (((2 * z : Int)) : ℚ) / 2 = (z : ℚ) := by push_cast; ring
  rwa [e] at h

/-- A whole or half number of magnitude below `2 ^ 52` is a `double`. -/
theorem toDouble_half (z : Int) (hz : z.natAbs < 2 ^ 53) :
    toDouble ((z : ℚ) / 2) = some ((z : ℚ) / 2) := by
  have e : (z : ℚ) / 2 = (z : ℚ) * (2 : ℚ) ^ (-1 : Int) := by
    rw [zpow_neg_one]; ring
  have hr := roundBinary_dyadic 53 (-1022) z (-1) hz (by norm_num)
  unfold toDouble roundFloat
  rw [e, hr, if_pos]
  rw [abs_mul, abs_of_pos (two_zpow_pos (-1))]
  have h1 : |(z : ℚ)| < 2 ^ 53 := by
    have : ((z.natAbs : Nat) : ℚ) < ((2 ^ 53 : Nat) : ℚ) := by exact_mod_cast hz
    rw [Nat.cast_natAbs] at this
    simpa using this
  have h2 : (2 : ℚ) ^ (-1 : Int) ≤ 1 := by norm_num
  have h3 : |(z : ℚ)| * (2 : ℚ) ^ (-1 : Int) ≤ |(z : ℚ)| * 1 :=
    mul_le_mul_of_nonneg_left h2 (abs_nonneg _)
  have h4 : (2 : ℚ) ^ 53 < (2 : ℚ) ^ ((1023 : Int) + 1) := by norm_num
  linarith

theorem toDouble_intCast (z : Int) (hz : z.natAbs < 2 ^ 52) :
    toDouble (z : ℚ) = some (z : ℚ) := by
  have h := toDouble_half (2 * z) (by
    have : (2 * z).natAbs = 2 * z.natAbs := by rw [Int.natAbs_mul]; rfl
    rw [this]
    omega)
  have e : (((2 * z : Int)) : ℚ) / 2 = (z : ℚ) := by push_cast; ring
  rwa [e] at h

/-! ## The physical coordinates in machine arithmetic -/

theorem physicalFloat_approx (v a : ℚ) (c : Int) (hc1 : 1 ≤ c) (hc2 : c ≤ 2147483647)
    (ha1 : (2 : ℚ) ^ (-100 : Int) ≤ a) (ha2 : a ≤ (2 : ℚ) ^ (100 : Int))
    (hv : |v| ≤ (1 + 3 / 2 ^ 53) * (c : ℚ)) :
    ∃ r, physicalFloat v a c = some r ∧
      |r - v * a / (c : ℚ)| ≤ a / 2 ^ 23 + 4 * a / 2 ^ 53 := by
  have hcq1 : (1 : ℚ) ≤ (c : ℚ) := by exact_mod_cast hc1
  have hcq2 : (c : ℚ) ≤ 2147483647 := by exact_mod_cast hc2
  have hcpos : (0 : ℚ) < (c : ℚ) := by linarith
  have hapos : 0 < a := lt_of_lt_of_le (two_zpow_pos _) ha1
  have hP : a ≤ (c : ℚ) * a := by
    have := mul_le_mul_of_nonneg_right hcq1 hapos.le
    linarith
  have hPpos : 0 < (c : ℚ) * a := mul_pos hcpos hapos
  have hP2 : (c : ℚ) * a ≤ (2 : ℚ) ^ (131 : Int) := by
    have h31 : (c : ℚ) ≤ (2 : ℚ) ^ (31 : Int) := by
      have : (2147483647 : ℚ) ≤ (2 : ℚ) ^ (31 : Int) := by norm_num
      linarith
    calc (c : ℚ) * a ≤ (2 : ℚ) ^ (31 : Int) * (2 : ℚ) ^ (100 : Int) :=
          mul_le_mul h31 ha2 hapos.le (two_zpow_pos _).le
      _ = (2 : ℚ) ^ (131 : Int) := by
          rw [← zpow_add₀ (by norm_num : (2 : ℚ) ≠ 0)]; norm_num
  have hlow : (2 : ℚ) ^ (-1022 : Int) ≤ a :=
    le_trans (zpow_le_zpow_right₀ (by norm_num) (by norm_num)) ha1
  have hlowF : (2 : ℚ) ^ (-126 : Int) ≤ a :=
    le_trans (zpow_le_zpow_right₀ (by norm_num) (by norm_num)) ha1
  have hhigh : (2 : ℚ) * (2 : ℚ) ^ (131 : Int) ≤ (2 : ℚ) ^ (1023 : Int) := by
    have e : (2 : ℚ) * (2 : ℚ) ^ (131 : Int) = (2 : ℚ) ^ (132 : Int) := by
      rw [show (132 : Int) = 1 + 131 by norm_num, zpow_add₀ (by norm_num : (2 : ℚ) ≠ 0),
        zpow_one]
    rw [e]
    exact zpow_le_zpow_right₀ (by norm_num) (by norm_num)
  have hhighD : (2 : ℚ) * a ≤ (2 : ℚ) ^ (1023 : Int) := by
    have e : (2 : ℚ) * (2 : ℚ) ^ (100 : Int) = (2 : ℚ) ^ (101 : Int) := by
      rw [show (101 : Int) = 1 + 100 by norm_num, zpow_add₀ (by norm_num : (2 : ℚ) ≠ 0),
        zpow_one]
    have : (2 : ℚ) ^ (101 : Int) ≤ (2 : ℚ) ^ (1023 : Int) :=
      zpow_le_zpow_right₀ (by norm_num) (by norm_num)
    linarith
  have hhighF : (2 : ℚ) * a ≤ (2 : ℚ) ^ (127 : Int) := by
    have e : (2 : ℚ) * (2 : ℚ) ^ (100 : Int) = (2 : ℚ) ^ (101 : Int) := by
      rw [show (101 : Int) = 1 + 100 by norm_num, zpow_add₀ (by norm_num : (2 : ℚ) ≠ 0),
        zpow_one]
    have : (2 : ℚ) ^ (101 : Int) ≤ (2 : ℚ) ^ (127 : Int) :=
      zpow_le_zpow_right₀ (by norm_num) (by norm_num)
    linarith
  -- the product
  have hva1 : |v * a| ≤ (1 + 3 / 2 ^ 53) * ((c : ℚ) * a) := by
    rw [abs_mul, abs_of_pos hapos]
    have := mul_le_mul_of_nonneg_right hv hapos.le
    linarith
  have hva : |v * a| ≤ 2 * ((c : ℚ) * a) := by
    have : (1 + 3 / 2 ^ 53 : ℚ) * ((c : ℚ) * a) ≤ 2 * ((c : ℚ) * a) :=
      mul_le_mul_of_nonneg_right (by norm_num) hPpos.le
    linarith
  obtain ⟨m, hm, hme⟩ := toDouble_approx (v * a) (2 * ((c : ℚ) * a)) hva (by linarith)
    (by linarith)
  have hmabs : |m| ≤ (1 + 5 / 2 ^ 53) * ((c : ℚ) * a) := by
    have h1 := abs_le.mp hme
    have h2 := abs_le.mp hva1
    rw [abs_le]
    constructor <;> linarith
  -- the quotient
  have hq : |m / (c : ℚ)| ≤ (1 + 5 / 2 ^ 53) * a := by
    rw [abs_div, abs_of_pos hcpos, div_le_iff₀ hcpos]
    linarith
  have hq2 : |m / (c : ℚ)| ≤ 2 * a := by
    have : (1 + 5 / 2 ^ 53 : ℚ) * a ≤ 2 * a :=
      mul_le_mul_of_nonneg_right (by norm_num) hapos.le
    linarith
  obtain ⟨d, hd, hde⟩ := toDouble_approx (m / (c : ℚ)) (2 * a) hq2 (by linarith) hhighD
  have hdd : doubleDiv m (c : ℚ) = some d := by
    unfold doubleDiv
    rw [if_neg hcpos.ne']
    exact hd
  have hdabs : |d| ≤ 2 * a := by
    have h1 := abs_le.mp hde
    have h2 := abs_le.mp hq
    rw [abs_le]
    constructor <;> linarith
  -- the conversion to float
  obtain ⟨r, hr, hre⟩ := toFloat_approx d (2 * a) hdabs (by linarith) hhighF
  refine ⟨r, ?_, ?_⟩
  · simp [physicalFloat, doubleMul, hm, hdd, hr]
  · have hmq : |m / (c : ℚ) - v * a / (c : ℚ)| ≤ 2 * a / 2 ^ 53 := by
      rw [← sub_div, abs_div, abs_of_pos hcpos, div_le_iff₀ hcpos]
      linarith
    have h1 := abs_le.mp hre
    have h2 := abs_le.mp hde
    have h3 := abs_le.mp hmq
    rw [abs_le]
    constructor <;> linarith

theorem centerDouble_axis (p s : ℚ) (c : Int) (hc1 : 1 ≤ c) (hc2 : c ≤ 2147483647)
    (hp0 : 0 ≤ p) (hs0 : 0 ≤ s) (hps : p + s ≤ (c : ℚ)) :
    ∃ half cen, doubleDiv s 2 = some half ∧ doubleAdd p half = some cen ∧
      |cen - (p + s / 2)| ≤ 3 * (c : ℚ) / 2 ^ 53 := by
  have hcq1 : (1 : ℚ) ≤ (c : ℚ) := by exact_mod_cast hc1
  have hcq2 : (c : ℚ) ≤ 2147483647 := by exact_mod_cast hc2
  have hlow : (2 : ℚ) ^ (-1022 : Int) ≤ (c : ℚ) := by
    have : (2 : ℚ) ^ (-1022 : Int) ≤ (2 : ℚ) ^ (0 : Int) :=
      zpow_le_zpow_right₀ (by norm_num) (by norm_num)
    rw [zpow_zero] at this
    linarith
  have hhigh : 2 * (c : ℚ) ≤ (2 : ℚ) ^ (1023 : Int) := by
    have h1 : (2 : ℚ) ^ (33 : Int) ≤ (2 : ℚ) ^ (1023 : Int) :=
      zpow_le_zpow_right₀ (by norm_num) (by norm_num)
    have h2 : (2 : ℚ) * 2147483647 ≤ (2 : ℚ) ^ (33 : Int) := by norm_num
    linarith
  have hs2 : |s / 2| ≤ (c : ℚ) := by
    rw [abs_of_nonneg (by linarith)]
    linarith
  obtain ⟨half, hh, hhe⟩ := toDouble_approx (s / 2) (c : ℚ) hs2 hlow (by linarith)
  have hhd : doubleDiv s 2 = some half := by
    unfold doubleDiv
    rw [if_neg (by norm_num)]
    exact hh
  have h1 := abs_le.mp hhe
  have hsum : |p + half| ≤ 2 * (c : ℚ) := by
    have : (c : ℚ) / 2 ^ 53 ≤ (c : ℚ) := div_le_self (by linarith) (by norm_num)
    rw [abs_le]
    constructor <;> linarith
  obtain ⟨cen, hc, hce⟩ := toDouble_approx (p + half) (2 * (c : ℚ)) hsum (by linarith) hhigh
  refine ⟨half, cen, hhd, hc, ?_⟩
  have h2 := abs_le.mp hce
  rw [abs_le]
  constructor <;> linarith

/-- One axis of `saveDefectCoordinates` in machine arithmetic, for a rectangle side
`[p, p + s]` inside `[0, c]`. -/
theorem physical_axis (p s a : ℚ) (c : Int) (hc1 : 1 ≤ c) (hc2 : c ≤ 2147483647)
    (ha1 : (2 : ℚ) ^ (-100 : Int) ≤ a) (ha2 : a ≤ (2 : ℚ) ^ (100 : Int))
    (hp0 : 0 ≤ p) (hs0 : 0 ≤ s) (hps : p + s ≤ (c : ℚ)) :
    ∃ half cen pc ps, doubleDiv s 2 = some half ∧ doubleAdd p half = some cen ∧
      physicalFloat cen a c = some pc ∧ physicalFloat s a c = some ps ∧
      |cen - (p + s / 2)| ≤ 3 * (c : ℚ) / 2 ^ 53 ∧
      |pc - (p + s / 2) * a / (c : ℚ)| ≤ a / 2 ^ 22 ∧
      |ps - s * a / (c : ℚ)| ≤ a / 2 ^ 22 ∧
      -(a / 2 ^ 21) ≤ pc - ps / 2 ∧ pc + ps / 2 ≤ a + a / 2 ^ 21 := by
  have hcq1 : (1 : ℚ) ≤ (c : ℚ) := by exact_mod_cast hc1
  have hcpos : (0 : ℚ) < (c : ℚ) := by linarith
  have hapos : 0 < a := lt_of_lt_of_le (two_zpow_pos _) ha1
  obtain ⟨half, cen, hhalf, hcen, hcene⟩ := centerDouble_axis p s c hc1 hc2 hp0 hs0 hps
  have hc3 := abs_le.mp hcene
  have hcenabs : |cen| ≤ (1 + 3 / 2 ^ 53) * (c : ℚ) := by
    rw [abs_le]
    constructor <;> linarith
  have hsabs : |s| ≤ (1 + 3 / 2 ^ 53) * (c : ℚ) := by
    rw [abs_of_nonneg hs0]
    linarith
  obtain ⟨pc, hpc, hpce⟩ := physicalFloat_approx cen a c hc1 hc2 ha1 ha2 hcenabs
  obtain ⟨ps, hps2, hpse⟩ := physicalFloat_approx s a c hc1 hc2 ha1 ha2 hsabs
  have hshift : |cen * a / (c : ℚ) - (p + s / 2) * a / (c : ℚ)| ≤ 3 * a / 2 ^ 53 := by
    rw [← sub_div, ← sub_mul, abs_div, abs_mul, abs_of_pos hcpos, abs_of_pos hapos,
      div_le_iff₀ hcpos]
    have := mul_le_mul_of_nonneg_right hcene hapos.le
    linarith
  have h1 := abs_le.mp hpce
  have h2 := abs_le.mp hpse
  have h3 := abs_le.mp hshift
  have e1 : (p + s / 2) * a / (c : ℚ) - s * a / (c : ℚ) / 2 = p * a / (c : ℚ) := by ring
  have e2 : (p + s / 2) * a / (c : ℚ) + s * a / (c : ℚ) / 2 = (p + s) * a / (c : ℚ) := by ring
  have hp1 : 0 ≤ p * a / (c : ℚ) := div_nonneg (mul_nonneg hp0 hapos.le) hcpos.le
  have hp2 : (p + s) * a / (c : ℚ) ≤ a := by
    rw [div_le_iff₀ hcpos]
    have := mul_le_mul_of_nonneg_right hps hapos.le
    linarith
  have hpcE : |pc - (p + s / 2) * a / (c : ℚ)| ≤ a / 2 ^ 22 := by
    rw [abs_le]
    constructor <;> linarith
  have hpsE : |ps - s * a / (c : ℚ)| ≤ a / 2 ^ 22 := by
    rw [abs_le]
    constructor <;> linarith
  have h4 := abs_le.mp hpcE
  have h5 := abs_le.mp hpsE
  refine ⟨half, cen, pc, ps, hhalf, hcen, hpc, hps2, hcene, hpcE, hpsE, ?_, ?_⟩
  · linarith
  · linarith

/-! ## The canvas rectangle in machine arithmetic -/

theorem physicalFloat_isSome (v a : ℚ) (c : Int) (hc1 : 1 ≤ c)
    (ha1 : (2 : ℚ) ^ (-100 : Int) ≤ a) (ha2 : a ≤ (2 : ℚ) ^ (100 : Int))
    (hv : |v| ≤ 4194304) : ∃ r, physicalFloat v a c = some r := by
  have hcq1 : (1 : ℚ) ≤ (c : ℚ) := by exact_mod_cast hc1
  have hcpos : (0 : ℚ) < (c : ℚ) := by linarith
  have hapos : 0 < a := lt_of_lt_of_le (two_zpow_pos _) ha1
  have hlow : (2 : ℚ) ^ (-1022 : Int) ≤ a :=
    le_trans (zpow_le_zpow_right₀ (by norm_num) (by norm_num)) ha1
  have hlowF : (2 : ℚ) ^ (-126 : Int) ≤ a :=
    le_trans (zpow_le_zpow_right₀ (by norm_num) (by norm_num)) ha1
  have hhigh : (16777216 : ℚ) * a ≤ (2 : ℚ) ^ (127 : Int) := by
    have e : (16777216 : ℚ) * (2 : ℚ) ^ (100 : Int) = (2 : ℚ) ^ (124 : Int) := by
      rw [show (124 : Int) = 24 + 100 by norm_num, zpow_add₀ (by norm_num : (2 : ℚ) ≠ 0)]
      norm_num
    have h1 : (2 : ℚ) ^ (124 : Int) ≤ (2 : ℚ) ^ (127 : Int) :=
      zpow_le_zpow_right₀ (by norm_num) (by norm_num)
    have h2 : (16777216 : ℚ) * a ≤ 16777216 * (2 : ℚ) ^ (100 : Int) :=
      mul_le_mul_of_nonneg_left ha2 (by norm_num)
    linarith
  have hhighD : (2 : ℚ) ^ (127 : Int) ≤ (2 : ℚ) ^ (1023 : Int) :=
    zpow_le_zpow_right₀ (by norm_num) (by norm_num)
  have hva : |v * a| ≤ 4194304 * a := by
    rw [abs_mul, abs_of_pos hapos]
    exact mul_le_mul_of_nonneg_right hv hapos.le
  obtain ⟨m, hm, hme⟩ := toDouble_approx (v * a) (4194304 * a) hva (by linarith) (by linarith)
  have hmabs : |m| ≤ 8388608 * a := by
    have h1 := abs_le.mp hme
    have h2 := abs_le.mp hva
    rw [abs_le]
    constructor <;> linarith
  have hq : |m / (c : ℚ)| ≤ 8388608 * a := by
    rw [abs_div, abs_of_pos hcpos, div_le_iff₀ hcpos]
    have : 8388608 * a * 1 ≤ 8388608 * a * (c : ℚ) :=
      mul_le_mul_of_nonneg_left hcq1 (by linarith)
    linarith
  obtain ⟨d, hd, hde⟩ := toDouble_approx (m / (c : ℚ)) (8388608 * a) hq (by linarith)
    (by linarith)
  have hdd : doubleDiv m (c : ℚ) = some d := by
    unfold doubleDiv
    rw [if_neg hcpos.ne']
    exact hd
  have hdabs : |d| ≤ 16777216 * a := by
    have h1 := abs_le.mp hde
    have h2 := abs_le.mp hq
    rw [abs_le]
    constructor <;> linarith
  obtain ⟨r, hr, _⟩ := toFloat_approx d (16777216 * a) hdabs (by linarith) hhigh
  exact ⟨r, by simp [physicalFloat, doubleMul, hm, hdd, hr]⟩

theorem natAbs_lt_of_abs_le (z : Int) (b : Nat) (n : Nat) (h : |(z : ℚ)| ≤ (b : ℚ))
    (hb : b < n) : z.natAbs < n := by
  have h1 : ((z.natAbs : Nat) : ℚ) ≤ (b : ℚ) := by
    rw [Nat.cast_natAbs]
    simpa using h
  have h2 : z.natAbs ≤ b := by exact_mod_cast h1
  omega

/-- One axis of the rectangle of `labelDefects` and of its centre, for a grid origin `g`, a
crop offset `crop`, a raw centre `r` and a raw size `s`. -/
theorem canvas_axis (g crop : Int) (r s : ℚ) (hg : g.natAbs ≤ 8192) (hcrop : crop.natAbs ≤ 512)
    (hr : |r| ≤ 8192) (hs : |s| ≤ 8192) :
    ∃ o c sz xp half cen, toFloat r = some o ∧ canvasCoordFloat g o crop = some c ∧
      toFloat s = some sz ∧ cornerFloat c sz = some xp ∧ doubleDiv sz 2 = some half ∧
      doubleAdd xp half = some cen ∧
      |sz - s| ≤ 1 / 2 ^ 11 ∧ |cen - ((g : ℚ) + r - (crop : ℚ))| ≤ 1 / 64 ∧
      |cen| ≤ 131072 ∧
      (∀ ri si : Int, r = (ri : ℚ) → s = (si : ℚ) →
        sz = s ∧ cen = (g : ℚ) + r - (crop : ℚ) ∧ xp = (g : ℚ) + r - (crop : ℚ) - s / 2) := by
  have hgq : |(g : ℚ)| ≤ 8192 := by
    have : ((g.natAbs : Nat) : ℚ) ≤ ((8192 : Nat) : ℚ) := by exact_mod_cast hg
    rw [Nat.cast_natAbs] at this
    simpa using this
  have hcq : |(crop : ℚ)| ≤ 512 := by
    have : ((crop.natAbs : Nat) : ℚ) ≤ ((512 : Nat) : ℚ) := by exact_mod_cast hcrop
    rw [Nat.cast_natAbs] at this
    simpa using this
  have hg2 := abs_le.mp hgq
  have hc2 := abs_le.mp hcq
  have hr2 := abs_le.mp hr
  have hs2 := abs_le.mp hs
  have lowF : ∀ B : ℚ, 1 ≤ B → (2 : ℚ) ^ (-126 : Int) ≤ B := by
    intro B hB
    have : (2 : ℚ) ^ (-126 : Int) ≤ (2 : ℚ) ^ (0 : Int) :=
      zpow_le_zpow_right₀ (by norm_num) (by norm_num)
    rw [zpow_zero] at this
    linarith
  have lowD : ∀ B : ℚ, 1 ≤ B → (2 : ℚ) ^ (-1022 : Int) ≤ B := by
    intro B hB
    have : (2 : ℚ) ^ (-1022 : Int) ≤ (2 : ℚ) ^ (0 : Int) :=
      zpow_le_zpow_right₀ (by norm_num) (by norm_num)
    rw [zpow_zero] at this
    linarith
  have highF : ∀ B : ℚ, B ≤ 1048576 → B ≤ (2 : ℚ) ^ (127 : Int) := by
    intro B hB
    have h1 : (2 : ℚ) ^ (20 : Int) ≤ (2 : ℚ) ^ (127 : Int) :=
      zpow_le_zpow_right₀ (by norm_num) (by norm_num)
    have h2 : (1048576 : ℚ) = (2 : ℚ) ^ (20 : Int) := by norm_num
    linarith
  have highD : ∀ B : ℚ, B ≤ 1048576 → B ≤ (2 : ℚ) ^ (1023 : Int) := by
    intro B hB
    have h1 : (2 : ℚ) ^ (20 : Int) ≤ (2 : ℚ) ^ (1023 : Int) :=
      zpow_le_zpow_right₀ (by norm_num) (by norm_num)
    have h2 : (1048576 : ℚ) = (2 : ℚ) ^ (20 : Int) := by norm_num
    linarith
  -- the raw centre as a float
  obtain ⟨o, ho, hoe⟩ := toFloat_approx r 8192 hr (lowF _ (by norm_num)) (highF _ (by norm_num))
  have ho2 := abs_le.mp hoe
  -- the crop offset and the grid origin are floats
  have hcropF : intToFloat crop = some (crop : ℚ) := toFloat_intCast crop (by omega)
  have hgridF : intToFloat g = some (g : ℚ) := toFloat_intCast g (by omega)
  -- orig - crop
  have hoff0 : |o - (crop : ℚ)| ≤ 16384 := by
    rw [abs_le]
    constructor <;> linarith
  obtain ⟨off, hoff, hoffe⟩ := toFloat_approx (o - (crop : ℚ)) 16384 hoff0
    (lowF _ (by norm_num)) (highF _ (by norm_num))
  have hoff2 := abs_le.mp hoffe
  -- grid + (orig - crop)
  have hc0 : |(g : ℚ) + off| ≤ 32768 := by
    rw [abs_le]
    constructor <;> linarith
  obtain ⟨c, hc, hce⟩ := toFloat_approx ((g : ℚ) + off) 32768 hc0
    (lowF _ (by norm_num)) (highF _ (by norm_num))
  have hce2 := abs_le.mp hce
  have hcanvas : canvasCoordFloat g o crop = some c := by
    simp [canvasCoordFloat, hcropF, hgridF, floatSub, floatAdd, hoff, hc]
  -- the raw size as a float
  obtain ⟨sz, hsz, hsze⟩ := toFloat_approx s 8192 hs (lowF _ (by norm_num))
    (highF _ (by norm_num))
  have hsz2 := abs_le.mp hsze
  -- size / 2 in float
  have htwo : intToFloat 2 = some (2 : ℚ) := by
    have := toFloat_intCast 2 (by decide)
    simpa [intToFloat] using this
  have hhf0 : |sz / 2| ≤ 8192 := by
    rw [abs_le]
    constructor <;> linarith
  obtain ⟨hf, hhf, hhfe⟩ := toFloat_approx (sz / 2) 8192 hhf0 (lowF _ (by norm_num))
    (highF _ (by norm_num))
  have hhf2 := abs_le.mp hhfe
  have hfdiv : floatDiv sz 2 = some hf := by
    unfold floatDiv
    rw [if_neg (by norm_num)]
    exact hhf
  -- canvas - size / 2
  have hxp0 : |c - hf| ≤ 65536 := by
    rw [abs_le]
    constructor <;> linarith
  obtain ⟨xp, hxp, hxpe⟩ := toFloat_approx (c - hf) 65536 hxp0 (lowF _ (by norm_num))
    (highF _ (by norm_num))
  have hxp2 := abs_le.mp hxpe
  have hcorner : cornerFloat c sz = some xp := by
    simp [cornerFloat, htwo, hfdiv, floatSub, hxp]
  -- the centre of the rectangle in double
  obtain ⟨half, hhalf, hhalfe⟩ := toDouble_approx (sz / 2) 8192 hhf0 (lowD _ (by norm_num))
    (highD _ (by norm_num))
  have hhalf2 := abs_le.mp hhalfe
  have hhalfd : doubleDiv sz 2 = some half := by
    unfold doubleDiv
    rw [if_neg (by norm_num)]
    exact hhalf
  have hcen0 : |xp + half| ≤ 131072 := by
    rw [abs_le]
    constructor <;> linarith
  obtain ⟨cen, hcen, hcene⟩ := toDouble_approx (xp + half) 131072 hcen0
    (lowD _ (by norm_num)) (highD _ (by norm_num))
  have hcen2 := abs_le.mp hcene
  refine ⟨o, c, sz, xp, half, cen, ho, hcanvas, hsz, hcorner, hhalfd, hcen, ?_, ?_, ?_, ?_⟩
  · rw [abs_le]
    constructor <;> linarith
  · rw [abs_le]
    constructor <;> linarith
  · rw [abs_le]
    constructor <;> linarith
  · intro ri si hri hsi
    subst hri hsi
    have hri : ri.natAbs < 8193 := natAbs_lt_of_abs_le ri 8192 8193 (by simpa using hr)
      (by norm_num)
    have hsi : si.natAbs < 8193 := natAbs_lt_of_abs_le si 8192 8193 (by simpa using hs)
      (by norm_num)
    -- every step is exact
    have e1 : o = (ri : ℚ) := by
      have := toFloat_intCast ri (by omega)
      rw [ho] at this
      exact Option.some.inj this
    have e2 : off = ((ri - crop : Int) : ℚ) := by
      have := toFloat_intCast (ri - crop) (by omega)
      rw [Int.cast_sub, ← e1, hoff] at this
      rw [Int.cast_sub, ← e1]
      exact Option.some.inj this
    have e3 : c = ((g + (ri - crop) : Int) : ℚ) := by
      have := toFloat_intCast (g + (ri - crop)) (by omega)
      rw [Int.cast_add, ← e2, hc] at this
      rw [Int.cast_add, ← e2]
      exact Option.some.inj this
    have e4 : sz = (si : ℚ) := by
      have := toFloat_intCast si (by omega)
      rw [hsz] at this
      exact Option.some.inj this
    have e5 : hf = (si : ℚ) / 2 := by
      have := toFloat_half si (by omega)
      rw [← e4, hhf] at this
      rw [← e4]
      exact Option.some.inj this
    have e6 : xp = ((2 * (g + (ri - crop)) - si : Int) : ℚ) / 2 := by
      have := toFloat_half (2 * (g + (ri - crop)) - si) (by omega)
      have e : ((2 * (g + (ri - crop)) - si : Int) : ℚ) / 2 = c - hf := by
        rw [e3, e5]
        push_cast
        ring
      rw [e, hxp] at this
      rw [e]
      exact Option.some.inj this
    have e7 : half = (si : ℚ) / 2 := by
      have := toDouble_half si (by omega)
      rw [← e4, hhalf] at this
      rw [← e4]
      exact Option.some.inj this
    have e8 : cen = ((g + (ri - crop) : Int) : ℚ) := by
      have := toDouble_intCast (g + (ri - crop)) (by omega)
      have e : ((g + (ri - crop) : Int) : ℚ) = xp + half := by
        rw [e6, e7]
        push_cast
        ring
      rw [e, hcen] at this
      rw [e]
      exact Option.some.inj this
    refine ⟨e4, ?_, ?_⟩
    · rw [e8]
      push_cast
      ring
    · rw [e6]
      push_cast
      ring

/-! ## Evaluation of a rounding from its exponent -/

/-- The rounding of a positive number `q` with `2 ^ e ≤ q < 2 ^ (e + 1)`: the significand
`n` is `q / 2 ^ s` rounded to the nearest integer, for the exponent
`s = max e emin - (prec - 1)` of the last place. -/
theorem roundFloat_eval (prec : Nat) (emin emax : Int) (q : ℚ) (e n : Int) (r : ℚ)
    (h1 : (2 : ℚ) ^ e ≤ q) (h2 : q < (2 : ℚ) ^ (e + 1))
    (hn : roundHalfEven (q / (2 : ℚ) ^ (max e emin - ((prec : Int) - 1))) = n)
    (hr : (n : ℚ) * (2 : ℚ) ^ (max e emin - ((prec : Int) - 1)) = r)
    (hfin : |r| < (2 : ℚ) ^ (emax + 1)) :
    roundFloat prec emin emax q = some r := by
  have hq : 0 < q := lt_of_lt_of_le (two_zpow_pos e) h1
  have hlog : Int.log 2 q = e := by
    have := le_log_of_zpow_le hq h1
    have := log_lt_of_lt_zpow hq h2
    omega
  have hm : roundBinary prec emin q = r := by
    rw [roundBinary_of_nonneg prec emin hq.le]
    unfold roundMagnitude ulpAt
    rw [hlog, hn, hr]
  unfold roundFloat
  rw [hm, if_pos hfin]

theorem toDouble_eval (q : ℚ) (e n : Int) (r : ℚ)
    (h1 : (2 : ℚ) ^ e ≤ q) (h2 : q < (2 : ℚ) ^ (e + 1))
    (hn : roundHalfEven (q / (2 : ℚ) ^ (max e (-1022) - (((53 : Nat) : Int) - 1))) = n)
    (hr : (n : ℚ) * (2 : ℚ) ^ (max e (-1022) - (((53 : Nat) : Int) - 1)) = r)
    (hfin : |r| < (2 : ℚ) ^ ((1023 : Int) + 1)) : toDouble q = some r :=
  roundFloat_eval 53 (-1022) 1023 q e n r h1 h2 hn hr hfin

theorem toFloat_eval (q : ℚ) (e n : Int) (r : ℚ)
    (h1 : (2 : ℚ) ^ e ≤ q) (h2 : q < (2 : ℚ) ^ (e + 1))
    (hn : roundHalfEven (q / (2 : ℚ) ^ (max e (-126) - (((24 : Nat) : Int) - 1))) = n)
    (hr : (n : ℚ) * (2 : ℚ) ^ (max e (-126) - (((24 : Nat) : Int) - 1)) = r)
    (hfin : |r| < (2 : ℚ) ^ ((127 : Int) + 1)) : toFloat q = some r :=
  roundFloat_eval 24 (-126) 127 q e n r h1 h2 hn hr hfin

theorem doubleDiv_eval (a b : ℚ) (hb : b ≠ 0) (e n : Int) (r : ℚ)
    (h1 : (2 : ℚ) ^ e ≤ a / b) (h2 : a / b < (2 : ℚ) ^ (e + 1))
    (hn : roundHalfEven (a / b / (2 : ℚ) ^ (max e (-1022) - (((53 : Nat) : Int) - 1))) = n)
    (hr : (n : ℚ) * (2 : ℚ) ^ (max e (-1022) - (((53 : Nat) : Int) - 1)) = r)
    (hfin : |r| < (2 : ℚ) ^ ((1023 : Int) + 1)) : doubleDiv a b = some r := by
  unfold doubleDiv
  rw [if_neg hb]
  exact toDouble_eval (a / b) e n r h1 h2 hn hr hfin

theorem floatDiv_eval (a b : ℚ) (hb : b ≠ 0) (e n : Int) (r : ℚ)
    (h1 : (2 : ℚ) ^ e ≤ a / b) (h2 : a / b < (2 : ℚ) ^ (e + 1))
    (hn : roundHalfEven (a / b / (2 : ℚ) ^ (max e (-126) - (((24 : Nat) : Int) - 1))) = n)
    (hr : (n : ℚ) * (2 : ℚ) ^ (max e (-126) - (((24 : Nat) : Int) - 1)) = r)
    (hfin : |r| < (2 : ℚ) ^ ((127 : Int) + 1)) : floatDiv a b = some r := by
  unfold floatDiv
  rw [if_neg hb]
  exact toFloat_eval (a / b) e n r h1 h2 hn hr hfin

/-! ## The reprojection functions from their steps -/

theorem centerDouble_eq {r : QRectF} {halfW cx halfH cy : ℚ}
    (h1 : doubleDiv r.w 2 = some halfW) (h2 : doubleAdd r.xp halfW = some cx)
    (h3 : doubleDiv r.h 2 = some halfH) (h4 : doubleAdd r.yp halfH = some cy) :
    r.centerDouble = some (cx, cy) := by
  simp only [QRectF.centerDouble, h1, h2, h3, h4, Option.bind_eq_bind, Option.some_bind]

theorem physicalFloat_eq {value actual : ℚ} {stitched : Int} {product quotient r : ℚ}
    (h1 : doubleMul value actual = some product)
    (h2 : doubleDiv product (stitched : ℚ) = some quotient) (h3 : toFloat quotient = some r) :
    physicalFloat value actual stitched = some r := by
  simp only [physicalFloat, h1, h2, h3, Option.bind_eq_bind, Option.some_bind]

theorem saveDefectCoordinatesFloat_eq (actualWidth actualHeight : ℚ) (imageName : String)
    (seqNum : Int) (defectType : String) (confidence : ℚ) (canvasRect : QRectF)
    (stitchedWidth stitchedHeight : Int) {centre : ℚ × ℚ} {px py pw ph : ℚ}
    (hc : canvasRect.centerDouble = some centre)
    (hx : physicalFloat centre.1 actualWidth stitchedWidth = some px)
    (hy : physicalFloat centre.2 actualHeight stitchedHeight = some py)
    (hw : physicalFloat canvasRect.w actualWidth stitchedWidth = some pw)
    (hh : physicalFloat canvasRect.h actualHeight stitchedHeight = some ph) :
    saveDefectCoordinatesFloat actualWidth actualHeight imageName seqNum defectType confidence
        canvasRect stitchedWidth stitchedHeight
      = some { source_image := imageName, sequence_number := seqNum, defectType := defectType,
               confidence := confidence,
               canvas_position :=
                 { x := centre.1, y := centre.2, width := canvasRect.w,
                   height := canvasRect.h },
               physical_position := { x := px, y := py, width := pw, height := ph },
               surface_index := none } := by
  simp only [saveDefectCoordinatesFloat, hc, hx, hy, hw, hh, Option.bind_eq_bind,
    Option.some_bind]

theorem canvasCoordFloat_eq {grid crop : Int} {orig cropF offset gridF c : ℚ}
    (h1 : intToFloat crop = some cropF) (h2 : floatSub orig cropF = some offset)
    (h3 : intToFloat grid = some gridF) (h4 : floatAdd gridF offset = some c) :
    canvasCoordFloat grid orig crop = some c := by
  simp only [canvasCoordFloat, h1, h2, h3, h4, Option.bind_eq_bind, Option.some_bind]

theorem cornerFloat_eq {canvas size two half xp : ℚ}
    (h1 : intToFloat 2 = some two) (h2 : floatDiv size two = some half)
    (h3 : floatSub canvas half = some xp) : cornerFloat canvas size = some xp := by
  simp only [cornerFloat, h1, h2, h3, Option.bind_eq_bind, Option.some_bind]

theorem defectRectFloat_eq (gridX gridY : Int) (detection : Detection)
    {ox oy ow oh cx cy xp yp : ℚ}
    (h1 : toFloat detection.center_x = some ox) (h2 : toFloat detection.center_y = some oy)
    (h3 : toFloat detection.width = some ow) (h4 : toFloat detection.height = some oh)
    (h5 : canvasCoordFloat gridX ox 475 = some cx)
    (h6 : canvasCoordFloat gridY oy 197 = some cy)
    (h7 : cornerFloat cx ow = some xp) (h8 : cornerFloat cy oh = some yp) :
    defectRectFloat gridX gridY detection = some ⟨xp, yp, ow, oh⟩ := by
  have e1 : ((1920 - 970) / 2 : Int) = 475 := by decide
  have e2 : ((1080 - 686) / 2 : Int) = 197 := by decide
  simp only [defectRectFloat, e1, e2, h1, h2, h3, h4, h5, h6, h7, h8, Option.bind_eq_bind,
    Option.some_bind]

theorem intToFloat_eq (z : Int) (hz : z.natAbs < 2 ^ 23) : intToFloat z = some (z : ℚ) :=
  toFloat_intCast z hz

/-- The rectangle of `labelDefects` and its centre for a detection and a grid origin of
magnitude at most `8192`. -/
theorem defectRectFloat_spec (gridX gridY : Int) (detection : Detection)
    (hgx : gridX.natAbs ≤ 8192) (hgy : gridY.natAbs ≤ 8192)
    (hx : |detection.center_x| ≤ 8192) (hy : |detection.center_y| ≤ 8192)
    (hw : |detection.width| ≤ 8192) (hh : |detection.height| ≤ 8192) :
    ∃ rect centre, defectRectFloat gridX gridY detection = some rect ∧
      rect.centerDouble = some centre ∧
      |rect.w - detection.width| ≤ 1 / 2 ^ 11 ∧
      |rect.h - detection.height| ≤ 1 / 2 ^ 11 ∧
      |centre.1 - ((gridX : ℚ) + detection.center_x - 475)| ≤ 1 / 64 ∧
      |centre.2 - ((gridY : ℚ) + detection.center_y - 197)| ≤ 1 / 64 ∧
      |centre.1| ≤ 131072 ∧ |centre.2| ≤ 131072 ∧
      (∀ rx ry w h : Int, detection.center_x = (rx : ℚ) → detection.center_y = (ry : ℚ) →
        detection.width = (w : ℚ) → detection.height = (h : ℚ) →
        rect = ⟨(gridX : ℚ) + detection.center_x - 475 - detection.width / 2,
                (gridY : ℚ) + detection.center_y - 197 - detection.height / 2,
                detection.width, detection.height⟩ ∧
        centre = ((gridX : ℚ) + detection.center_x - 475,
                  (gridY : ℚ) + detection.center_y - 197)) := by
  obtain ⟨ox, cx, sw, xp, halfW, cenx, a1, a2, a3, a4, a5, a6, ew, ex, bx, ix⟩ :=
    canvas_axis gridX 475 detection.center_x detection.width hgx (by decide) hx hw
  obtain ⟨oy, cy, sh, yp, halfH, ceny, b1, b2, b3, b4, b5, b6, eh, ey, byy, iy⟩ :=
    canvas_axis gridY 197 detection.center_y detection.height hgy (by decide) hy hh
  have ex2 : |cenx - ((gridX : ℚ) + detection.center_x - 475)| ≤ 1 / 64 := by
    simpa using ex
  have ey2 : |ceny - ((gridY : ℚ) + detection.center_y - 197)| ≤ 1 / 64 := by
    simpa using ey
  refine ⟨⟨xp, yp, sw, sh⟩, (cenx, ceny), defectRectFloat_eq gridX gridY detection a1 b1 a3 b3 a2 b2 a4 b4,
    centerDouble_eq a5 a6 b5 b6, ew, eh, ex2, ey2, bx, byy, ?_⟩
  intro rx ry w h h1 h2 h3 h4
  obtain ⟨i1, i2, i3⟩ := ix rx w h1 h3
  obtain ⟨j1, j2, j3⟩ := iy ry h h2 h4
  constructor
  · rw [i1, j1, i3, j3]
    norm_num
  · rw [i2, j2]
    norm_num

/-! ## The physical coordinates that are stored -/

end CardQt
